import Mathlib

/-!
Cleanflight: deferred callback scheduler, UART serial driver and SUMH
frame decoder.

A shallow embedding of `src/main/drivers/callback.c`,
`src/main/drivers/serial_uart.c` and `src/main/rx/sumh.c`, followed by
theorems about the embedded functions.  Machine words are natural numbers reduced modulo `2 ^ 32`
explicitly; pointers to callback records are values of `RecPtr`; global
variables of a translation unit are the fields of one state structure.
-/

namespace Cleanflight

/-! ## 32-bit helpers -/

/-- The C expression `1 << id` converted to `uint32_t`.  C defines the shift
only for `0 <= id < 32`; other amounts are given the value of the shift by
`id.toNat` reduced to 32 bits. -/
def shl1 (id : Int) : Nat := (1 <<< id.toNat) % 2 ^ 32

/-- The C operator `~` on a `uint32_t`. -/
def not32 (x : Nat) : Nat := (2 ^ 32 - 1) ^^^ (x % 2 ^ 32)

/-- Lowest index `i` with `start <= i < start + n` whose bit is set in `x`. -/
def lowestBitFrom (x : Nat) : Nat → Nat → Option Nat
  | 0, _ => none
  | n + 1, start => if x.testBit start then some start else lowestBitFrom x n (start + 1)

/-- Highest index `i < n` whose bit is set in `x`. -/
def highestBitBelow (x : Nat) : Nat → Option Nat
  | 0 => none
  | n + 1 => if x.testBit n then some n else highestBitBelow x n

/-- GCC `__builtin_ffs` on a 32-bit word: one plus the index of the least
significant set bit, or zero when no bit is set. -/
def builtin_ffs (x : Nat) : Int :=
  match lowestBitFrom x 32 0 with
  | some i => (i : Int) + 1
  | none => 0

/-- GCC `__builtin_clz` on a 32-bit word: the number of leading zero bits
(the result for `0`, which C leaves undefined, is taken as 32). -/
def builtin_clz (x : Nat) : Nat :=
  match highestBitBelow x 32 with
  | some i => 31 - i
  | none => 32

/-! ## callback.c -/

/-- The constant `CALLBACK_MAX`. -/
def CALLBACK_MAX : Nat := 32

/-- A `callbackFun_t *`: functions are identified by a number. -/
abbrev callbackFun_t := Nat

/-- A `callbackRec_t *`: either the address of the global `callbackEmptyRec`
or the address of a caller-owned record. -/
inductive RecPtr where
  | emptyRec : RecPtr
  | user : Nat → RecPtr
  deriving DecidableEq, Repr

/-- The two fields of `callbackRec_t`, in the order of the initialiser
`{callbackEmptyFn, -1}`. -/
structure callbackRec_t where
  fn : callbackFun_t
  id : Int
  deriving DecidableEq, Repr

/-- The function `callbackEmptyFn`. -/
def callbackEmptyFn : callbackFun_t := 0

/-- The address `&callbackEmptyRec`. -/
def callbackEmptyRec : RecPtr := RecPtr.emptyRec

/-- The globals of `callback.c`, the memory holding the callback records, and
the pending bit of the PendSV exception. -/
structure Sched where
  callbackEntries : Nat → RecPtr
  callbackCount : Int
  callbackTriggers : Nat
  callbackFree : Nat
  mem : RecPtr → callbackRec_t
  pendSV : Bool

/-- The function `callbackInit`: both one-word masks are filled by `memset`, the 32 table
entries are pointed at `callbackEmptyRec`.  The GPIO and NVIC set-up has no
effect on the modelled state. -/
def callbackInit (s : Sched) : Sched :=
  { s with
    callbackTriggers := 0
    callbackFree := 0xFFFFFFFF
    callbackEntries := fun i => if i < CALLBACK_MAX then callbackEmptyRec else s.callbackEntries i
    callbackCount := 0 }

/-- The function `callbackRegister`. -/
def callbackRegister (self : RecPtr) (fn : callbackFun_t) (s : Sched) : Sched :=
  let id : Int := builtin_ffs s.callbackFree - 1
  if id < 0 then s
  else
    { s with
      mem := Function.update s.mem self { fn := fn, id := id }
      callbackEntries := Function.update s.callbackEntries id.toNat self
      callbackFree := s.callbackFree &&& not32 (shl1 id) }

/-- First statement of `callbackRelease`: clear the trigger bit. -/
def callbackRelease_clearTrigger (self : RecPtr) (s : Sched) : Sched :=
  { s with callbackTriggers := s.callbackTriggers &&& not32 (shl1 (s.mem self).id) }

/-- Second statement of `callbackRelease`: remove the table entry. -/
def callbackRelease_removeEntry (self : RecPtr) (s : Sched) : Sched :=
  { s with callbackEntries := Function.update s.callbackEntries (s.mem self).id.toNat callbackEmptyRec }

/-- Third statement of `callbackRelease`: mark the position as free. -/
def callbackRelease_markFree (self : RecPtr) (s : Sched) : Sched :=
  { s with callbackFree := (s.callbackFree ||| shl1 (s.mem self).id) % 2 ^ 32 }

/-- The function `callbackRelease`: its three statements in order. -/
def callbackRelease (self : RecPtr) (s : Sched) : Sched :=
  callbackRelease_markFree self (callbackRelease_removeEntry self (callbackRelease_clearTrigger self s))

/-- The function `callbackTrigger`. -/
def callbackTrigger (self : RecPtr) (s : Sched) : Sched :=
  { s with
    callbackTriggers := (s.callbackTriggers ||| shl1 (s.mem self).id) % 2 ^ 32
    pendSV := true }

/-- One invocation made by the deferred handler: the slot, the record found
in the table at that slot, and the function read from that record. -/
structure Call where
  idx : Nat
  self : RecPtr
  fn : callbackFun_t
  deriving DecidableEq, Repr

/-- The function `callbackCall`: the `while` loop, one iteration per unit of fuel.  The
effect of calling function `fn` on record `self` is given by `invoke`.  The
result is `none` when the fuel runs out before the mask is empty. -/
def callbackCall (invoke : callbackFun_t → RecPtr → Sched → Sched) :
    Nat → Sched → Option (Sched × List Call)
  | 0, s => if s.callbackTriggers = 0 then some (s, []) else none
  | fuel + 1, s =>
    if s.callbackTriggers = 0 then some (s, [])
    else
      let idx : Nat := (31 - builtin_clz s.callbackTriggers) % 256
      let s1 : Sched := { s with callbackTriggers := s.callbackTriggers &&& not32 (shl1 idx) }
      let self : RecPtr := s1.callbackEntries idx
      let fn : callbackFun_t := (s1.mem self).fn
      match callbackCall invoke fuel (invoke fn self s1) with
      | some (s2, log) => some (s2, { idx := idx, self := self, fn := fn } :: log)
      | none => none

/-! ## serial_uart.c -/

/-- Addition of two `uint32_t`. -/
def add32 (a b : Nat) : Nat := (a + b) % 2 ^ 32

/-- Subtraction of two `uint32_t`: the difference when it is not negative,
and `2 ^ 32` more than the difference when it is (wrap-around). -/
def sub32 (a b : Nat) : Nat :=
  if b % 2 ^ 32 ≤ a % 2 ^ 32 then a % 2 ^ 32 - b % 2 ^ 32
  else a % 2 ^ 32 + 2 ^ 32 - b % 2 ^ 32

/-- Bit constants of `serial.h` and of the STM32 peripheral library.  Their
values are not part of the sources at hand, so the driver is embedded over
an arbitrary choice of them. -/
structure Consts where
  MODE_RX : Nat
  MODE_TX : Nat
  MODE_U_DMARX : Nat
  MODE_U_DMATX : Nat
  MODE_SBUS : Nat
  STATE_RX : Nat
  STATE_TX : Nat
  USART_IT_RXNE : Nat
  USART_IT_TXE : Nat
  USART_Mode_Rx : Nat
  USART_Mode_Tx : Nat

/-- The fields of `USART_InitTypeDef` that `uartReconfigure` fills in (word
length is always 8 bits, hardware flow control always none). -/
structure USART_InitTypeDef where
  USART_BaudRate : Nat
  USART_StopBits : Nat
  USART_ParityEven : Bool
  USART_Mode : Nat
  deriving DecidableEq, Repr

/-- The peripheral behind `USARTx`, as far as the driver drives it:
`cmds` is the history of `USART_Cmd` calls (`true` for ENABLE, latest last),
`enabled` the resulting enable bit, `config` the last `USART_Init`,
`itTXE` and `itRXNE` the interrupt enables set by `USART_ITConfig`, and
`sent` the bytes handed to `USART_SendData` (latest last). -/
structure USART_TypeDef where
  enabled : Bool
  cmds : List Bool
  config : Option USART_InitTypeDef
  itTXE : Bool
  itRXNE : Bool
  sent : List Nat

/-- The registers of a DMA channel that the driver touches.  `CMAR` holds
an address inside `txBuffer`, kept as the index of the addressed element. -/
structure DMA_Channel_TypeDef where
  CNDTR : Nat
  CMAR : Nat
  CCR : Nat
  deriving DecidableEq, Repr

/-- The structure `serialPort_t`: the generic port.  Buffers are maps from index to
byte; `rxCallback` is `none` for a null pointer. -/
structure serialPort_t where
  mode : Nat
  state : Nat
  baudRate : Nat
  rxCallback : Option Nat
  rxBufferSize : Nat
  txBufferSize : Nat
  rxBuffer : Nat → Nat
  txBuffer : Nat → Nat
  rxBufferHead : Nat
  rxBufferTail : Nat
  txBufferHead : Nat
  txBufferTail : Nat

/-- The structure `uartPort_t`: the generic port with its hardware binding.  The DMA
channel fields are the register blocks the channel pointers designate; the
functions below read them only in DMA mode.  `rxCalls` records the calls made
through `rxCallback` (callback and argument, latest last). -/
structure uartPort_t where
  port : serialPort_t
  USARTx : USART_TypeDef
  rxDMAChannel : DMA_Channel_TypeDef
  txDMAChannel : DMA_Channel_TypeDef
  rxDMAPos : Nat
  txDMAEmpty : Bool
  rxCalls : List (Nat × Nat)

/-- The call `USART_Cmd(USARTx, ENABLE)` or `USART_Cmd(USARTx, DISABLE)`. -/
def USART_Cmd (en : Bool) (u : USART_TypeDef) : USART_TypeDef :=
  { u with enabled := en, cmds := u.cmds ++ [en] }

/-- The function `uartReconfigure`. -/
def uartReconfigure (K : Consts) (self : uartPort_t) : uartPort_t :=
  let u1 := USART_Cmd false self.USARTx
  let sbus : Bool := self.port.mode &&& K.MODE_SBUS != 0
  let m0 : Nat := 0
  let m1 : Nat := if self.port.state &&& K.STATE_RX != 0 then m0 ||| K.USART_Mode_Rx else m0
  let m2 : Nat := if self.port.state &&& K.STATE_TX != 0 then m1 ||| K.USART_Mode_Tx else m1
  let cfg : USART_InitTypeDef :=
    { USART_BaudRate := self.port.baudRate
      USART_StopBits := if sbus then 2 else 1
      USART_ParityEven := sbus
      USART_Mode := m2 }
  let u2 := { u1 with config := some cfg }
  { self with USARTx := USART_Cmd true u2 }

/-- The function `uartUpdateState`. -/
def uartUpdateState (K : Consts) (andMask orMask : Nat) (self : uartPort_t) : uartPort_t :=
  let newState : Nat := (self.port.state &&& andMask) ||| orMask
  uartReconfigure K { self with port := { self.port with state := newState } }

/-- The function `uartRelease`. -/
def uartRelease (K : Consts) (self : uartPort_t) : uartPort_t :=
  let s1 := uartUpdateState K 0 0 self
  let s2 := { s1 with USARTx := USART_Cmd false s1.USARTx }
  let s3 := uartReconfigure K s2
  { s3 with port := { s3.port with mode := 0 } }

/-- The receive-DMA branch of `uartOpen` (lines 121 to 140), reduced to what
it leaves in the modelled state: `DMA_Init` loads the transfer count with
`rxBufferSize`, `rxDMAPos` is read back from it, and the mode gains
`MODE_U_DMARX`. -/
def uartOpen_rxDMA (K : Consts) (self : uartPort_t) : uartPort_t :=
  let ch := { self.rxDMAChannel with CNDTR := self.port.rxBufferSize }
  { self with
    rxDMAChannel := ch
    rxDMAPos := ch.CNDTR
    port := { self.port with mode := self.port.mode ||| K.MODE_U_DMARX } }

/-- The function `uartStartTxDMA`. -/
def uartStartTxDMA (self : uartPort_t) : uartPort_t :=
  let ch0 := { self.txDMAChannel with CMAR := self.port.txBufferTail }
  let (ch1, port1) :=
    if self.port.txBufferHead > self.port.txBufferTail then
      ({ ch0 with CNDTR := sub32 self.port.txBufferHead self.port.txBufferTail },
       { self.port with txBufferTail := self.port.txBufferHead })
    else
      ({ ch0 with CNDTR := sub32 self.port.txBufferSize self.port.txBufferTail },
       { self.port with txBufferTail := 0 })
  { self with
    port := port1
    txDMAEmpty := false
    txDMAChannel := { ch1 with CCR := ch1.CCR ||| 1 } }

/-- The receive part of `uartIrqHandler` (lines 258 to 265); `data` is the
value returned by `USART_ReceiveData`. -/
def uartIrqHandler_rx (K : Consts) (flags data : Nat) (self : uartPort_t) : uartPort_t :=
  if self.port.mode &&& K.MODE_U_DMARX = 0 ∧ flags &&& K.USART_IT_RXNE ≠ 0 then
    match self.port.rxCallback with
    | some cb => { self with rxCalls := self.rxCalls ++ [(cb, data % 2 ^ 16)] }
    | none =>
      { self with
        port := { self.port with
          rxBuffer := Function.update self.port.rxBuffer self.port.rxBufferHead (data % 256)
          rxBufferHead := add32 self.port.rxBufferHead 1 &&& sub32 self.port.rxBufferSize 1 } }
  else self

/-- The transmit part of `uartIrqHandler` (lines 267 to 274). -/
def uartIrqHandler_tx (K : Consts) (flags : Nat) (self : uartPort_t) : uartPort_t :=
  if self.port.mode &&& K.MODE_U_DMATX = 0 ∧ flags &&& K.USART_IT_TXE ≠ 0 then
    if self.port.txBufferTail ≠ self.port.txBufferHead then
      { self with
        USARTx := { self.USARTx with sent := self.USARTx.sent ++ [self.port.txBuffer self.port.txBufferTail] }
        port := { self.port with
          txBufferTail := add32 self.port.txBufferTail 1 &&& sub32 self.port.txBufferSize 1 } }
    else
      { self with USARTx := { self.USARTx with itTXE := false } }
  else self

/-- The function `uartIrqHandler`: `flags` is the status register read on entry, `data`
the value `USART_ReceiveData` returns.  Clearing the overrun flag on the
STM32F303 does not touch the modelled state. -/
def uartIrqHandler (K : Consts) (flags data : Nat) (self : uartPort_t) : uartPort_t :=
  uartIrqHandler_tx K flags (uartIrqHandler_rx K flags data self)

/-- The function `isUartTransmitBufferEmpty`. -/
def isUartTransmitBufferEmpty (K : Consts) (self : uartPort_t) : Bool :=
  if self.port.mode &&& K.MODE_U_DMATX ≠ 0 then self.txDMAEmpty
  else decide (self.port.txBufferTail = self.port.txBufferHead)

/-- The function `uartPutc`. -/
def uartPutc (K : Consts) (ch : Nat) (self : uartPort_t) : uartPort_t :=
  let s1 : uartPort_t :=
    { self with
      port := { self.port with
        txBuffer := Function.update self.port.txBuffer self.port.txBufferHead (ch % 256)
        txBufferHead := add32 self.port.txBufferHead 1 &&& sub32 self.port.txBufferSize 1 } }
  if s1.port.mode &&& K.MODE_U_DMATX ≠ 0 then
    if s1.txDMAChannel.CCR &&& 1 = 0 then uartStartTxDMA s1 else s1
  else
    { s1 with USARTx := { s1.USARTx with itTXE := true } }

/-- The function `uartTotalBytesWaiting`; the result is the `uint32_t` value of the
returned expression. -/
def uartTotalBytesWaiting (K : Consts) (self : uartPort_t) : Nat :=
  if self.port.mode &&& K.MODE_U_DMARX ≠ 0 then
    sub32 self.rxDMAChannel.CNDTR self.rxDMAPos &&& sub32 self.port.rxBufferSize 1
  else
    sub32 self.port.rxBufferHead self.port.rxBufferTail &&& sub32 self.port.rxBufferSize 1

/-- The function `uartGetc`: the byte returned and the state left behind. -/
def uartGetc (K : Consts) (self : uartPort_t) : Nat × uartPort_t :=
  if self.port.mode &&& K.MODE_U_DMARX ≠ 0 then
    let ch := self.port.rxBuffer (sub32 self.port.rxBufferSize self.rxDMAPos)
    let pos := sub32 self.rxDMAPos 1
    (ch % 256, { self with rxDMAPos := if pos = 0 then self.port.rxBufferSize else pos })
  else
    let ch := self.port.rxBuffer self.port.rxBufferTail
    (ch % 256,
     { self with
       port := { self.port with
         rxBufferTail := add32 self.port.rxBufferTail 1 &&& sub32 self.port.rxBufferSize 1 } })

/-- Hardware model of the circular receive DMA channel: one received byte
is written at offset `rxBufferSize - CNDTR` of the buffer, the transfer
count goes down by one and is reloaded with the buffer size on reaching
zero. -/
def dmaRxDeposit (byte : Nat) (self : uartPort_t) : uartPort_t :=
  let c := self.rxDMAChannel.CNDTR
  { self with
    port := { self.port with
      rxBuffer := Function.update self.port.rxBuffer (self.port.rxBufferSize - c) (byte % 256) }
    rxDMAChannel := { self.rxDMAChannel with
      CNDTR := if c - 1 = 0 then self.port.rxBufferSize else c - 1 } }

/-! ## Traces of the scheduler interface and sample states -/

/-- A call of the registration interface. -/
inductive Op where
  | register : RecPtr → callbackFun_t → Op
  | release : RecPtr → Op
  deriving DecidableEq, Repr

/-- A scheduler state together with the records that are live in it
(registered with success and not released since), and whether every
release so far was applied to a live record. -/
structure Run where
  sched : Sched
  live : List RecPtr
  valid : Bool

/-- Whether `callbackRegister` gets past its early `return` in state `s`. -/
def registerSucceeds (s : Sched) : Bool := decide (¬ (builtin_ffs s.callbackFree - 1 < 0))

/-- One call of the interface: the code runs on the scheduler state, and
the live list follows it. -/
def stepOp (t : Run) : Op → Run
  | Op.register r fn =>
    { sched := callbackRegister r fn t.sched
      live := if registerSucceeds t.sched then r :: t.live else t.live
      valid := t.valid }
  | Op.release r =>
    { sched := callbackRelease r t.sched
      live := t.live.filter (fun x => decide (x ≠ r))
      valid := t.valid && decide (r ∈ t.live) }

/-- A sequence of calls made after `callbackInit` has run on `s0`. -/
def runOps (s0 : Sched) (ops : List Op) : Run :=
  ops.foldl stepOp { sched := callbackInit s0, live := [], valid := true }

/-- No two distinct live records hold the same slot id. -/
def distinctIds (t : Run) : Prop :=
  ∀ r1 ∈ t.live, ∀ r2 ∈ t.live, r1 ≠ r2 → (t.sched.mem r1).id ≠ (t.sched.mem r2).id

instance (t : Run) : Decidable (distinctIds t) := by
  unfold distinctIds; infer_instance

/-- The invariant behind C1: the free mask is a 32-bit word, and every live
record holds a slot number, sits in the table at that slot, and that slot is
not free. -/
def liveInv (t : Run) : Prop :=
  t.sched.callbackFree < 2 ^ 32 ∧
  ∀ r ∈ t.live, ∃ n : Nat, n < 32 ∧ (t.sched.mem r).id = (n : Int) ∧
    t.sched.callbackEntries n = r ∧ t.sched.callbackFree.testBit n = false

/-- The slots whose bit is set in `m`, among slots below `n`, highest first. -/
def descBits (m : Nat) : Nat → List Nat
  | 0 => []
  | n + 1 => if m.testBit n then n :: descBits m n else descBits m n

/-- The memory image before `callbackInit`: `callbackEmptyRec` carries its
static initialiser, caller-owned records are zeroed.  The table content is
immaterial, `callbackInit` overwrites all of it. -/
def bootSched : Sched :=
  { callbackEntries := fun _ => callbackEmptyRec
    callbackCount := 0
    callbackTriggers := 0
    callbackFree := 0
    mem := fun r =>
      match r with
      | RecPtr.emptyRec => { fn := callbackEmptyFn, id := -1 }
      | RecPtr.user _ => { fn := 0, id := 0 }
    pendSV := false }

/-- The state after `callbackInit` and 32 registrations of the records
`user 0` to `user 31`, record `user i` with function `100 + i`. -/
def fullSched : Sched :=
  (List.range 32).foldl (fun s i => callbackRegister (RecPtr.user i) (100 + i) s) (callbackInit bootSched)

/-- The state after `callbackInit`, registration of `user 0` to `user 9`
and a trigger of the records in slots 3 and 9. -/
def triggered39 : Sched :=
  callbackTrigger (RecPtr.user 9) (callbackTrigger (RecPtr.user 3)
    ((List.range 10).foldl (fun s i => callbackRegister (RecPtr.user i) (100 + i) s)
      (callbackInit bootSched)))

/-- A callback that does nothing to the scheduler. -/
def idleInvoke : callbackFun_t → RecPtr → Sched → Sched := fun _ _ s => s

/-- One choice of the bit constants, each flag a single bit of its own. -/
def K0 : Consts :=
  { MODE_RX := 1, MODE_TX := 2, MODE_U_DMARX := 16, MODE_U_DMATX := 32, MODE_SBUS := 8
    STATE_RX := 1, STATE_TX := 2
    USART_IT_RXNE := 0x20, USART_IT_TXE := 0x80
    USART_Mode_Rx := 4, USART_Mode_Tx := 8 }

/-- A port with both buffers of size `size`, empty, no callback, mode
`mode`, peripheral not yet enabled. -/
def samplePort (size mode : Nat) : uartPort_t :=
  { port :=
      { mode := mode, state := 0, baudRate := 115200, rxCallback := none
        rxBufferSize := size, txBufferSize := size
        rxBuffer := fun _ => 0, txBuffer := fun _ => 0
        rxBufferHead := 0, rxBufferTail := 0, txBufferHead := 0, txBufferTail := 0 }
    USARTx := { enabled := false, cmds := [], config := none, itTXE := false, itRXNE := false, sent := [] }
    rxDMAChannel := { CNDTR := 0, CMAR := 0, CCR := 0 }
    txDMAChannel := { CNDTR := 0, CMAR := 0, CCR := 0 }
    rxDMAPos := 0
    txDMAEmpty := true
    rxCalls := [] }

/-! ## A trigger arriving while a release is in progress -/

/-- The points at which `callbackTrigger(r)` can fall relative to the three
statements of `callbackRelease(r)`. -/
inductive TriggerPoint where
  | beforeRelease : TriggerPoint
  | afterClearTrigger : TriggerPoint
  | afterRemoveEntry : TriggerPoint
  | afterRelease : TriggerPoint
  deriving DecidableEq, Repr

/-- The statements of `callbackRelease(r)` with `callbackTrigger(r)` run at
the given point. -/
def releaseWithTrigger (p : TriggerPoint) (r : RecPtr) (s : Sched) : Sched :=
  match p with
  | TriggerPoint.beforeRelease =>
    callbackRelease_markFree r (callbackRelease_removeEntry r
      (callbackRelease_clearTrigger r (callbackTrigger r s)))
  | TriggerPoint.afterClearTrigger =>
    callbackRelease_markFree r (callbackRelease_removeEntry r
      (callbackTrigger r (callbackRelease_clearTrigger r s)))
  | TriggerPoint.afterRemoveEntry =>
    callbackRelease_markFree r (callbackTrigger r
      (callbackRelease_removeEntry r (callbackRelease_clearTrigger r s)))
  | TriggerPoint.afterRelease =>
    callbackTrigger r (callbackRelease_markFree r
      (callbackRelease_removeEntry r (callbackRelease_clearTrigger r s)))

/-- A live record in the sense of the data model (registered once, not yet
released): a caller-owned record whose id is a slot number, which the table
holds at that slot and at no other of the 32 slots. -/
def liveOnce (r : RecPtr) (s : Sched) : Prop :=
  r ≠ callbackEmptyRec ∧ 0 ≤ (s.mem r).id ∧ (s.mem r).id < 32 ∧
  s.callbackEntries (s.mem r).id.toNat = r ∧
  ∀ i, i < 32 → i ≠ (s.mem r).id.toNat → s.callbackEntries i ≠ r

instance (r : RecPtr) (s : Sched) : Decidable (liveOnce r s) := by
  unfold liveOnce; infer_instance

/-! ## Driving the receive side of a port -/

/-- The receive interrupt taken once for each element of `bs` in turn, with
status flags `flags` and the element as received data. -/
def receiveBytes (K : Consts) (flags : Nat) (bs : List Nat) (self : uartPort_t) : uartPort_t :=
  bs.foldl (fun st b => uartIrqHandler K flags b st) self

/-- What `n` rounds of `uartTotalBytesWaiting` followed by `uartGetc` return:
the counts, the bytes, and the state left behind. -/
def getBytes (K : Consts) : Nat → uartPort_t → List Nat × List Nat × uartPort_t
  | 0, st => ([], [], st)
  | n + 1, st =>
    let w := uartTotalBytesWaiting K st
    let r := uartGetc K st
    let rest := getBytes K n r.2
    (w :: rest.1, r.1 :: rest.2.1, rest.2.2)

/-- The interrupt-mode receive ring of `st`, of size `2 ^ k`, holds exactly
the bytes `q`, oldest first, between tail and head. -/
def rxHolds (K : Consts) (k : Nat) (st : uartPort_t) (q : List Nat) : Prop :=
  k < 32 ∧ st.port.rxBufferSize = 2 ^ k ∧ st.port.mode &&& K.MODE_U_DMARX = 0 ∧
  st.port.rxCallback = none ∧ st.port.rxBufferTail < 2 ^ k ∧ q.length < 2 ^ k ∧
  st.port.rxBufferHead = (st.port.rxBufferTail + q.length) % 2 ^ k ∧
  ∀ i b, q[i]? = some b → st.port.rxBuffer ((st.port.rxBufferTail + i) % 2 ^ k) = b ∧ b < 256

/-- All four ring indices of the port are below the size of their buffer. -/
def indicesInRange (st : uartPort_t) : Prop :=
  st.port.rxBufferHead < st.port.rxBufferSize ∧ st.port.rxBufferTail < st.port.rxBufferSize ∧
  st.port.txBufferHead < st.port.txBufferSize ∧ st.port.txBufferTail < st.port.txBufferSize

instance (st : uartPort_t) : Decidable (indicesInRange st) := by
  unfold indicesInRange; infer_instance

/-- Both buffer sizes of `b` are those of `a`. -/
def sameSizes (a b : uartPort_t) : Prop :=
  b.port.rxBufferSize = a.port.rxBufferSize ∧ b.port.txBufferSize = a.port.txBufferSize

/-- A port of buffer size 8 opened for DMA receive, into which the DMA
channel has deposited the one byte 65 and from which nothing was read. -/
def dmaOneUnread : uartPort_t :=
  dmaRxDeposit 65 (uartOpen_rxDMA K0 (samplePort 8 K0.MODE_RX))

/-! ## rx/sumh.c -/

/-- The constant `SUMH_MAX_CHANNEL_COUNT`. -/
def SUMH_MAX_CHANNEL_COUNT : Nat := 8

/-- The constant `SUMH_FRAME_SIZE`. -/
def SUMH_FRAME_SIZE : Nat := 21

/-- Modelled from the spec: the two results of the frame-status query,
`SERIAL_RX_FRAME_PENDING` and `SERIAL_RX_FRAME_COMPLETE`.  Their values are
declared in `rx/rx.h`, which is not among the sources; the spec gives them as
the two distinct answers "frame pending" and "frame complete". -/
inductive FrameStatus where
  | SERIAL_RX_FRAME_PENDING : FrameStatus
  | SERIAL_RX_FRAME_COMPLETE : FrameStatus
  deriving DecidableEq, Repr

/-- The file-scope and function-scope statics of `sumh.c`: the frame
buffer and the channel array are maps from index to value. -/
structure SumhState where
  sumhFrameDone : Bool
  sumhFrame : Nat → Nat
  sumhChannels : Nat → Nat
  sumhTimeLast : Nat
  sumhTimeInterval : Nat
  sumhFramePosition : Nat

/-- The function `sumhDataReceive`; `now` is the value returned by
`micros()`, a `uint32_t`. -/
def sumhDataReceive (c now : Nat) (s : SumhState) : SumhState :=
  let sumhTime : Nat := now % 2 ^ 32
  let interval : Nat := sub32 sumhTime s.sumhTimeLast
  let pos : Nat := if interval > 5000 then 0 else s.sumhFramePosition
  let frame : Nat → Nat := Function.update s.sumhFrame pos (c % 256)
  if pos = SUMH_FRAME_SIZE - 1 then
    { s with
      sumhTimeInterval := interval, sumhTimeLast := sumhTime
      sumhFramePosition := pos, sumhFrame := frame, sumhFrameDone := true }
  else
    { s with
      sumhTimeInterval := interval, sumhTimeLast := sumhTime
      sumhFramePosition := (pos + 1) % 256, sumhFrame := frame }

/-- The 16-bit word the loop of `sumhFrameStatus` builds for one channel:
`((uint32_t)sumhFrame[(i << 1) + 3] << 8) + sumhFrame[(i << 1) + 4]`. -/
def sumhRawWord (frame : Nat → Nat) (channelIndex : Nat) : Nat :=
  add32 ((frame ((channelIndex <<< 1) + 3) <<< 8) % 2 ^ 32) (frame ((channelIndex <<< 1) + 4))

/-- The function `sumhFrameStatus`: the status returned and the state left
behind.  The channel formula `x / 6.4 - 375` is evaluated in `double` and
converted to `uint32_t`; what that yields for the word `x` is given by
`conv`. -/
def sumhFrameStatus (conv : Nat → Nat) (s : SumhState) : FrameStatus × SumhState :=
  if s.sumhFrameDone = false then (FrameStatus.SERIAL_RX_FRAME_PENDING, s)
  else
    let s1 : SumhState := { s with sumhFrameDone := false }
    if ¬ (s1.sumhFrame 0 = 0xA8 ∧ s1.sumhFrame (SUMH_FRAME_SIZE - 2) = 0) then
      (FrameStatus.SERIAL_RX_FRAME_PENDING, s1)
    else
      (FrameStatus.SERIAL_RX_FRAME_COMPLETE,
       { s1 with
         sumhChannels := (List.range SUMH_MAX_CHANNEL_COUNT).foldl
           (fun ch channelIndex =>
             Function.update ch channelIndex (conv (sumhRawWord s1.sumhFrame channelIndex) % 2 ^ 32))
           s1.sumhChannels })

/-- The function `sumhReadRawRC` for the 8-bit index `chan`: the `uint16_t`
returned, and the decoder state, which the function does not write. -/
def sumhReadRawRC (chan : Nat) (s : SumhState) : Nat × SumhState :=
  if chan ≥ SUMH_MAX_CHANNEL_COUNT then (0, s)
  else (s.sumhChannels chan % 2 ^ 16, s)

/-- A decoder state whose frame is complete and was already polled: cursor
at the last index, completion flag cleared, frame bytes `0xA8, 1, 2, ...`. -/
def sumhPolled : SumhState :=
  { sumhFrameDone := false
    sumhFrame := fun i => if i = 0 then 0xA8 else if i = 19 then 0 else i
    sumhChannels := fun i => 1000 + i
    sumhTimeLast := 70000
    sumhTimeInterval := 90
    sumhFramePosition := 20 }

/-- A stand-in for the floating-point channel formula, used where a
concrete one is needed to run the decoder. -/
def sampleConv (x : Nat) : Nat := x * 5 / 32

/-- The sample port with a receive callback installed (callback number 7). -/
def callbackPort : uartPort_t :=
  { samplePort 8 1 with port := { (samplePort 8 1).port with rxCallback := some 7 } }

/-! ## Driving the transmit side of a port -/

/-- The calls `uartPutc` made once for each element of `bs` in turn. -/
def putBytes (K : Consts) (bs : List Nat) (self : uartPort_t) : uartPort_t :=
  bs.foldl (fun st b => uartPutc K b st) self

/-- The interrupt handler run `n` times with status flags `flags` and
received data `data`: what `isUartTransmitBufferEmpty` returned before each
run, and the state left behind. -/
def txInterrupts (K : Consts) (flags data : Nat) : Nat → uartPort_t → List Bool × uartPort_t
  | 0, st => ([], st)
  | n + 1, st =>
    let e := isUartTransmitBufferEmpty K st
    let r := txInterrupts K flags data n (uartIrqHandler K flags data st)
    (e :: r.1, r.2)

/-- The interrupt-mode transmit ring of `st`, of size `2 ^ k`, holds exactly
the bytes `q`, oldest first, between tail and head. -/
def txHolds (K : Consts) (k : Nat) (st : uartPort_t) (q : List Nat) : Prop :=
  k < 32 ∧ st.port.txBufferSize = 2 ^ k ∧ st.port.mode &&& K.MODE_U_DMATX = 0 ∧
  st.port.txBufferTail < 2 ^ k ∧ q.length < 2 ^ k ∧
  st.port.txBufferHead = (st.port.txBufferTail + q.length) % 2 ^ k ∧
  ∀ i b, q[i]? = some b → st.port.txBuffer ((st.port.txBufferTail + i) % 2 ^ k) = b ∧ b < 256

/-! ## Driving a port in DMA receive mode -/

/-- What happens to a port in DMA receive mode: the DMA channel deposits a
received byte, or the consumer calls `uartGetc`. -/
inductive RxEvent where
  | deposit : Nat → RxEvent
  | get : RxEvent
  deriving DecidableEq, Repr

/-- A port in DMA receive mode together with the bytes deposited so far,
the bytes `uartGetc` has returned so far, and whether so far every get found
an unread byte, every deposited value was a byte, and no deposit left more
than `rxBufferSize - 1` bytes unread. -/
structure DmaRun where
  st : uartPort_t
  deposited : List Nat
  got : List Nat
  ok : Bool

/-- One event on a port in DMA receive mode. -/
def stepDma (K : Consts) (t : DmaRun) : RxEvent → DmaRun
  | RxEvent.deposit b =>
    { st := dmaRxDeposit b t.st
      deposited := t.deposited ++ [b]
      got := t.got
      ok := t.ok && decide (b < 256) &&
        decide (t.deposited.length + 2 ≤ t.got.length + t.st.port.rxBufferSize) }
  | RxEvent.get =>
    { st := (uartGetc K t.st).2
      deposited := t.deposited
      got := t.got ++ [(uartGetc K t.st).1]
      ok := t.ok && decide (t.got.length < t.deposited.length) }

/-- A sequence of events on the port `st0` after the receive-DMA branch of
`uartOpen` has run on it. -/
def runDma (K : Consts) (st0 : uartPort_t) (evs : List RxEvent) : DmaRun :=
  evs.foldl (stepDma K) { st := uartOpen_rxDMA K st0, deposited := [], got := [], ok := true }

/-- The invariant of a run in DMA receive mode with buffer size `size`: the
transfer count follows the number of deposits, `rxDMAPos` the number of gets,
the unread bytes sit in the buffer at their arrival index modulo the size, and
the bytes returned are the first bytes deposited. -/
def dmaInv (K : Consts) (size : Nat) (t : DmaRun) : Prop :=
  t.st.port.rxBufferSize = size ∧ t.st.port.mode &&& K.MODE_U_DMARX ≠ 0 ∧
  t.got.length ≤ t.deposited.length ∧ t.deposited.length + 1 ≤ t.got.length + size ∧
  t.st.rxDMAChannel.CNDTR = size - t.deposited.length % size ∧
  t.st.rxDMAPos = size - t.got.length % size ∧
  (∀ n b, t.got.length ≤ n → t.deposited[n]? = some b →
    t.st.port.rxBuffer (n % size) = b ∧ b < 256) ∧
  t.got = t.deposited.take t.got.length

/-- Five bytes through a DMA receive buffer of size 4, never more than three
unread: the reads cross the wrap-around of the buffer. -/
def dmaWrapEvents : List RxEvent :=
  [RxEvent.deposit 10, RxEvent.deposit 11, RxEvent.deposit 12, RxEvent.get, RxEvent.get,
   RxEvent.deposit 13, RxEvent.deposit 14, RxEvent.get, RxEvent.get, RxEvent.get]

/-! ## Traces of the whole scheduler interface -/

/-- A call of the scheduler interface, or a run of the deferred handler. -/
inductive SchedOp where
  | register : RecPtr → callbackFun_t → SchedOp
  | release : RecPtr → SchedOp
  | trigger : RecPtr → SchedOp
  | handler : SchedOp
  deriving DecidableEq, Repr

/-- A run of `PendSV_Handler`, that is of `callbackCall`, with callbacks
that do nothing to the scheduler; 32 iterations are enough for every 32-bit
triggered mask. -/
def handlerStep (s : Sched) : Sched :=
  match callbackCall idleInvoke 32 s with
  | some (s1, _) => s1
  | none => s

/-- One step of a trace over the whole interface.  The code runs on the
scheduler state whatever the arguments; `valid` records whether so far every
registered record was caller-owned and every release and every trigger was
applied to a record live at that moment. -/
def stepSched (t : Run) : SchedOp → Run
  | SchedOp.register r fn =>
    { sched := callbackRegister r fn t.sched
      live := if registerSucceeds t.sched then r :: t.live else t.live
      valid := t.valid && decide (r ≠ callbackEmptyRec) }
  | SchedOp.release r =>
    { sched := callbackRelease r t.sched
      live := t.live.filter (fun x => decide (x ≠ r))
      valid := t.valid && decide (r ∈ t.live) }
  | SchedOp.trigger r =>
    { sched := callbackTrigger r t.sched
      live := t.live
      valid := t.valid && decide (r ∈ t.live) }
  | SchedOp.handler =>
    { sched := handlerStep t.sched, live := t.live, valid := t.valid }

/-- A trace over the whole interface, run after `callbackInit` on `s0`. -/
def runSched (s0 : Sched) (ops : List SchedOp) : Run :=
  ops.foldl stepSched { sched := callbackInit s0, live := [], valid := true }

/-- Every set bit of the triggered mask belongs to a slot whose table entry
is not the shared no-op record. -/
def triggeredAreReal (s : Sched) : Prop :=
  ∀ i, i < 32 → s.callbackTriggers.testBit i = true → s.callbackEntries i ≠ callbackEmptyRec

instance (s : Sched) : Decidable (triggeredAreReal s) := by
  unfold triggeredAreReal; infer_instance

/-- The invariant of a disciplined trace: the live records are caller-owned
and placed as `liveInv` says, the triggered mask is a 32-bit word, and
triggered slots hold real records. -/
def schedInv (t : Run) : Prop :=
  liveInv t ∧ (∀ r ∈ t.live, r ≠ callbackEmptyRec) ∧
  t.sched.callbackTriggers < 2 ^ 32 ∧ triggeredAreReal t.sched

/-- A port with a transmit ring of size 8 whose pending run wraps: tail at
index 6, head at index 2. -/
def wrappedTxPort : uartPort_t :=
  { samplePort 8 35 with
    port := { (samplePort 8 35).port with txBufferHead := 2, txBufferTail := 6 } }

/-! ## Feeding the SUMH decoder -/

/-- The receive callback run once for each element of `evs` in turn; an
element is the received byte and the value of `micros()` at its arrival. -/
def sumhFeed (s : SumhState) (evs : List (Nat × Nat)) : SumhState :=
  evs.foldl (fun st e => sumhDataReceive e.1 e.2 st) s

/-- Every element of `evs` arrives at most 5000 time-units (modulo
`2 ^ 32`) after its predecessor, the first one after time `last`. -/
def noGaps : Nat → List (Nat × Nat) → Bool
  | _, [] => true
  | last, e :: evs => decide (sub32 (e.2 % 2 ^ 32) last ≤ 5000) && noGaps (e.2 % 2 ^ 32) evs

/-- The index of `sumhFrame` that `sumhDataReceive` writes when called at
time `now` in state `s`: the cursor, after the reset that a gap causes. -/
def sumhWriteIndex (now : Nat) (s : SumhState) : Nat :=
  if sub32 (now % 2 ^ 32) s.sumhTimeLast > 5000 then 0 else s.sumhFramePosition

/-- The indices of `sumhFrame` that `sumhFrameStatus` reads: 0,
`SUMH_FRAME_SIZE - 2`, and `(i << 1) + 3`, `(i << 1) + 4` for each channel. -/
def sumhReadIndices : List Nat :=
  [0, SUMH_FRAME_SIZE - 2] ++
    (List.range SUMH_MAX_CHANNEL_COUNT).flatMap (fun i => [(i <<< 1) + 3, (i <<< 1) + 4])

/-- The bytes `1, 2, ..., 20` with arrival times 90 time-units apart,
starting 90 after time 80000. -/
def sampleFrameTail : List (Nat × Nat) :=
  (List.range 20).map (fun i => (i + 1, 80090 + 90 * i))

/-! ## Traces that follow the record lifecycle -/

/-- One step of a trace over the whole interface, as `stepSched`, with
another discipline recorded in `valid`: so far every registered record was
caller-owned and not live at that moment, and every release was applied to a
record live at that moment.  Triggers are not restricted. -/
def stepLifecycle (t : Run) : SchedOp → Run
  | SchedOp.register r fn =>
    { sched := callbackRegister r fn t.sched
      live := if registerSucceeds t.sched then r :: t.live else t.live
      valid := t.valid && decide (r ≠ callbackEmptyRec) && decide (r ∉ t.live) }
  | SchedOp.release r =>
    { sched := callbackRelease r t.sched
      live := t.live.filter (fun x => decide (x ≠ r))
      valid := t.valid && decide (r ∈ t.live) }
  | SchedOp.trigger r =>
    { sched := callbackTrigger r t.sched, live := t.live, valid := t.valid }
  | SchedOp.handler =>
    { sched := handlerStep t.sched, live := t.live, valid := t.valid }

/-- A trace run after `callbackInit` on `s0`, with the lifecycle discipline
recorded. -/
def runLifecycle (s0 : Sched) (ops : List SchedOp) : Run :=
  ops.foldl stepLifecycle { sched := callbackInit s0, live := [], valid := true }

/-- For each of the 32 slots, the free bit is set exactly when the table
entry is the shared no-op record. -/
def freeIffEmpty (s : Sched) : Prop :=
  ∀ i, i < 32 → (s.callbackFree.testBit i = true ↔ s.callbackEntries i = callbackEmptyRec)

instance (s : Sched) : Decidable (freeIffEmpty s) := by
  unfold freeIffEmpty; infer_instance

/-- The number of set bits among the 32 bits of the free mask. -/
def freeCount (s : Sched) : Nat := (descBits s.callbackFree 32).length

/-- The invariant of a trace that follows the lifecycle. -/
def lifecycleInv (t : Run) : Prop :=
  liveInv t ∧ (∀ r ∈ t.live, r ≠ callbackEmptyRec) ∧ t.live.Nodup ∧
  t.sched.callbackTriggers < 2 ^ 32 ∧ freeIffEmpty t.sched ∧
  t.live.length + freeCount t.sched = 32

/-! ## What the deferred handler does, slot by slot -/

/-- One iteration of the loop of `callbackCall` for slot `idx`: the bit of
the slot is cleared, then the function of the record the table holds at the
slot is called on that record. -/
def serviceSlot (invoke : callbackFun_t → RecPtr → Sched → Sched) (s : Sched) (idx : Nat) :
    Sched :=
  let s1 : Sched := { s with callbackTriggers := s.callbackTriggers &&& not32 (shl1 idx) }
  invoke (s1.mem (s1.callbackEntries idx)).fn (s1.callbackEntries idx) s1

/-- The calls made when the slots `idxs` are serviced in that order from
state `s`: each call is read from the table in the state reached so far. -/
def serviceLog (invoke : callbackFun_t → RecPtr → Sched → Sched) : Sched → List Nat → List Call
  | _, [] => []
  | s, idx :: idxs =>
    { idx := idx, self := s.callbackEntries idx, fn := (s.mem (s.callbackEntries idx)).fn }
      :: serviceLog invoke (serviceSlot invoke s idx) idxs

/-- No callback sets a bit of the triggered mask: every bit set after a
call was set before it. -/
def triggersNothing (invoke : callbackFun_t → RecPtr → Sched → Sched) : Prop :=
  ∀ f r t i, (invoke f r t).callbackTriggers.testBit i = true →
    t.callbackTriggers.testBit i = true

/-- Callbacks of which the one with function 109 (that of record `user 9`
in `triggered39`) calls `callbackRelease` on record `user 3`; the others do
nothing. -/
def releasingInvoke : callbackFun_t → RecPtr → Sched → Sched :=
  fun f _ s => if f = 109 then callbackRelease (RecPtr.user 3) s else s

/-- Callbacks that count their calls in `callbackCount` and do nothing
else. -/
def countingInvoke : callbackFun_t → RecPtr → Sched → Sched :=
  fun _ _ s => { s with callbackCount := s.callbackCount + 1 }

set_option maxRecDepth 20000

/-! ## Bit-level lemmas -/

theorem shl1_natCast (n : Nat) (h : n < 32) : shl1 (n : Int) = 2 ^ n := by
  unfold shl1
  rw [Int.toNat_natCast, Nat.one_shiftLeft]
  exact Nat.mod_eq_of_lt (Nat.pow_lt_pow_right (by decide) h)

theorem testBit_clear (m n i : Nat) (hn : n < 32) (hi : i < 32) :
    (m &&& not32 (shl1 (n : Int))).testBit i = (m.testBit i && decide (i ≠ n)) := by
  rw [shl1_natCast n hn]
  unfold not32
  rw [Nat.testBit_and, Nat.testBit_xor, Nat.testBit_two_pow_sub_one, Nat.testBit_mod_two_pow,
    Nat.testBit_two_pow]
  by_cases h : i = n
  · subst h; simp [hi]
  · have h' : ¬ n = i := fun e => h e.symm
    simp [hi, h, h']

theorem testBit_clear_high (m : Nat) (x : Nat) (i : Nat) (hi : 32 ≤ i) :
    (m &&& not32 x).testBit i = false := by
  unfold not32
  rw [Nat.testBit_and, Nat.testBit_xor, Nat.testBit_two_pow_sub_one, Nat.testBit_mod_two_pow]
  have : ¬ i < 32 := by omega
  simp [this]

theorem testBit_set (m n i : Nat) (hn : n < 32) (hi : i < 32) :
    ((m ||| shl1 (n : Int)) % 2 ^ 32).testBit i = (m.testBit i || decide (i = n)) := by
  rw [shl1_natCast n hn, Nat.testBit_mod_two_pow, Nat.testBit_or, Nat.testBit_two_pow]
  by_cases h : i = n
  · subst h; simp [hi]
  · have h' : ¬ n = i := fun e => h e.symm
    simp [hi, h, h']

theorem testBit_high (m i : Nat) (hm : m < 2 ^ 32) (hi : 32 ≤ i) : m.testBit i = false :=
  Nat.testBit_lt_two_pow (Nat.lt_of_lt_of_le hm (Nat.pow_le_pow_right (by decide) hi))

theorem and_not32_lt (m x : Nat) : m &&& not32 x < 2 ^ 32 :=
  Nat.lt_pow_two_of_testBit _ (fun i hi => testBit_clear_high m x i hi)

theorem lowestBitFrom_some (x : Nat) : ∀ (n start i : Nat), lowestBitFrom x n start = some i →
    start ≤ i ∧ i < start + n ∧ x.testBit i = true ∧ ∀ j, start ≤ j → j < i → x.testBit j = false := by
  intro n
  induction n with
  | zero => intro start i h; simp [lowestBitFrom] at h
  | succ n ih =>
    intro start i h
    unfold lowestBitFrom at h
    by_cases hb : x.testBit start = true
    · rw [if_pos hb] at h
      have e : start = i := Option.some.inj h
      subst e
      exact ⟨Nat.le_refl _, by omega, hb, fun j h1 h2 => by omega⟩
    · rw [if_neg hb] at h
      obtain ⟨h1, h2, h3, h4⟩ := ih (start + 1) i h
      refine ⟨by omega, by omega, h3, ?_⟩
      intro j hj1 hj2
      by_cases e : j = start
      · subst e; simpa using hb
      · exact h4 j (by omega) hj2

theorem lowestBitFrom_none (x : Nat) : ∀ (n start : Nat), lowestBitFrom x n start = none →
    ∀ j, start ≤ j → j < start + n → x.testBit j = false := by
  intro n
  induction n with
  | zero => intro start _ j h1 h2; omega
  | succ n ih =>
    intro start h j h1 h2
    unfold lowestBitFrom at h
    by_cases hb : x.testBit start = true
    · rw [if_pos hb] at h; exact absurd h (by simp)
    · rw [if_neg hb] at h
      by_cases e : j = start
      · subst e; simpa using hb
      · exact ih (start + 1) h j (by omega) (by omega)

theorem lowestBitFrom_of_ne_zero (x : Nat) (hx : x < 2 ^ 32) (h0 : x ≠ 0) :
    ∃ i, lowestBitFrom x 32 0 = some i := by
  cases h : lowestBitFrom x 32 0 with
  | some i => exact ⟨i, rfl⟩
  | none =>
    exfalso
    apply h0
    apply Nat.eq_of_testBit_eq
    intro j
    rw [Nat.zero_testBit]
    by_cases hj : j < 32
    · exact lowestBitFrom_none x 32 0 h j (Nat.zero_le _) (by omega)
    · exact testBit_high x j hx (by omega)

/-- What `callbackRegister` does when a bit of the free mask is set. -/
theorem callbackRegister_spec (s : Sched) (self : RecPtr) (fn : callbackFun_t)
    (hw : s.callbackFree < 2 ^ 32) (hfree : s.callbackFree ≠ 0) :
    ∃ slot : Nat, slot < 32 ∧ s.callbackFree.testBit slot = true ∧
      (∀ j, j < slot → s.callbackFree.testBit j = false) ∧
      callbackRegister self fn s =
        { s with
          mem := Function.update s.mem self { fn := fn, id := (slot : Int) }
          callbackEntries := Function.update s.callbackEntries slot self
          callbackFree := s.callbackFree &&& not32 (shl1 (slot : Int)) } := by
  obtain ⟨i, hi⟩ := lowestBitFrom_of_ne_zero s.callbackFree hw hfree
  obtain ⟨_, h2, h3, h4⟩ := lowestBitFrom_some s.callbackFree 32 0 i hi
  refine ⟨i, by omega, h3, fun j hj => h4 j (Nat.zero_le _) hj, ?_⟩
  have hf : builtin_ffs s.callbackFree - 1 = (i : Int) := by
    unfold builtin_ffs; rw [hi]; simp
  unfold callbackRegister
  simp only [hf]
  rw [if_neg (by omega), Int.toNat_natCast]

theorem callbackRegister_full (s : Sched) (self : RecPtr) (fn : callbackFun_t)
    (h : s.callbackFree = 0) : callbackRegister self fn s = s := by
  unfold callbackRegister
  have hf : builtin_ffs s.callbackFree = 0 := by rw [h]; decide
  simp [hf]

/-- What `callbackRelease` does to a record whose id is a slot number. -/
theorem callbackRelease_spec (s : Sched) (self : RecPtr) (n : Nat)
    (hid : (s.mem self).id = (n : Int)) :
    callbackRelease self s =
      { s with
        callbackTriggers := s.callbackTriggers &&& not32 (shl1 (n : Int))
        callbackEntries := Function.update s.callbackEntries n callbackEmptyRec
        callbackFree := (s.callbackFree ||| shl1 (n : Int)) % 2 ^ 32 } := by
  simp [callbackRelease, callbackRelease_markFree, callbackRelease_removeEntry,
    callbackRelease_clearTrigger, hid]

/-- C2: when the free mask is a non-zero 32-bit word, `callbackRegister`
picks the lowest-numbered slot whose free bit is set; afterwards the
record's id is that slot, its function is `fn`, the table entry at that slot
is the record, the slot's free bit is clear, and every other free bit, every
other table entry, every other record and the triggered mask are as before. -/
theorem callbackRegister_assigns_lowest_free (s : Sched) (self : RecPtr) (fn : callbackFun_t)
    (hw : s.callbackFree < 2 ^ 32) (hfree : s.callbackFree ≠ 0) :
    ∃ slot : Nat, slot < 32 ∧ s.callbackFree.testBit slot = true ∧
      (∀ j, j < slot → s.callbackFree.testBit j = false) ∧
      ((callbackRegister self fn s).mem self).id = (slot : Int) ∧
      ((callbackRegister self fn s).mem self).fn = fn ∧
      (callbackRegister self fn s).callbackEntries slot = self ∧
      (callbackRegister self fn s).callbackFree.testBit slot = false ∧
      (∀ j, j ≠ slot →
        (callbackRegister self fn s).callbackFree.testBit j = s.callbackFree.testBit j) ∧
      (∀ j, j ≠ slot →
        (callbackRegister self fn s).callbackEntries j = s.callbackEntries j) ∧
      (∀ r, r ≠ self → (callbackRegister self fn s).mem r = s.mem r) ∧
      (callbackRegister self fn s).callbackTriggers = s.callbackTriggers := by
  obtain ⟨slot, h1, h2, h3, h4⟩ := callbackRegister_spec s self fn hw hfree
  refine ⟨slot, h1, h2, h3, ?_⟩
  rw [h4]
  refine ⟨by simp, by simp, by simp, ?_, ?_, ?_, ?_, rfl⟩
  · simp [testBit_clear _ _ _ h1 h1]
  · intro j hj
    by_cases hj32 : j < 32
    · simp [testBit_clear _ _ _ h1 hj32, hj]
    · simp only []
      rw [testBit_clear_high _ _ _ (by omega), testBit_high _ _ hw (by omega)]
  · intro j hj
    simp [Function.update, hj]
  · intro r hr
    simp [Function.update, hr]

/-- Witness for C2 on the state left by `callbackInit`: slot 0 is assigned. -/
theorem callbackRegister_assigns_lowest_free_witness :
    (callbackInit bootSched).callbackFree < 2 ^ 32 ∧ (callbackInit bootSched).callbackFree ≠ 0 ∧
    ∃ slot : Nat, slot < 32 ∧ (callbackInit bootSched).callbackFree.testBit slot = true ∧
      (∀ j, j < slot → (callbackInit bootSched).callbackFree.testBit j = false) ∧
      ((callbackRegister (RecPtr.user 7) 42 (callbackInit bootSched)).mem (RecPtr.user 7)).id
        = (slot : Int) ∧
      ((callbackRegister (RecPtr.user 7) 42 (callbackInit bootSched)).mem (RecPtr.user 7)).fn = 42 ∧
      (callbackRegister (RecPtr.user 7) 42 (callbackInit bootSched)).callbackEntries slot
        = RecPtr.user 7 ∧
      (callbackRegister (RecPtr.user 7) 42 (callbackInit bootSched)).callbackFree.testBit slot
        = false ∧
      (∀ j, j ≠ slot →
        (callbackRegister (RecPtr.user 7) 42 (callbackInit bootSched)).callbackFree.testBit j
          = (callbackInit bootSched).callbackFree.testBit j) ∧
      (∀ j, j ≠ slot →
        (callbackRegister (RecPtr.user 7) 42 (callbackInit bootSched)).callbackEntries j
          = (callbackInit bootSched).callbackEntries j) ∧
      (∀ r, r ≠ RecPtr.user 7 →
        (callbackRegister (RecPtr.user 7) 42 (callbackInit bootSched)).mem r
          = (callbackInit bootSched).mem r) ∧
      (callbackRegister (RecPtr.user 7) 42 (callbackInit bootSched)).callbackTriggers
        = (callbackInit bootSched).callbackTriggers :=
  ⟨by decide, by decide,
    callbackRegister_assigns_lowest_free (callbackInit bootSched) (RecPtr.user 7) 42
      (by decide) (by decide)⟩

/-- C3: when the free mask is 0, `callbackRegister` returns the state it
was given: table, free mask, triggered mask and every record, the one passed
in included, are unchanged. -/
theorem callbackRegister_noop_when_full (s : Sched) (self : RecPtr) (fn : callbackFun_t)
    (h : s.callbackFree = 0) : callbackRegister self fn s = s :=
  callbackRegister_full s self fn h

/-- Witness for C3: after `callbackInit` and 32 registrations the free mask
is 0, and a further registration changes nothing. -/
theorem callbackRegister_noop_when_full_witness :
    fullSched.callbackFree = 0 ∧
    callbackRegister (RecPtr.user 32) 7 fullSched = fullSched :=
  ⟨by decide, callbackRegister_noop_when_full fullSched (RecPtr.user 32) 7 (by decide)⟩

/-- C4: for a record whose id is a slot number in 0..31, `callbackRelease`
clears the slot's triggered bit, points the slot's table entry at
`callbackEmptyRec` and sets the slot's free bit; the triggered bits and free
bits of the other 31 slots, all other table entries and all records are
unchanged. -/
theorem callbackRelease_effect (s : Sched) (self : RecPtr)
    (h0 : 0 ≤ (s.mem self).id) (h32 : (s.mem self).id < 32) :
    (callbackRelease self s).callbackTriggers.testBit (s.mem self).id.toNat = false ∧
    (callbackRelease self s).callbackEntries (s.mem self).id.toNat = callbackEmptyRec ∧
    (callbackRelease self s).callbackFree.testBit (s.mem self).id.toNat = true ∧
    (∀ j, j < 32 → j ≠ (s.mem self).id.toNat →
      (callbackRelease self s).callbackTriggers.testBit j = s.callbackTriggers.testBit j ∧
      (callbackRelease self s).callbackFree.testBit j = s.callbackFree.testBit j) ∧
    (∀ j, j ≠ (s.mem self).id.toNat →
      (callbackRelease self s).callbackEntries j = s.callbackEntries j) ∧
    (callbackRelease self s).mem = s.mem := by
  obtain ⟨n, hn⟩ := Int.eq_ofNat_of_zero_le h0
  have hn32 : n < 32 := by omega
  rw [callbackRelease_spec s self n hn, hn, Int.toNat_natCast]
  refine ⟨?_, by simp, ?_, ?_, ?_, rfl⟩
  · simp [testBit_clear _ _ _ hn32 hn32]
  · show ((s.callbackFree ||| shl1 (n : Int)) % 2 ^ 32).testBit n = true
    rw [testBit_set _ _ _ hn32 hn32]; simp
  · intro j hj hne
    refine ⟨by simp [testBit_clear _ _ _ hn32 hj, hne], ?_⟩
    show ((s.callbackFree ||| shl1 (n : Int)) % 2 ^ 32).testBit j = s.callbackFree.testBit j
    rw [testBit_set _ _ _ hn32 hj]; simp [hne]
  · intro j hne
    simp [Function.update, hne]

/-- Witness for C4: releasing the triggered record of slot 3. -/
theorem callbackRelease_effect_witness :
    (0 ≤ (triggered39.mem (RecPtr.user 3)).id ∧ (triggered39.mem (RecPtr.user 3)).id < 32) ∧
    ((callbackRelease (RecPtr.user 3) triggered39).callbackTriggers.testBit
        (triggered39.mem (RecPtr.user 3)).id.toNat = false ∧
    (callbackRelease (RecPtr.user 3) triggered39).callbackEntries
        (triggered39.mem (RecPtr.user 3)).id.toNat = callbackEmptyRec ∧
    (callbackRelease (RecPtr.user 3) triggered39).callbackFree.testBit
        (triggered39.mem (RecPtr.user 3)).id.toNat = true ∧
    (∀ j, j < 32 → j ≠ (triggered39.mem (RecPtr.user 3)).id.toNat →
      (callbackRelease (RecPtr.user 3) triggered39).callbackTriggers.testBit j
        = triggered39.callbackTriggers.testBit j ∧
      (callbackRelease (RecPtr.user 3) triggered39).callbackFree.testBit j
        = triggered39.callbackFree.testBit j) ∧
    (∀ j, j ≠ (triggered39.mem (RecPtr.user 3)).id.toNat →
      (callbackRelease (RecPtr.user 3) triggered39).callbackEntries j
        = triggered39.callbackEntries j) ∧
    (callbackRelease (RecPtr.user 3) triggered39).mem = triggered39.mem) :=
  ⟨⟨by decide, by decide⟩,
    callbackRelease_effect triggered39 (RecPtr.user 3) (by decide) (by decide)⟩

theorem registerSucceeds_false (s : Sched) (h : registerSucceeds s = false) :
    ∀ self fn, callbackRegister self fn s = s := by
  intro self fn
  unfold registerSucceeds at h
  unfold callbackRegister
  simp only [decide_eq_false_iff_not, not_not] at h
  simp [h]

theorem registerSucceeds_true (s : Sched) (h : registerSucceeds s = true) : s.callbackFree ≠ 0 := by
  intro h0
  unfold registerSucceeds at h
  rw [h0] at h
  exact absurd h (by decide)

theorem liveInv_init (s0 : Sched) :
    liveInv { sched := callbackInit s0, live := [], valid := true } := by
  refine ⟨by simp [callbackInit], ?_⟩
  intro r hr
  simp at hr

theorem liveInv_register (t : Run) (r : RecPtr) (fn : callbackFun_t) (h : liveInv t) :
    liveInv (stepOp t (Op.register r fn)) := by
  obtain ⟨hw, hl⟩ := h
  unfold stepOp
  cases hs : registerSucceeds t.sched with
  | false =>
    simp only [registerSucceeds_false t.sched hs r fn]
    exact ⟨hw, by simpa using hl⟩
  | true =>
    obtain ⟨slot, h1, h2, _, h4⟩ :=
      callbackRegister_spec t.sched r fn hw (registerSucceeds_true t.sched hs)
    simp only [h4, if_true]
    refine ⟨and_not32_lt _ _, ?_⟩
    intro x hx
    by_cases hxr : x = r
    · subst hxr
      exact ⟨slot, h1, by simp, by simp, by simp [testBit_clear _ _ _ h1 h1]⟩
    · have hx' : x ∈ t.live := by
        rcases List.mem_cons.mp hx with e | e
        · exact absurd e hxr
        · exact e
      obtain ⟨n, hn1, hn2, hn3, hn4⟩ := hl x hx'
      have hne : n ≠ slot := by
        intro e; subst e; rw [h2] at hn4; exact absurd hn4 (by simp)
      refine ⟨n, hn1, ?_, ?_, ?_⟩
      · simpa [Function.update, hxr] using hn2
      · simpa [Function.update, hne] using hn3
      · simp [testBit_clear _ _ _ h1 hn1, hn4]

theorem liveInv_release (t : Run) (r : RecPtr) (h : liveInv t) (hr : r ∈ t.live) :
    liveInv (stepOp t (Op.release r)) := by
  obtain ⟨_, hl⟩ := h
  obtain ⟨n, hn1, hn2, hn3, _⟩ := hl r hr
  unfold stepOp
  simp only [callbackRelease_spec t.sched r n hn2]
  refine ⟨Nat.mod_lt _ (by decide), ?_⟩
  intro x hx
  obtain ⟨hx1, hx2⟩ := List.mem_filter.mp hx
  have hxr : x ≠ r := by simpa using hx2
  obtain ⟨m, hm1, hm2, hm3, hm4⟩ := hl x hx1
  have hne : m ≠ n := by
    intro e; subst e; rw [hn3] at hm3; exact hxr hm3.symm
  refine ⟨m, hm1, hm2, ?_, ?_⟩
  · simpa [Function.update, hne] using hm3
  · show ((t.sched.callbackFree ||| shl1 (n : Int)) % 2 ^ 32).testBit m = false
    rw [testBit_set _ _ _ hn1 hm1, hm4]; simp [hne]

theorem liveInv_foldl (ops : List Op) : ∀ t : Run, liveInv t →
    (ops.foldl stepOp t).valid = true → liveInv (ops.foldl stepOp t) := by
  induction ops with
  | nil => intro t h _; exact h
  | cons op ops ih =>
    intro t h hv
    rw [List.foldl_cons] at hv ⊢
    have hvalid : ∀ (l : List Op) (u : Run), (l.foldl stepOp u).valid = true → u.valid = true := by
      intro l
      induction l with
      | nil => intro u hu; exact hu
      | cons o l ihl =>
        intro u hu
        rw [List.foldl_cons] at hu
        have := ihl _ hu
        cases o with
        | register r fn => exact this
        | release r =>
          simp only [stepOp, Bool.and_eq_true] at this
          exact this.1
    apply ih _ _ hv
    cases op with
    | register r fn => exact liveInv_register t r fn h
    | release r =>
      have hst := hvalid ops _ hv
      simp only [stepOp, Bool.and_eq_true, decide_eq_true_eq] at hst
      exact liveInv_release t r h hst.2

theorem distinctIds_of_liveInv (t : Run) (h : liveInv t) : distinctIds t := by
  intro r1 h1 r2 h2 hne heq
  obtain ⟨n1, _, a2, a3, _⟩ := h.2 r1 h1
  obtain ⟨n2, _, b2, b3, _⟩ := h.2 r2 h2
  rw [a2, b2] at heq
  have e : n1 = n2 := by exact_mod_cast heq
  subst e
  exact hne (a3.symm.trans b3)

/-- C1: after `callbackInit` and any sequence of `callbackRegister` and
`callbackRelease` calls in which every release is applied to a record that
is live at that moment, no two distinct live records hold the same slot id.
No bound on the number of live records has to be assumed: a registration made
while no slot is free is dropped and does not make its record live, so at
most 32 records are ever live. -/
theorem live_records_have_distinct_ids (s0 : Sched) (ops : List Op)
    (hvalid : (runOps s0 ops).valid = true) : distinctIds (runOps s0 ops) :=
  distinctIds_of_liveInv _ (liveInv_foldl ops _ (liveInv_init s0) hvalid)

/-- Witness for C1: three registrations, a release of the middle record, and
a fourth registration that reuses the released slot. -/
theorem live_records_have_distinct_ids_witness :
    (runOps bootSched
      [Op.register (RecPtr.user 1) 11, Op.register (RecPtr.user 2) 12,
       Op.register (RecPtr.user 3) 13, Op.release (RecPtr.user 2),
       Op.register (RecPtr.user 4) 14]).valid = true ∧
    distinctIds (runOps bootSched
      [Op.register (RecPtr.user 1) 11, Op.register (RecPtr.user 2) 12,
       Op.register (RecPtr.user 3) 13, Op.release (RecPtr.user 2),
       Op.register (RecPtr.user 4) 14]) :=
  ⟨by decide, live_records_have_distinct_ids _ _ (by decide)⟩

/-! ## The deferred handler -/

theorem highestBitBelow_some (x : Nat) : ∀ (n i : Nat), highestBitBelow x n = some i →
    i < n ∧ x.testBit i = true ∧ ∀ j, i < j → j < n → x.testBit j = false := by
  intro n
  induction n with
  | zero => intro i h; simp [highestBitBelow] at h
  | succ n ih =>
    intro i h
    unfold highestBitBelow at h
    by_cases hb : x.testBit n = true
    · rw [if_pos hb] at h
      have e : n = i := Option.some.inj h
      subst e
      exact ⟨by omega, hb, fun j h1 h2 => by omega⟩
    · rw [if_neg hb] at h
      obtain ⟨h1, h2, h3⟩ := ih i h
      refine ⟨by omega, h2, ?_⟩
      intro j hj1 hj2
      by_cases e : j = n
      · subst e; simpa using hb
      · exact h3 j hj1 (by omega)

theorem highestBitBelow_none (x : Nat) : ∀ (n : Nat), highestBitBelow x n = none →
    ∀ j, j < n → x.testBit j = false := by
  intro n
  induction n with
  | zero => intro _ j h; omega
  | succ n ih =>
    intro h j hj
    unfold highestBitBelow at h
    by_cases hb : x.testBit n = true
    · rw [if_pos hb] at h; exact absurd h (by simp)
    · rw [if_neg hb] at h
      by_cases e : j = n
      · subst e; simpa using hb
      · exact ih h j (by omega)

theorem highestBitBelow_of_ne_zero (x : Nat) (hx : x < 2 ^ 32) (h0 : x ≠ 0) :
    ∃ i, highestBitBelow x 32 = some i := by
  cases h : highestBitBelow x 32 with
  | some i => exact ⟨i, rfl⟩
  | none =>
    exfalso
    apply h0
    apply Nat.eq_of_testBit_eq
    intro j
    rw [Nat.zero_testBit]
    by_cases hj : j < 32
    · exact highestBitBelow_none x 32 h j hj
    · exact testBit_high x j hx (by omega)

theorem descBits_congr (m m' : Nat) : ∀ n, (∀ j, j < n → m.testBit j = m'.testBit j) →
    descBits m n = descBits m' n := by
  intro n
  induction n with
  | zero => intro _; rfl
  | succ n ih =>
    intro h
    show (if m.testBit n = true then n :: descBits m n else descBits m n)
      = (if m'.testBit n = true then n :: descBits m' n else descBits m' n)
    rw [h n (by omega), ih (fun j hj => h j (by omega))]

theorem descBits_clear_above (m k : Nat) : ∀ n, k ≤ n →
    (∀ j, k ≤ j → j < n → m.testBit j = false) → descBits m n = descBits m k := by
  intro n
  induction n with
  | zero => intro hk _; have : k = 0 := by omega
            subst this; rfl
  | succ n ih =>
    intro hk h
    by_cases e : k = n + 1
    · subst e; rfl
    · have hb : m.testBit n = false := h n (by omega) (by omega)
      show (if m.testBit n = true then n :: descBits m n else descBits m n) = descBits m k
      rw [hb]
      simp only [Bool.false_eq_true, if_false]
      exact ih (by omega) (fun j h1 h2 => h j h1 (by omega))

theorem descBits_top (m i n : Nat) (hi : i < n) (hb : m.testBit i = true)
    (habove : ∀ j, i < j → j < n → m.testBit j = false) :
    descBits m n = i :: descBits m i := by
  rw [descBits_clear_above m (i + 1) n (by omega) (fun j h1 h2 => habove j (by omega) h2)]
  show (if m.testBit i = true then i :: descBits m i else descBits m i) = i :: descBits m i
  rw [if_pos hb]

theorem idx_of_highest (x i : Nat) (h : highestBitBelow x 32 = some i) :
    (31 - builtin_clz x) % 256 = i := by
  have hi := (highestBitBelow_some x 32 i h).1
  unfold builtin_clz
  rw [h]
  simp only []
  omega

/-- The loop of `callbackCall` on a mask below `2 ^ k`, with at least `k`
units of fuel. -/
theorem callbackCall_spec (invoke : callbackFun_t → RecPtr → Sched → Sched)
    (hT : ∀ f r t, (invoke f r t).callbackTriggers = t.callbackTriggers) :
    ∀ (k fuel : Nat) (s : Sched), k ≤ 32 → k ≤ fuel → s.callbackTriggers < 2 ^ k →
    ∃ s' log, callbackCall invoke fuel s = some (s', log) ∧ s'.callbackTriggers = 0 ∧
      log.map Call.idx = descBits s.callbackTriggers 32 ∧
      ((∀ f r t, (invoke f r t).callbackEntries = t.callbackEntries) →
        ∀ c ∈ log, c.self = s.callbackEntries c.idx) ∧
      ((∀ f r t, (invoke f r t).callbackEntries = t.callbackEntries ∧ (invoke f r t).mem = t.mem) →
        log = (descBits s.callbackTriggers 32).map
          (fun i => { idx := i, self := s.callbackEntries i,
                      fn := (s.mem (s.callbackEntries i)).fn })) := by
  intro k
  induction k with
  | zero =>
    intro fuel s _ _ hm
    have h0 : s.callbackTriggers = 0 := by omega
    have hd : descBits s.callbackTriggers 32 = [] := by rw [h0]; decide
    refine ⟨s, [], ?_, h0, by rw [hd]; rfl, fun _ c hc => by simp at hc, fun _ => by rw [hd]; rfl⟩
    cases fuel <;> simp [callbackCall, h0]
  | succ k ih =>
    intro fuel s hk hfuel hm
    by_cases h0 : s.callbackTriggers = 0
    · have hd : descBits s.callbackTriggers 32 = [] := by rw [h0]; decide
      refine ⟨s, [], ?_, h0, by rw [hd]; rfl, fun _ c hc => by simp at hc,
        fun _ => by rw [hd]; rfl⟩
      cases fuel <;> simp [callbackCall, h0]
    · obtain ⟨f, rfl⟩ : ∃ f, fuel = f + 1 := ⟨fuel - 1, by omega⟩
      have hm32 : s.callbackTriggers < 2 ^ 32 :=
        Nat.lt_of_lt_of_le hm (Nat.pow_le_pow_right (by decide) hk)
      obtain ⟨i, hi⟩ := highestBitBelow_of_ne_zero s.callbackTriggers hm32 h0
      obtain ⟨hi32, hbit, habove⟩ := highestBitBelow_some s.callbackTriggers 32 i hi
      have hik : i ≤ k := by
        by_contra hc
        have : s.callbackTriggers.testBit i = false :=
          Nat.testBit_lt_two_pow (Nat.lt_of_lt_of_le hm (Nat.pow_le_pow_right (by decide) (by omega)))
        rw [this] at hbit
        exact absurd hbit (by simp)
      have hclr : ∀ j, (s.callbackTriggers &&& not32 (shl1 (i : Int))).testBit j
          = (s.callbackTriggers.testBit j && decide (j < i)) := by
        intro j
        by_cases hj : j < 32
        · rw [testBit_clear _ _ _ hi32 hj]
          by_cases hji : j < i
          · have : j ≠ i := by omega
            simp [hji, this]
          · by_cases e : j = i
            · subst e; simp
            · rw [habove j (by omega) hj]; simp
        · rw [testBit_clear_high _ _ _ (by omega)]
          have : ¬ j < i := by omega
          simp [this]
      have hlt : s.callbackTriggers &&& not32 (shl1 (i : Int)) < 2 ^ i :=
        Nat.lt_pow_two_of_testBit _ (fun j hj => by
          rw [hclr j]
          have : ¬ j < i := by omega
          simp [this])
      have hidx := idx_of_highest s.callbackTriggers i hi
      let s1 : Sched := { s with callbackTriggers := s.callbackTriggers &&& not32 (shl1 (i : Int)) }
      let s2 : Sched := invoke (s1.mem (s1.callbackEntries i)).fn (s1.callbackEntries i) s1
      have hs2 : s2.callbackTriggers = s.callbackTriggers &&& not32 (shl1 (i : Int)) := hT _ _ _
      obtain ⟨s', log, hrun, hz, hlog, hself, hcalls⟩ := ih f s2 (by omega) (by omega)
        (by rw [hs2]; exact Nat.lt_of_lt_of_le hlt (Nat.pow_le_pow_right (by decide) hik))
      have hdesc : descBits s.callbackTriggers 32
          = i :: descBits s2.callbackTriggers 32 := by
        rw [descBits_top _ i 32 hi32 hbit habove, hs2]
        congr 1
        rw [descBits_clear_above _ i 32 (by omega) (fun j h1 _ => by
          rw [hclr j]
          have : ¬ j < i := by omega
          simp [this])]
        exact descBits_congr _ _ i (fun j hj => by rw [hclr j]; simp [hj])
      refine ⟨s', { idx := i, self := s.callbackEntries i,
                    fn := (s.mem (s.callbackEntries i)).fn } :: log, ?_, hz, ?_, ?_, ?_⟩
      · unfold callbackCall
        rw [if_neg h0]
        simp only [hidx]
        show (match callbackCall invoke f s2 with
          | some (s2, log) => some (s2, _ :: log)
          | none => none) = _
        rw [hrun]
      · rw [List.map_cons, hlog, hdesc]
      · intro hE c hc
        rcases List.mem_cons.mp hc with e | e
        · rw [e]
        · have e1 : s2.callbackEntries = s.callbackEntries := hE _ _ _
          rw [hself hE c e, e1]
      · intro hE
        rw [hcalls hE, hdesc, List.map_cons]
        have e1 : s2.callbackEntries = s.callbackEntries := (hE _ _ _).1
        have e2 : s2.mem = s.mem := (hE _ _ _).2
        rw [e1, e2]

theorem mem_descBits (m i : Nat) : ∀ n, i ∈ descBits m n ↔ i < n ∧ m.testBit i = true := by
  intro n
  induction n with
  | zero => simp [descBits]
  | succ n ih =>
    unfold descBits
    by_cases hb : m.testBit n = true
    · rw [if_pos hb, List.mem_cons, ih]
      constructor
      · rintro (e | ⟨h1, h2⟩)
        · subst e; exact ⟨by omega, hb⟩
        · exact ⟨by omega, h2⟩
      · rintro ⟨h1, h2⟩
        by_cases e : i = n
        · exact Or.inl e
        · exact Or.inr ⟨by omega, h2⟩
    · rw [if_neg hb, ih]
      constructor
      · rintro ⟨h1, h2⟩; exact ⟨by omega, h2⟩
      · rintro ⟨h1, h2⟩
        have : i ≠ n := by intro e; subst e; exact hb h2
        exact ⟨by omega, h2⟩

theorem descBits_pairwise (m : Nat) : ∀ n, List.Pairwise (fun a b => b < a) (descBits m n) := by
  intro n
  induction n with
  | zero => simp [descBits]
  | succ n ih =>
    unfold descBits
    by_cases hb : m.testBit n = true
    · rw [if_pos hb, List.pairwise_cons]
      exact ⟨fun b hb' => ((mem_descBits m b n).mp hb').1, ih⟩
    · rw [if_neg hb]; exact ih

/-- Clearing the highest set bit of a 32-bit mask: what is left is below
that bit, and the descending list of set bits loses its head. -/
theorem top_bit_step (m i : Nat) (hm : m < 2 ^ 32) (hi : highestBitBelow m 32 = some i) :
    i < 32 ∧ (31 - builtin_clz m) % 256 = i ∧ m &&& not32 (shl1 (i : Int)) < 2 ^ i ∧
    descBits m 32 = i :: descBits (m &&& not32 (shl1 (i : Int))) 32 := by
  obtain ⟨hi32, hbit, habove⟩ := highestBitBelow_some m 32 i hi
  have hclr : ∀ j, (m &&& not32 (shl1 (i : Int))).testBit j
      = (m.testBit j && decide (j < i)) := by
    intro j
    by_cases hj : j < 32
    · rw [testBit_clear _ _ _ hi32 hj]
      by_cases hji : j < i
      · have : j ≠ i := by omega
        simp [hji, this]
      · by_cases e : j = i
        · subst e; simp
        · rw [habove j (by omega) hj]; simp
    · rw [testBit_high m j hm (by omega)]
      rw [testBit_clear_high _ _ _ (by omega)]
      simp
  refine ⟨hi32, idx_of_highest m i hi, ?_, ?_⟩
  · exact Nat.lt_pow_two_of_testBit _ (fun j hj => by
      rw [hclr j]
      have : ¬ j < i := by omega
      simp [this])
  · rw [descBits_top _ i 32 hi32 hbit habove]
    congr 1
    rw [descBits_clear_above _ i 32 (by omega) (fun j h1 _ => by
      rw [hclr j]
      have : ¬ j < i := by omega
      simp [this])]
    exact (descBits_congr _ _ i (fun j hj => by rw [hclr j]; simp [hj])).symm

/-- The loop of `callbackCall`, for callbacks that leave the triggered mask
as it is: the state returned is the one reached by servicing the set bits of
the mask one after the other, highest first, and the log holds the calls
made on the way. -/
theorem callbackCall_service (invoke : callbackFun_t → RecPtr → Sched → Sched)
    (hT : ∀ f r t, (invoke f r t).callbackTriggers = t.callbackTriggers) :
    ∀ (k fuel : Nat) (s : Sched), k ≤ 32 → k ≤ fuel → s.callbackTriggers < 2 ^ k →
    callbackCall invoke fuel s
      = some ((descBits s.callbackTriggers 32).foldl (serviceSlot invoke) s,
              serviceLog invoke s (descBits s.callbackTriggers 32)) := by
  intro k
  induction k with
  | zero =>
    intro fuel s _ _ hm
    have h0 : s.callbackTriggers = 0 := by omega
    have hd : descBits s.callbackTriggers 32 = [] := by rw [h0]; decide
    rw [hd]
    cases fuel <;> simp [callbackCall, h0, serviceLog]
  | succ k ih =>
    intro fuel s hk hfuel hm
    by_cases h0 : s.callbackTriggers = 0
    · have hd : descBits s.callbackTriggers 32 = [] := by rw [h0]; decide
      rw [hd]
      cases fuel <;> simp [callbackCall, h0, serviceLog]
    · obtain ⟨f, rfl⟩ : ∃ f, fuel = f + 1 := ⟨fuel - 1, by omega⟩
      have hm32 : s.callbackTriggers < 2 ^ 32 :=
        Nat.lt_of_lt_of_le hm (Nat.pow_le_pow_right (by decide) hk)
      obtain ⟨i, hi⟩ := highestBitBelow_of_ne_zero s.callbackTriggers hm32 h0
      obtain ⟨hi32, hidx, hlt, hdesc⟩ := top_bit_step s.callbackTriggers i hm32 hi
      have hbit := (highestBitBelow_some s.callbackTriggers 32 i hi).2.1
      have hik : i ≤ k := by
        by_contra hc
        have : s.callbackTriggers.testBit i = false :=
          Nat.testBit_lt_two_pow (Nat.lt_of_lt_of_le hm (Nat.pow_le_pow_right (by decide) (by omega)))
        rw [this] at hbit
        exact absurd hbit (by simp)
      have hs2 : (serviceSlot invoke s i).callbackTriggers
          = s.callbackTriggers &&& not32 (shl1 (i : Int)) := hT _ _ _
      have hrun := ih f (serviceSlot invoke s i) (by omega) (by omega)
        (by rw [hs2]; exact Nat.lt_of_lt_of_le hlt (Nat.pow_le_pow_right (by decide) hik))
      rw [hs2] at hrun
      rw [hdesc, List.foldl_cons]
      unfold callbackCall
      rw [if_neg h0]
      simp only [hidx]
      show (match callbackCall invoke f (serviceSlot invoke s i) with
        | some (s2, log) => some (s2, _ :: log)
        | none => none) = _
      rw [hrun]
      rfl

/-- C5 as stated fails: a callback that triggers nothing can still release
another pending record.  With slots 3 and 9 triggered and the callback of slot
9 releasing the record of slot 3, no callback sets a bit of the triggered
mask, yet the handler makes the one call for slot 9, none for slot 3, and
returns with the mask 0. -/
theorem callbackCall_skips_slot_released_by_callback :
    triggersNothing releasingInvoke ∧
    triggered39.callbackTriggers.testBit 3 = true ∧
    triggered39.callbackTriggers.testBit 9 = true ∧
    triggered39.callbackEntries 3 = RecPtr.user 3 ∧
    (callbackCall releasingInvoke 32 triggered39).map (fun p => p.2)
      = some [{ idx := 9, self := RecPtr.user 9, fn := 109 }] ∧
    (callbackCall releasingInvoke 32 triggered39).map (fun p => p.1.callbackTriggers)
      = some 0 := by
  refine ⟨?_, by decide, by decide, by decide, by decide, by decide⟩
  intro f r t i h
  unfold releasingInvoke at h
  by_cases hf : f = 109
  · rw [if_pos hf] at h
    have h2 : (t.callbackTriggers &&& not32 (shl1 (t.mem (RecPtr.user 3)).id)).testBit i
        = true := h
    rw [Nat.testBit_and, Bool.and_eq_true] at h2
    exact h2.1
  · rw [if_neg hf] at h
    exact h

/-- C5 as amended: when every callback leaves the triggered mask as it is
(it neither triggers a record nor releases a pending one), `callbackCall`
started on any 32-bit triggered mask returns, any fuel of at least 32
iterations being enough.  The state it returns is the one reached by
servicing the slots whose bit was set, each once, highest slot first, where
servicing a slot clears its bit and then applies the function of the record
in the table at that slot to that record; the log holds exactly these calls;
no other slot is serviced; and the triggered mask is left 0.  When callbacks
also leave the table and the records alone, each call is the function of the
record the table held at that slot on entry. -/
theorem callbackCall_drains_descending (invoke : callbackFun_t → RecPtr → Sched → Sched)
    (hT : ∀ f r t, (invoke f r t).callbackTriggers = t.callbackTriggers)
    (s : Sched) (hw : s.callbackTriggers < 2 ^ 32) (fuel : Nat) (hfuel : 32 ≤ fuel) :
    callbackCall invoke fuel s
      = some ((descBits s.callbackTriggers 32).foldl (serviceSlot invoke) s,
              serviceLog invoke s (descBits s.callbackTriggers 32)) ∧
    ((descBits s.callbackTriggers 32).foldl (serviceSlot invoke) s).callbackTriggers = 0 ∧
    (serviceLog invoke s (descBits s.callbackTriggers 32)).map Call.idx
      = descBits s.callbackTriggers 32 ∧
    List.Pairwise (fun a b => b < a) (descBits s.callbackTriggers 32) ∧
    (∀ i, i ∈ descBits s.callbackTriggers 32 ↔ i < 32 ∧ s.callbackTriggers.testBit i = true) ∧
    ((∀ f r t, (invoke f r t).callbackEntries = t.callbackEntries ∧ (invoke f r t).mem = t.mem) →
      serviceLog invoke s (descBits s.callbackTriggers 32)
        = (descBits s.callbackTriggers 32).map
          (fun i => { idx := i, self := s.callbackEntries i,
                      fn := (s.mem (s.callbackEntries i)).fn })) := by
  have hS := callbackCall_service invoke hT 32 fuel s (Nat.le_refl _) hfuel hw
  obtain ⟨s1, log, h1, h2, h3, _, h5⟩ :=
    callbackCall_spec invoke hT 32 fuel s (Nat.le_refl _) hfuel hw
  rw [hS] at h1
  have e := Prod.mk.inj (Option.some.inj h1)
  rw [← e.1] at h2
  rw [← e.2] at h3 h5
  exact ⟨hS, h2, h3, descBits_pairwise _ _, fun i => mem_descBits _ _ _, h5⟩

/-- Witness for C5 as amended: with slots 3 and 9 triggered and callbacks
that count their calls, the handler calls the record of slot 9, then the
record of slot 3, and returns with two calls counted and the mask 0. -/
theorem callbackCall_drains_descending_witness :
    ((∀ f r t, (countingInvoke f r t).callbackTriggers = t.callbackTriggers) ∧
      triggered39.callbackTriggers < 2 ^ 32 ∧ 32 ≤ 32) ∧
    triggered39.callbackCount = 0 ∧
    (callbackCall countingInvoke 32 triggered39).map
        (fun p => (p.1.callbackCount, p.1.callbackTriggers, p.2))
      = some (2, 0, [{ idx := 9, self := RecPtr.user 9, fn := 109 },
                     { idx := 3, self := RecPtr.user 3, fn := 103 }]) ∧
    callbackCall countingInvoke 32 triggered39
      = some ((descBits triggered39.callbackTriggers 32).foldl (serviceSlot countingInvoke)
                triggered39,
              serviceLog countingInvoke triggered39 (descBits triggered39.callbackTriggers 32)) :=
  ⟨⟨fun _ _ _ => rfl, by decide, by decide⟩, by decide, by decide,
    (callbackCall_drains_descending countingInvoke (fun _ _ _ => rfl) triggered39 (by decide) 32
      (by decide)).1⟩

/-! ## Trigger against release -/

/-- C6: `callbackTrigger` changes neither the free mask nor the table.  For
a live record `r` and each of the four points at which `callbackTrigger(r)`
can fall relative to the three statements of `callbackRelease(r)`, the free
mask and the table end up as `callbackRelease(r)` alone leaves them, the
final state is that of trigger-then-release or that of release-then-trigger,
and a following run of the deferred handler (callbacks leaving the triggered
mask and the table alone) returns without making any call on `r`. -/
theorem trigger_during_release_is_harmless (s : Sched) (r : RecPtr) (hlive : liveOnce r s)
    (p : TriggerPoint) :
    (∀ (t : Sched) (x : RecPtr), (callbackTrigger x t).callbackFree = t.callbackFree ∧
      (callbackTrigger x t).callbackEntries = t.callbackEntries) ∧
    (releaseWithTrigger p r s).callbackFree = (callbackRelease r s).callbackFree ∧
    (releaseWithTrigger p r s).callbackEntries = (callbackRelease r s).callbackEntries ∧
    (releaseWithTrigger p r s = callbackRelease r (callbackTrigger r s) ∨
      releaseWithTrigger p r s = callbackTrigger r (callbackRelease r s)) ∧
    ∀ (invoke : callbackFun_t → RecPtr → Sched → Sched),
      (∀ f x t, (invoke f x t).callbackTriggers = t.callbackTriggers) →
      (∀ f x t, (invoke f x t).callbackEntries = t.callbackEntries) →
      ∀ fuel, 32 ≤ fuel →
        ∃ s' log, callbackCall invoke fuel (releaseWithTrigger p r s) = some (s', log) ∧
          ∀ c ∈ log, c.self ≠ r := by
  obtain ⟨hne, _, _, _, hother⟩ := hlive
  refine ⟨fun _ _ => ⟨rfl, rfl⟩, ?_, ?_, ?_, ?_⟩
  · cases p <;> rfl
  · cases p <;> rfl
  · cases p
    · exact Or.inl rfl
    · exact Or.inr rfl
    · exact Or.inr rfl
    · exact Or.inr rfl
  · intro invoke hT hE fuel hfuel
    have hent : (releaseWithTrigger p r s).callbackEntries
        = Function.update s.callbackEntries (s.mem r).id.toNat callbackEmptyRec := by
      cases p <;> rfl
    have hw : (releaseWithTrigger p r s).callbackTriggers < 2 ^ 32 := by
      cases p
      · exact and_not32_lt _ _
      · exact Nat.mod_lt _ (by decide)
      · exact Nat.mod_lt _ (by decide)
      · exact Nat.mod_lt _ (by decide)
    obtain ⟨s', log, h1, _, h3, h4, _⟩ :=
      callbackCall_spec invoke hT 32 fuel _ (Nat.le_refl _) hfuel hw
    refine ⟨s', log, h1, ?_⟩
    intro c hc heq
    have hidx : c.idx < 32 := by
      have : c.idx ∈ log.map Call.idx := List.mem_map_of_mem _ hc
      rw [h3] at this
      exact ((mem_descBits _ _ _).mp this).1
    have hself := h4 hE c hc
    rw [hent, heq] at hself
    by_cases e : c.idx = (s.mem r).id.toNat
    · rw [e, Function.update_same] at hself
      exact hne hself
    · rw [Function.update_noteq e] at hself
      exact hother c.idx hidx e hself.symm

/-- Witness for C6: the record of slot 3, triggered between the first and
the second statement of its release. -/
theorem trigger_during_release_is_harmless_witness :
    liveOnce (RecPtr.user 3) triggered39 ∧
    ((∀ (t : Sched) (x : RecPtr), (callbackTrigger x t).callbackFree = t.callbackFree ∧
      (callbackTrigger x t).callbackEntries = t.callbackEntries) ∧
    (releaseWithTrigger TriggerPoint.afterClearTrigger (RecPtr.user 3) triggered39).callbackFree
      = (callbackRelease (RecPtr.user 3) triggered39).callbackFree ∧
    (releaseWithTrigger TriggerPoint.afterClearTrigger (RecPtr.user 3) triggered39).callbackEntries
      = (callbackRelease (RecPtr.user 3) triggered39).callbackEntries ∧
    (releaseWithTrigger TriggerPoint.afterClearTrigger (RecPtr.user 3) triggered39
        = callbackRelease (RecPtr.user 3) (callbackTrigger (RecPtr.user 3) triggered39) ∨
      releaseWithTrigger TriggerPoint.afterClearTrigger (RecPtr.user 3) triggered39
        = callbackTrigger (RecPtr.user 3) (callbackRelease (RecPtr.user 3) triggered39)) ∧
    ∀ (invoke : callbackFun_t → RecPtr → Sched → Sched),
      (∀ f x t, (invoke f x t).callbackTriggers = t.callbackTriggers) →
      (∀ f x t, (invoke f x t).callbackEntries = t.callbackEntries) →
      ∀ fuel, 32 ≤ fuel →
        ∃ s' log, callbackCall invoke fuel
            (releaseWithTrigger TriggerPoint.afterClearTrigger (RecPtr.user 3) triggered39)
            = some (s', log) ∧
          ∀ c ∈ log, c.self ≠ RecPtr.user 3) :=
  ⟨by decide,
    trigger_during_release_is_harmless triggered39 (RecPtr.user 3) (by decide)
      TriggerPoint.afterClearTrigger⟩

/-! ## The receive ring buffer -/

/-- Subtraction of `uint32_t` is subtraction modulo `2 ^ 32`. -/
theorem sub32_eq (a b : Nat) : sub32 a b = (a % 2 ^ 32 + (2 ^ 32 - b % 2 ^ 32)) % 2 ^ 32 := by
  unfold sub32
  split_ifs <;> omega

theorem sub32_pow_one (k : Nat) (hk : k < 32) : sub32 (2 ^ k) 1 = 2 ^ k - 1 := by
  have h1 : 1 ≤ 2 ^ k := Nat.one_le_two_pow
  have h2 : 2 ^ k < 2 ^ 32 := Nat.pow_lt_pow_right (by decide) hk
  rw [sub32_eq]
  generalize 2 ^ k = S at h1 h2 ⊢
  omega

theorem mod32_mod_pow (x k : Nat) (hk : k < 32) : x % 2 ^ 32 % 2 ^ k = x % 2 ^ k :=
  Nat.mod_mod_of_dvd x (Nat.pow_dvd_pow 2 (by omega))

/-- Advancing a ring index: `(i + 1) & (size - 1)` is `(i + 1) mod size`. -/
theorem ring_advance (i k : Nat) (hk : k < 32) :
    add32 i 1 &&& sub32 (2 ^ k) 1 = (i + 1) % 2 ^ k := by
  rw [sub32_pow_one k hk, Nat.and_pow_two_sub_one_eq_mod]
  unfold add32
  exact mod32_mod_pow _ k hk

/-- The masked distance from `t` to `(t + n) mod size` is `n`. -/
theorem ring_distance (t n k : Nat) (hk : k < 32) (ht : t < 2 ^ k) (hn : n < 2 ^ k) :
    sub32 ((t + n) % 2 ^ k) t &&& sub32 (2 ^ k) 1 = n := by
  rw [sub32_pow_one k hk, Nat.and_pow_two_sub_one_eq_mod, sub32_eq, mod32_mod_pow _ k hk]
  have h2 : 2 ^ k < 2 ^ 32 := Nat.pow_lt_pow_right (by decide) hk
  have hh : (t + n) % 2 ^ k < 2 ^ k := Nat.mod_lt _ (by omega)
  rw [Nat.mod_eq_of_lt (Nat.lt_trans hh h2), Nat.mod_eq_of_lt (Nat.lt_trans ht h2)]
  have hdvd : 2 ^ k ∣ 2 ^ 32 := Nat.pow_dvd_pow 2 (by omega)
  have key : ((t + n) % 2 ^ k + (2 ^ 32 - t)) ≡ n [MOD 2 ^ k] := by
    apply Nat.ModEq.add_right_cancel' t
    have e : (t + n) % 2 ^ k + (2 ^ 32 - t) + t = (t + n) % 2 ^ k + 2 ^ 32 := by omega
    rw [e]
    have h1 : (t + n) % 2 ^ k + 2 ^ 32 ≡ (t + n) % 2 ^ k + 0 [MOD 2 ^ k] :=
      Nat.ModEq.add_left _ ((Nat.modEq_zero_iff_dvd).mpr hdvd)
    have h3 : (t + n) % 2 ^ k ≡ t + n [MOD 2 ^ k] := Nat.mod_modEq _ _
    rw [Nat.add_zero] at h1
    rw [Nat.add_comm n t]
    exact h1.trans h3
  exact (Nat.mod_eq_of_modEq key hn)

theorem ring_index_ne (t i j k : Nat) (hij : i < j) (hj : j < 2 ^ k) :
    (t + i) % 2 ^ k ≠ (t + j) % 2 ^ k := by
  intro h
  have h1 : t + i ≡ t + j [MOD 2 ^ k] := h
  have h2 : i ≡ j [MOD 2 ^ k] := Nat.ModEq.add_left_cancel' t h1
  have := Nat.ModEq.eq_of_lt_of_lt h2 (by omega) hj
  omega

theorem rxHolds_empty (K : Consts) (k : Nat) (st : uartPort_t) (hk : k < 32)
    (hsize : st.port.rxBufferSize = 2 ^ k) (hmode : st.port.mode &&& K.MODE_U_DMARX = 0)
    (hcb : st.port.rxCallback = none) (hempty : st.port.rxBufferHead = st.port.rxBufferTail)
    (htail : st.port.rxBufferTail < 2 ^ k) : rxHolds K k st [] := by
  refine ⟨hk, hsize, hmode, hcb, htail, by simp, ?_, ?_⟩
  · rw [hempty, List.length_nil, Nat.add_zero, Nat.mod_eq_of_lt htail]
  · intro i b h; simp at h

theorem rxHolds_irq (K : Consts) (k flags b : Nat) (st : uartPort_t) (q : List Nat)
    (h : rxHolds K k st q) (hflag : flags &&& K.USART_IT_RXNE ≠ 0) (hb : b < 256)
    (hroom : q.length + 1 < 2 ^ k) : rxHolds K k (uartIrqHandler K flags b st) (q ++ [b]) := by
  obtain ⟨hk, hsize, hmode, hcb, htail, hlen, hhead, hbuf⟩ := h
  have hrx : rxHolds K k (uartIrqHandler_rx K flags b st) (q ++ [b]) := by
    unfold uartIrqHandler_rx
    rw [if_pos ⟨hmode, hflag⟩, hcb]
    refine ⟨hk, hsize, hmode, hcb, htail, by simpa using hroom, ?_, ?_⟩
    · show add32 st.port.rxBufferHead 1 &&& sub32 st.port.rxBufferSize 1 = _
      rw [hsize, ring_advance _ k hk, hhead, List.length_append, List.length_singleton,
        ← Nat.add_assoc]
      exact Nat.ModEq.add_right 1 (Nat.mod_modEq _ _)
    · intro i c hc
      show Function.update st.port.rxBuffer st.port.rxBufferHead (b % 256)
        ((st.port.rxBufferTail + i) % 2 ^ k) = c ∧ c < 256
      by_cases hi : i < q.length
      · rw [List.getElem?_append_left hi] at hc
        have hne : (st.port.rxBufferTail + i) % 2 ^ k ≠ st.port.rxBufferHead := by
          rw [hhead]; exact ring_index_ne _ _ _ _ hi (by omega)
        rw [Function.update_noteq hne]
        exact hbuf i c hc
      · have hi' : i = q.length := by
          by_contra hne
          have : (q ++ [b])[i]? = none := by
            apply List.getElem?_eq_none
            simp; omega
          rw [this] at hc; exact absurd hc (by simp)
        subst hi'
        have hcb' : c = b := by simpa using hc.symm
        subst hcb'
        rw [← hhead, Function.update_same, Nat.mod_eq_of_lt hb]
        exact ⟨rfl, hb⟩
  unfold uartIrqHandler
  generalize uartIrqHandler_rx K flags b st = st1 at hrx
  unfold uartIrqHandler_tx
  split_ifs <;> exact hrx

theorem rxHolds_waiting (K : Consts) (k : Nat) (st : uartPort_t) (q : List Nat)
    (h : rxHolds K k st q) : uartTotalBytesWaiting K st = q.length := by
  obtain ⟨hk, hsize, hmode, _, htail, hlen, hhead, _⟩ := h
  unfold uartTotalBytesWaiting
  rw [if_neg (by simpa using hmode), hsize, hhead]
  exact ring_distance _ _ k hk htail hlen

theorem rxHolds_getc (K : Consts) (k b : Nat) (st : uartPort_t) (q : List Nat)
    (h : rxHolds K k st (b :: q)) :
    (uartGetc K st).1 = b ∧ rxHolds K k (uartGetc K st).2 q := by
  obtain ⟨hk, hsize, hmode, hcb, htail, hlen, hhead, hbuf⟩ := h
  have h0 := hbuf 0 b (by simp)
  rw [Nat.add_zero, Nat.mod_eq_of_lt htail] at h0
  unfold uartGetc
  rw [if_neg (by simpa using hmode)]
  refine ⟨?_, hk, hsize, hmode, hcb, ?_, ?_, ?_, ?_⟩
  · show st.port.rxBuffer st.port.rxBufferTail % 256 = b
    rw [h0.1]; exact Nat.mod_eq_of_lt h0.2
  · show add32 st.port.rxBufferTail 1 &&& sub32 st.port.rxBufferSize 1 < 2 ^ k
    rw [hsize, ring_advance _ k hk]; exact Nat.mod_lt _ (by omega)
  · simp only [List.length_cons] at hlen; omega
  · show st.port.rxBufferHead
      = ((add32 st.port.rxBufferTail 1 &&& sub32 st.port.rxBufferSize 1) + q.length) % 2 ^ k
    rw [hsize, ring_advance _ k hk, hhead, List.length_cons]
    have e : st.port.rxBufferTail + (q.length + 1) = st.port.rxBufferTail + 1 + q.length := by
      omega
    rw [e]
    exact (Nat.ModEq.add_right q.length (Nat.mod_modEq (st.port.rxBufferTail + 1) (2 ^ k))).symm
  · intro i c hc
    show st.port.rxBuffer
      (((add32 st.port.rxBufferTail 1 &&& sub32 st.port.rxBufferSize 1) + i) % 2 ^ k) = c ∧ c < 256
    rw [hsize, ring_advance _ k hk]
    have e : ((st.port.rxBufferTail + 1) % 2 ^ k + i) % 2 ^ k
        = (st.port.rxBufferTail + (i + 1)) % 2 ^ k := by
      have e' : st.port.rxBufferTail + (i + 1) = st.port.rxBufferTail + 1 + i := by omega
      rw [e']
      exact Nat.ModEq.add_right i (Nat.mod_modEq (st.port.rxBufferTail + 1) (2 ^ k))
    rw [e]
    exact hbuf (i + 1) c (by simpa using hc)

theorem rxHolds_receiveBytes (K : Consts) (k flags : Nat) (hflag : flags &&& K.USART_IT_RXNE ≠ 0)
    (bs : List Nat) : ∀ (st : uartPort_t) (q : List Nat), rxHolds K k st q →
    (∀ b ∈ bs, b < 256) → q.length + bs.length < 2 ^ k →
    rxHolds K k (receiveBytes K flags bs st) (q ++ bs) := by
  induction bs with
  | nil => intro st q h _ _; simpa [receiveBytes] using h
  | cons b bs ih =>
    intro st q h hb hlen
    simp only [List.length_cons] at hlen
    have h1 := rxHolds_irq K k flags b st q h hflag (hb b (List.mem_cons_self _ _)) (by omega)
    have h2 := ih _ _ h1 (fun c hc => hb c (List.mem_cons_of_mem _ hc))
      (by simp only [List.length_append, List.length_singleton]; omega)
    simpa [receiveBytes] using h2

theorem getBytes_of_rxHolds (K : Consts) (k : Nat) (q : List Nat) : ∀ (st : uartPort_t),
    rxHolds K k st q →
    (getBytes K q.length st).1 = (List.range q.length).map (fun i => q.length - i) ∧
    (getBytes K q.length st).2.1 = q ∧
    rxHolds K k (getBytes K q.length st).2.2 [] := by
  induction q with
  | nil => intro st h; exact ⟨rfl, rfl, h⟩
  | cons b q ih =>
    intro st h
    obtain ⟨hc, hrest⟩ := rxHolds_getc K k b st q h
    obtain ⟨i1, i2, i3⟩ := ih _ hrest
    have hw := rxHolds_waiting K k st (b :: q) h
    refine ⟨?_, ?_, i3⟩
    · show uartTotalBytesWaiting K st :: (getBytes K q.length (uartGetc K st).2).1 = _
      rw [hw, i1, List.length_cons, List.range_succ_eq_map, List.map_cons, List.map_map]
      simp [Function.comp]
    · show (uartGetc K st).1 :: (getBytes K q.length (uartGetc K st).2).2.1 = _
      rw [hc, i2]

/-- C7: interrupt-mode receive without a callback, on a ring of size
`2 ^ k` that starts empty (head equal to tail, in range).  After the receive
interrupt has stored the `N` bytes `bs`, `N` less than the size, `N` calls of
`uartGetc` return exactly `bs` in order, `uartTotalBytesWaiting` before the
get number `i + 1` returns `N - i`, and it returns 0 after the last get. -/
theorem uart_rx_ring_roundtrip (K : Consts) (self : uartPort_t) (k flags : Nat) (bs : List Nat)
    (hk : k < 32) (hsize : self.port.rxBufferSize = 2 ^ k)
    (hmode : self.port.mode &&& K.MODE_U_DMARX = 0) (hcb : self.port.rxCallback = none)
    (hflag : flags &&& K.USART_IT_RXNE ≠ 0)
    (hempty : self.port.rxBufferHead = self.port.rxBufferTail)
    (htail : self.port.rxBufferTail < 2 ^ k)
    (hbytes : ∀ b ∈ bs, b < 256) (hlen : bs.length < 2 ^ k) :
    (getBytes K bs.length (receiveBytes K flags bs self)).2.1 = bs ∧
    (getBytes K bs.length (receiveBytes K flags bs self)).1
      = (List.range bs.length).map (fun i => bs.length - i) ∧
    uartTotalBytesWaiting K (getBytes K bs.length (receiveBytes K flags bs self)).2.2 = 0 := by
  have h0 := rxHolds_empty K k self hk hsize hmode hcb hempty htail
  have h1 := rxHolds_receiveBytes K k flags hflag bs self [] h0 hbytes (by simpa using hlen)
  rw [List.nil_append] at h1
  obtain ⟨g1, g2, g3⟩ := getBytes_of_rxHolds K k bs _ h1
  exact ⟨g2, g1, rxHolds_waiting K k _ [] g3⟩

/-- Witness for C7: three bytes through a ring of size 8; the counts read
before the three gets are 3, 2, 1. -/
theorem uart_rx_ring_roundtrip_witness :
    (3 < 32 ∧ (samplePort 8 0).port.rxBufferSize = 2 ^ 3 ∧
      (samplePort 8 0).port.mode &&& K0.MODE_U_DMARX = 0 ∧
      (samplePort 8 0).port.rxCallback = none ∧ 0x20 &&& K0.USART_IT_RXNE ≠ 0 ∧
      (samplePort 8 0).port.rxBufferHead = (samplePort 8 0).port.rxBufferTail ∧
      (samplePort 8 0).port.rxBufferTail < 2 ^ 3 ∧
      (∀ b ∈ [65, 66, 67], b < 256) ∧ [65, 66, 67].length < 2 ^ 3) ∧
    (getBytes K0 3 (receiveBytes K0 0x20 [65, 66, 67] (samplePort 8 0))).1 = [3, 2, 1] ∧
    ((getBytes K0 [65, 66, 67].length (receiveBytes K0 0x20 [65, 66, 67] (samplePort 8 0))).2.1
        = [65, 66, 67] ∧
      (getBytes K0 [65, 66, 67].length (receiveBytes K0 0x20 [65, 66, 67] (samplePort 8 0))).1
        = (List.range [65, 66, 67].length).map (fun i => [65, 66, 67].length - i) ∧
      uartTotalBytesWaiting K0
        (getBytes K0 [65, 66, 67].length
          (receiveBytes K0 0x20 [65, 66, 67] (samplePort 8 0))).2.2 = 0) :=
  ⟨⟨by decide, by decide, by decide, by decide, by decide, by decide, by decide, by decide,
      by decide⟩,
    by decide,
    uart_rx_ring_roundtrip K0 (samplePort 8 0) 3 0x20 [65, 66, 67] (by decide) (by decide)
      (by decide) (by decide) (by decide) (by decide) (by decide) (by decide) (by decide)⟩

/-! ## DMA receive count -/

/-- C8, the code at a failing input: buffer size 8, DMA receive, one byte
deposited and none read.  The mode is DMA receive, the transfer count is 7
and the tracked position 8, `uartGetc` does return the deposited byte, yet
`uartTotalBytesWaiting` returns 7 where one byte is unread; with three bytes
deposited and one read it returns 6 where two are unread. -/
theorem uartTotalBytesWaiting_dma_miscounts :
    dmaOneUnread.port.mode &&& K0.MODE_U_DMARX ≠ 0 ∧
    dmaOneUnread.rxDMAChannel.CNDTR = 7 ∧ dmaOneUnread.rxDMAPos = 8 ∧
    (uartGetc K0 dmaOneUnread).1 = 65 ∧
    uartTotalBytesWaiting K0 dmaOneUnread = 7 ∧
    uartTotalBytesWaiting K0 dmaOneUnread ≠ 1 ∧
    uartTotalBytesWaiting K0
      (uartGetc K0 (dmaRxDeposit 67 (dmaRxDeposit 66 dmaOneUnread))).2 = 6 := by
  decide

/-! ## Ring indices stay in range -/

theorem ring_advance_lt (i k : Nat) (hk : k < 32) : add32 i 1 &&& sub32 (2 ^ k) 1 < 2 ^ k := by
  rw [ring_advance i k hk]
  exact Nat.mod_lt _ (Nat.pos_pow_of_pos k (by decide))

theorem uartStartTxDMA_inRange (st : uartPort_t) (h : indicesInRange st) :
    indicesInRange (uartStartTxDMA st) ∧ sameSizes st (uartStartTxDMA st) := by
  obtain ⟨h1, h2, h3, h4⟩ := h
  unfold uartStartTxDMA
  by_cases hc : st.port.txBufferHead > st.port.txBufferTail
  · simp only [hc, if_true]
    exact ⟨⟨h1, h2, h3, h3⟩, rfl, rfl⟩
  · simp only [hc, if_false]
    exact ⟨⟨h1, h2, h3, by show 0 < st.port.txBufferSize; omega⟩, rfl, rfl⟩

/-- C9: with buffer sizes that are powers of two (below `2 ^ 32`) and all
four ring indices in range, the indices are again in range, and the sizes
unchanged, after `uartPutc` (interrupt or DMA transmit), after
`uartStartTxDMA`, after `uartGetc` (either receive mode), and after
`uartIrqHandler` for any status flags and received data, as well as after its
receive part and its transmit part taken alone. -/
theorem ring_indices_stay_in_range (K : Consts) (st : uartPort_t) (kr kt : Nat)
    (hkr : kr < 32) (hkt : kt < 32)
    (hrx : st.port.rxBufferSize = 2 ^ kr) (htx : st.port.txBufferSize = 2 ^ kt)
    (h : indicesInRange st) (ch flags data : Nat) :
    (indicesInRange (uartPutc K ch st) ∧ sameSizes st (uartPutc K ch st)) ∧
    (indicesInRange (uartStartTxDMA st) ∧ sameSizes st (uartStartTxDMA st)) ∧
    (indicesInRange (uartGetc K st).2 ∧ sameSizes st (uartGetc K st).2) ∧
    (indicesInRange (uartIrqHandler_rx K flags data st) ∧
      sameSizes st (uartIrqHandler_rx K flags data st)) ∧
    (indicesInRange (uartIrqHandler_tx K flags st) ∧
      sameSizes st (uartIrqHandler_tx K flags st)) ∧
    (indicesInRange (uartIrqHandler K flags data st) ∧
      sameSizes st (uartIrqHandler K flags data st)) := by
  have hRx : ∀ i, add32 i 1 &&& sub32 st.port.rxBufferSize 1 < st.port.rxBufferSize := by
    intro i; rw [hrx]; exact ring_advance_lt i kr hkr
  have hTx : ∀ i, add32 i 1 &&& sub32 st.port.txBufferSize 1 < st.port.txBufferSize := by
    intro i; rw [htx]; exact ring_advance_lt i kt hkt
  have hrxPart : ∀ t : uartPort_t, indicesInRange t → sameSizes st t →
      indicesInRange (uartIrqHandler_rx K flags data t) ∧
        sameSizes st (uartIrqHandler_rx K flags data t) := by
    intro t ht hs
    obtain ⟨t1, t2, t3, t4⟩ := ht
    unfold uartIrqHandler_rx
    split_ifs with hc
    · cases hcb : t.port.rxCallback with
      | some cb => exact ⟨⟨t1, t2, t3, t4⟩, hs⟩
      | none =>
        refine ⟨⟨?_, t2, t3, t4⟩, hs⟩
        show add32 t.port.rxBufferHead 1 &&& sub32 t.port.rxBufferSize 1 < t.port.rxBufferSize
        rw [hs.1]; exact hRx _
    · exact ⟨⟨t1, t2, t3, t4⟩, hs⟩
  have htxPart : ∀ t : uartPort_t, indicesInRange t → sameSizes st t →
      indicesInRange (uartIrqHandler_tx K flags t) ∧
        sameSizes st (uartIrqHandler_tx K flags t) := by
    intro t ht hs
    obtain ⟨t1, t2, t3, t4⟩ := ht
    unfold uartIrqHandler_tx
    split_ifs with hc hne
    · refine ⟨⟨t1, t2, t3, ?_⟩, hs⟩
      show add32 t.port.txBufferTail 1 &&& sub32 t.port.txBufferSize 1 < t.port.txBufferSize
      rw [hs.2]; exact hTx _
    · exact ⟨⟨t1, t2, t3, t4⟩, hs⟩
    · exact ⟨⟨t1, t2, t3, t4⟩, hs⟩
  have hself : sameSizes st st := ⟨rfl, rfl⟩
  obtain ⟨h1, h2, h3, h4⟩ := h
  refine ⟨?_, uartStartTxDMA_inRange st ⟨h1, h2, h3, h4⟩, ?_, hrxPart st ⟨h1, h2, h3, h4⟩ hself,
    htxPart st ⟨h1, h2, h3, h4⟩ hself, ?_⟩
  · unfold uartPutc
    have hput : indicesInRange
        { st with
          port := { st.port with
            txBuffer := Function.update st.port.txBuffer st.port.txBufferHead (ch % 256)
            txBufferHead := add32 st.port.txBufferHead 1 &&& sub32 st.port.txBufferSize 1 } } :=
      ⟨h1, h2, hTx _, h4⟩
    simp only []
    split_ifs with hm hccr
    · obtain ⟨a, b⟩ := uartStartTxDMA_inRange _ hput
      exact ⟨a, b⟩
    · exact ⟨hput, rfl, rfl⟩
    · exact ⟨hput, rfl, rfl⟩
  · unfold uartGetc
    split_ifs with hm
    · exact ⟨⟨h1, h2, h3, h4⟩, rfl, rfl⟩
    · exact ⟨⟨h1, hRx _, h3, h4⟩, rfl, rfl⟩
  · unfold uartIrqHandler
    obtain ⟨a, b⟩ := hrxPart st ⟨h1, h2, h3, h4⟩ hself
    exact htxPart _ a b

/-- Witness for C9: a port with buffers of size 8 after one `uartPutc`. -/
theorem ring_indices_stay_in_range_witness :
    (3 < 32 ∧ 3 < 32 ∧ (uartPutc K0 1 (samplePort 8 3)).port.rxBufferSize = 2 ^ 3 ∧
      (uartPutc K0 1 (samplePort 8 3)).port.txBufferSize = 2 ^ 3 ∧
      indicesInRange (uartPutc K0 1 (samplePort 8 3))) ∧
    indicesInRange (uartPutc K0 2 (uartPutc K0 1 (samplePort 8 3))) ∧
    indicesInRange (uartIrqHandler K0 0xA0 7 (uartPutc K0 1 (samplePort 8 3))) :=
  ⟨⟨by decide, by decide, by decide, by decide, by decide⟩,
    (ring_indices_stay_in_range K0 (uartPutc K0 1 (samplePort 8 3)) 3 3 (by decide) (by decide)
      (by decide) (by decide) (by decide) 2 0xA0 7).1.1,
    (ring_indices_stay_in_range K0 (uartPutc K0 1 (samplePort 8 3)) 3 3 (by decide) (by decide)
      (by decide) (by decide) (by decide) 2 0xA0 7).2.2.2.2.2.1⟩

/-! ## Release -/

/-- C10, what the code does: after `uartRelease` on any port the run state
is 0 and the mode is 0, the peripheral is configured with neither receiver nor
transmitter, but the last `USART_Cmd` issued is ENABLE and the peripheral is
left enabled: the DISABLE issued by `uartRelease` is followed by a second
`uartReconfigure`, which ends by enabling the peripheral again. -/
theorem uartRelease_leaves_peripheral_enabled (K : Consts) (self : uartPort_t) :
    (uartRelease K self).port.state = 0 ∧ (uartRelease K self).port.mode = 0 ∧
    ((uartRelease K self).USARTx.config.map (fun c => c.USART_Mode)) = some 0 ∧
    (uartRelease K self).USARTx.cmds
      = self.USARTx.cmds ++ [false, true, false, false, true] ∧
    (uartRelease K self).USARTx.cmds.getLast? = some true ∧
    (uartRelease K self).USARTx.enabled = true := by
  refine ⟨?_, ?_, ?_, ?_, ?_, ?_⟩ <;>
    simp [uartRelease, uartUpdateState, uartReconfigure, USART_Cmd]
/-! ## The SUMH frame decoder -/

/-- The cursor and frame after one received byte, by whether a gap was seen. -/
theorem sumhDataReceive_cursor (c now : Nat) (s : SumhState) :
    (sumhDataReceive c now s).sumhFramePosition
      = (if (if sub32 (now % 2 ^ 32) s.sumhTimeLast > 5000 then 0 else s.sumhFramePosition) = 20
          then 20
          else ((if sub32 (now % 2 ^ 32) s.sumhTimeLast > 5000 then 0 else s.sumhFramePosition) + 1)
            % 256) ∧
    (sumhDataReceive c now s).sumhFrame
      = Function.update s.sumhFrame
          (if sub32 (now % 2 ^ 32) s.sumhTimeLast > 5000 then 0 else s.sumhFramePosition) (c % 256) ∧
    (sumhDataReceive c now s).sumhFrameDone
      = (s.sumhFrameDone ||
          decide ((if sub32 (now % 2 ^ 32) s.sumhTimeLast > 5000 then 0 else s.sumhFramePosition) = 20)) ∧
    (sumhDataReceive c now s).sumhChannels = s.sumhChannels := by
  simp only [sumhDataReceive, SUMH_FRAME_SIZE, Nat.reduceSub]
  generalize (if sub32 (now % 2 ^ 32) s.sumhTimeLast > 5000 then 0 else s.sumhFramePosition) = p
  by_cases h : p = 20
  · simp [h]
  · simp [h]

/-- C12: in any decoder state with the cursor in 0..20 and any completion
flag, a byte whose arrival time differs from the previous one by more than
5000 (modulo `2 ^ 32`) is stored at index 0 and leaves the cursor at 1; a
byte with a difference of at most 5000 is stored at the cursor and moves the
cursor one up, or leaves it at 20, so the cursor is never reset. -/
theorem sumh_gap_resync (c now : Nat) (s : SumhState) (hpos : s.sumhFramePosition ≤ 20) :
    (sub32 (now % 2 ^ 32) s.sumhTimeLast > 5000 →
      (sumhDataReceive c now s).sumhFrame 0 = c % 256 ∧
      (sumhDataReceive c now s).sumhFramePosition = 1) ∧
    (sub32 (now % 2 ^ 32) s.sumhTimeLast ≤ 5000 →
      (sumhDataReceive c now s).sumhFrame s.sumhFramePosition = c % 256 ∧
      (sumhDataReceive c now s).sumhFramePosition
        = (if s.sumhFramePosition = 20 then 20 else s.sumhFramePosition + 1) ∧
      (sumhDataReceive c now s).sumhFramePosition ≠ 0 ∧
      s.sumhFramePosition ≤ (sumhDataReceive c now s).sumhFramePosition) := by
  obtain ⟨h1, h2, _, _⟩ := sumhDataReceive_cursor c now s
  rw [h1, h2]
  constructor
  · intro hgap
    rw [if_pos hgap]
    simp
  · intro hno
    have hng : ¬ sub32 (now % 2 ^ 32) s.sumhTimeLast > 5000 := by omega
    rw [if_neg hng]
    refine ⟨by simp, ?_, ?_, ?_⟩
    · split_ifs <;> omega
    · split_ifs <;> omega
    · split_ifs <;> omega

/-- Witness for C12: a gap seen with the cursor at 20, and no gap seen with
the cursor at 20. -/
theorem sumh_gap_resync_witness :
    sumhPolled.sumhFramePosition ≤ 20 ∧
    sub32 (80100 % 2 ^ 32) sumhPolled.sumhTimeLast > 5000 ∧
    (sumhDataReceive 0x41 80100 sumhPolled).sumhFrame 0 = 0x41 % 256 ∧
    (sumhDataReceive 0x41 80100 sumhPolled).sumhFramePosition = 1 :=
  ⟨by decide, by decide,
    (sumh_gap_resync 0x41 80100 sumhPolled (by decide)).1 (by decide)⟩

/-- C13 as stated fails: with the cursor at 20 and the completion flag
cleared by the poll, a byte arriving 100 time-units after the previous one
changes frame byte 20 and sets the completion flag. -/
theorem sumh_extra_byte_not_ignored :
    sumhPolled.sumhFramePosition = 20 ∧ sumhPolled.sumhFrameDone = false ∧
    sub32 (70100 % 2 ^ 32) sumhPolled.sumhTimeLast ≤ 5000 ∧
    sumhPolled.sumhFrame 20 = 20 ∧
    (sumhDataReceive 0x55 70100 sumhPolled).sumhFrame 20 = 0x55 ∧
    (sumhDataReceive 0x55 70100 sumhPolled).sumhFrameDone = true ∧
    ¬ ((∀ i, i < 21 →
          (sumhDataReceive 0x55 70100 sumhPolled).sumhFrame i = sumhPolled.sumhFrame i) ∧
        (sumhDataReceive 0x55 70100 sumhPolled).sumhFrameDone = sumhPolled.sumhFrameDone) := by
  refine ⟨by decide, by decide, by decide, by decide, by decide, by decide, ?_⟩
  intro h
  exact absurd h.2 (by decide)

/-- C13 as amended: once the cursor is at the last index 20, a further byte
arriving within the gap threshold leaves the cursor at 20, leaves frame bytes
0..19 and the published channels unchanged, is stored at index 20, and sets
the completion flag. -/
theorem sumh_extra_byte_overwrites_last (c now : Nat) (s : SumhState)
    (hpos : s.sumhFramePosition = 20) (hno : sub32 (now % 2 ^ 32) s.sumhTimeLast ≤ 5000) :
    (sumhDataReceive c now s).sumhFramePosition = 20 ∧
    (∀ i, i < 20 → (sumhDataReceive c now s).sumhFrame i = s.sumhFrame i) ∧
    (sumhDataReceive c now s).sumhFrame 20 = c % 256 ∧
    (sumhDataReceive c now s).sumhFrameDone = true ∧
    (sumhDataReceive c now s).sumhChannels = s.sumhChannels := by
  obtain ⟨h1, h2, h3, h4⟩ := sumhDataReceive_cursor c now s
  have hng : ¬ sub32 (now % 2 ^ 32) s.sumhTimeLast > 5000 := by omega
  rw [if_neg hng, hpos] at h1 h2 h3
  rw [h1, h2, h3, h4]
  refine ⟨by simp, ?_, by simp, by simp, rfl⟩
  intro i hi
  have : i ≠ 20 := by omega
  simp [Function.update, this]

/-- Witness for C13 as amended, on the polled decoder state. -/
theorem sumh_extra_byte_overwrites_last_witness :
    sumhPolled.sumhFramePosition = 20 ∧
    sub32 (70100 % 2 ^ 32) sumhPolled.sumhTimeLast ≤ 5000 ∧
    ((sumhDataReceive 0x55 70100 sumhPolled).sumhFramePosition = 20 ∧
    (∀ i, i < 20 → (sumhDataReceive 0x55 70100 sumhPolled).sumhFrame i = sumhPolled.sumhFrame i) ∧
    (sumhDataReceive 0x55 70100 sumhPolled).sumhFrame 20 = 0x55 % 256 ∧
    (sumhDataReceive 0x55 70100 sumhPolled).sumhFrameDone = true ∧
    (sumhDataReceive 0x55 70100 sumhPolled).sumhChannels = sumhPolled.sumhChannels) :=
  ⟨by decide, by decide,
    sumh_extra_byte_overwrites_last 0x55 70100 sumhPolled (by decide) (by decide)⟩

/-- The three ways through `sumhFrameStatus`. -/
theorem sumhFrameStatus_cases (conv : Nat → Nat) (s : SumhState) :
    (s.sumhFrameDone = false → sumhFrameStatus conv s = (FrameStatus.SERIAL_RX_FRAME_PENDING, s)) ∧
    (s.sumhFrameDone = true → ¬ (s.sumhFrame 0 = 0xA8 ∧ s.sumhFrame 19 = 0) →
      sumhFrameStatus conv s
        = (FrameStatus.SERIAL_RX_FRAME_PENDING, { s with sumhFrameDone := false })) ∧
    (s.sumhFrameDone = true → (s.sumhFrame 0 = 0xA8 ∧ s.sumhFrame 19 = 0) →
      (sumhFrameStatus conv s).1 = FrameStatus.SERIAL_RX_FRAME_COMPLETE ∧
      (sumhFrameStatus conv s).2.sumhFrameDone = false) := by
  refine ⟨?_, ?_, ?_⟩
  · intro h
    simp [sumhFrameStatus, h]
  · intro h hbad
    simp only [sumhFrameStatus, SUMH_FRAME_SIZE, Nat.reduceSub, h]
    simp [hbad]
  · intro h hgood
    simp only [sumhFrameStatus, SUMH_FRAME_SIZE, Nat.reduceSub, h]
    simp [hgood]

/-- C14: `sumhFrameStatus` returns `SERIAL_RX_FRAME_COMPLETE` exactly when
the completion flag is set, frame byte 0 is `0xA8` and frame byte 19 is 0,
and returns `SERIAL_RX_FRAME_PENDING` in every other case. -/
theorem sumhFrameStatus_complete_iff (conv : Nat → Nat) (s : SumhState) :
    ((sumhFrameStatus conv s).1 = FrameStatus.SERIAL_RX_FRAME_COMPLETE ↔
      (s.sumhFrameDone = true ∧ s.sumhFrame 0 = 0xA8 ∧ s.sumhFrame 19 = 0)) ∧
    ((sumhFrameStatus conv s).1 = FrameStatus.SERIAL_RX_FRAME_PENDING ↔
      ¬ (s.sumhFrameDone = true ∧ s.sumhFrame 0 = 0xA8 ∧ s.sumhFrame 19 = 0)) := by
  obtain ⟨h1, h2, h3⟩ := sumhFrameStatus_cases conv s
  cases hd : s.sumhFrameDone with
  | false =>
    rw [h1 hd]
    simp
  | true =>
    by_cases hv : s.sumhFrame 0 = 0xA8 ∧ s.sumhFrame 19 = 0
    · rw [(h3 hd hv).1]
      simp [hv]
    · rw [h2 hd hv]
      have hne : FrameStatus.SERIAL_RX_FRAME_PENDING ≠ FrameStatus.SERIAL_RX_FRAME_COMPLETE := by
        decide
      exact ⟨⟨fun h => absurd h hne, fun h => absurd h.2 hv⟩,
        ⟨fun _ h => hv h.2, fun _ => rfl⟩⟩

/-- C15: whenever `sumhFrameStatus` returns `SERIAL_RX_FRAME_PENDING` the
published channel values are unchanged; after any call the completion flag is
clear; and a second call made right after the first returns
`SERIAL_RX_FRAME_PENDING`. -/
theorem sumhFrameStatus_pending_keeps_channels (conv : Nat → Nat) (s : SumhState) :
    ((sumhFrameStatus conv s).1 = FrameStatus.SERIAL_RX_FRAME_PENDING →
      (sumhFrameStatus conv s).2.sumhChannels = s.sumhChannels) ∧
    (sumhFrameStatus conv s).2.sumhFrameDone = false ∧
    (sumhFrameStatus conv (sumhFrameStatus conv s).2).1 = FrameStatus.SERIAL_RX_FRAME_PENDING := by
  obtain ⟨h1, h2, h3⟩ := sumhFrameStatus_cases conv s
  have hclear : (sumhFrameStatus conv s).2.sumhFrameDone = false := by
    cases hd : s.sumhFrameDone with
    | false => rw [h1 hd]; exact hd
    | true =>
      by_cases hv : s.sumhFrame 0 = 0xA8 ∧ s.sumhFrame 19 = 0
      · exact (h3 hd hv).2
      · rw [h2 hd hv]
  refine ⟨?_, hclear, ?_⟩
  · intro hp
    cases hd : s.sumhFrameDone with
    | false => rw [h1 hd]
    | true =>
      by_cases hv : s.sumhFrame 0 = 0xA8 ∧ s.sumhFrame 19 = 0
      · rw [(h3 hd hv).1] at hp
        exact absurd hp (by decide)
      · rw [h2 hd hv]
  · rw [(sumhFrameStatus_cases conv (sumhFrameStatus conv s).2).1 hclear]

/-- Witness for C15: a completed frame with a wrong marker byte is reported
pending and the channels keep their values. -/
theorem sumhFrameStatus_pending_keeps_channels_witness :
    (sumhFrameStatus sampleConv
        { sumhPolled with sumhFrameDone := true, sumhFrame := fun _ => 7 }).1
      = FrameStatus.SERIAL_RX_FRAME_PENDING ∧
    (sumhFrameStatus sampleConv
        { sumhPolled with sumhFrameDone := true, sumhFrame := fun _ => 7 }).2.sumhChannels
      = sumhPolled.sumhChannels :=
  ⟨by decide,
    (sumhFrameStatus_pending_keeps_channels sampleConv
      { sumhPolled with sumhFrameDone := true, sumhFrame := fun _ => 7 }).1 (by decide)⟩

/-- C17: `sumhReadRawRC` returns 0 for every 8-bit channel index from 8
to 255, whatever the decoder state, and for an index below 8 returns the
published value of that channel reduced to 16 bits; in both cases the decoder
state is left as it was. -/
theorem sumhReadRawRC_sentinel (chan : Nat) (s : SumhState) :
    (8 ≤ chan → chan < 256 → (sumhReadRawRC chan s).1 = 0) ∧
    (chan < 8 → (sumhReadRawRC chan s).1 = s.sumhChannels chan % 2 ^ 16) ∧
    (sumhReadRawRC chan s).2 = s := by
  unfold sumhReadRawRC
  simp only [SUMH_MAX_CHANNEL_COUNT]
  by_cases h : chan ≥ 8
  · rw [if_pos h]
    exact ⟨fun _ _ => rfl, fun h8 => by omega, rfl⟩
  · rw [if_neg h]
    exact ⟨fun h8 => by omega, fun _ => rfl, rfl⟩

/-- Witness for C17: index 200 reads 0, index 3 reads the published value. -/
theorem sumhReadRawRC_sentinel_witness :
    (8 ≤ 200 ∧ 200 < 256 ∧ (sumhReadRawRC 200 sumhPolled).1 = 0) ∧
    (3 < 8 ∧ (sumhReadRawRC 3 sumhPolled).1 = sumhPolled.sumhChannels 3 % 2 ^ 16) :=
  ⟨⟨by decide, by decide, (sumhReadRawRC_sentinel 200 sumhPolled).1 (by decide) (by decide)⟩,
    ⟨by decide, (sumhReadRawRC_sentinel 3 sumhPolled).2.1 (by decide)⟩⟩

/-! ## The receive interrupt path -/

/-- The transmit part of the interrupt handler leaves the receive side of
the port alone. -/
theorem uartIrqHandler_tx_rx_frame (K : Consts) (flags : Nat) (t : uartPort_t) :
    (uartIrqHandler_tx K flags t).rxCalls = t.rxCalls ∧
    (uartIrqHandler_tx K flags t).port.rxBuffer = t.port.rxBuffer ∧
    (uartIrqHandler_tx K flags t).port.rxBufferHead = t.port.rxBufferHead ∧
    (uartIrqHandler_tx K flags t).port.rxBufferTail = t.port.rxBufferTail := by
  unfold uartIrqHandler_tx
  split_ifs <;> exact ⟨rfl, rfl, rfl, rfl⟩

/-- C11: a byte-ready interrupt on a port in non-DMA receive mode.  With a
receive callback installed the handler makes exactly one call of it, with
the received data, and leaves the receive buffer, `rxBufferHead` and
`rxBufferTail` unchanged; with none installed it makes no call, stores the
byte at `rxBufferHead`, advances `rxBufferHead` by one modulo the buffer size
`2 ^ k`, and leaves `rxBufferTail` unchanged. -/
theorem uartIrqHandler_rx_callback_or_buffer (K : Consts) (self : uartPort_t)
    (k flags data : Nat) (hk : k < 32) (hsize : self.port.rxBufferSize = 2 ^ k)
    (hmode : self.port.mode &&& K.MODE_U_DMARX = 0) (hflag : flags &&& K.USART_IT_RXNE ≠ 0) :
    (∀ cb, self.port.rxCallback = some cb →
      (uartIrqHandler K flags data self).rxCalls = self.rxCalls ++ [(cb, data % 2 ^ 16)] ∧
      (uartIrqHandler K flags data self).port.rxBuffer = self.port.rxBuffer ∧
      (uartIrqHandler K flags data self).port.rxBufferHead = self.port.rxBufferHead ∧
      (uartIrqHandler K flags data self).port.rxBufferTail = self.port.rxBufferTail) ∧
    (self.port.rxCallback = none →
      (uartIrqHandler K flags data self).rxCalls = self.rxCalls ∧
      (uartIrqHandler K flags data self).port.rxBuffer
        = Function.update self.port.rxBuffer self.port.rxBufferHead (data % 256) ∧
      (uartIrqHandler K flags data self).port.rxBufferHead
        = (self.port.rxBufferHead + 1) % 2 ^ k ∧
      (uartIrqHandler K flags data self).port.rxBufferTail = self.port.rxBufferTail) := by
  unfold uartIrqHandler
  obtain ⟨e1, e2, e3, e4⟩ := uartIrqHandler_tx_rx_frame K flags (uartIrqHandler_rx K flags data self)
  rw [e1, e2, e3, e4]
  unfold uartIrqHandler_rx
  rw [if_pos ⟨hmode, hflag⟩]
  constructor
  · intro cb hcb
    rw [hcb]
    exact ⟨rfl, rfl, rfl, rfl⟩
  · intro hcb
    rw [hcb]
    refine ⟨rfl, rfl, ?_, rfl⟩
    show add32 self.port.rxBufferHead 1 &&& sub32 self.port.rxBufferSize 1 = _
    rw [hsize, ring_advance _ k hk]

/-- Witness for C11: one byte-ready interrupt on a port with callback 7
installed. -/
theorem uartIrqHandler_rx_callback_or_buffer_witness :
    (3 < 32 ∧ callbackPort.port.rxBufferSize = 2 ^ 3 ∧
      callbackPort.port.mode &&& K0.MODE_U_DMARX = 0 ∧ 0x20 &&& K0.USART_IT_RXNE ≠ 0 ∧
      callbackPort.port.rxCallback = some 7) ∧
    ((uartIrqHandler K0 0x20 0x41 callbackPort).rxCalls = callbackPort.rxCalls ++ [(7, 0x41 % 2 ^ 16)] ∧
      (uartIrqHandler K0 0x20 0x41 callbackPort).port.rxBuffer = callbackPort.port.rxBuffer ∧
      (uartIrqHandler K0 0x20 0x41 callbackPort).port.rxBufferHead = callbackPort.port.rxBufferHead ∧
      (uartIrqHandler K0 0x20 0x41 callbackPort).port.rxBufferTail = callbackPort.port.rxBufferTail) :=
  ⟨⟨by decide, by decide, by decide, by decide, by decide⟩,
    (uartIrqHandler_rx_callback_or_buffer K0 callbackPort 3 0x20 0x41 (by decide) (by decide)
      (by decide) (by decide)).1 7 (by decide)⟩

/-! ## The transmit ring buffer -/

/-- The receive part of the interrupt handler leaves the transmit side of
the port, its mode and the peripheral alone. -/
theorem uartIrqHandler_rx_tx_frame (K : Consts) (flags data : Nat) (t : uartPort_t) :
    (uartIrqHandler_rx K flags data t).USARTx = t.USARTx ∧
    (uartIrqHandler_rx K flags data t).port.mode = t.port.mode ∧
    (uartIrqHandler_rx K flags data t).port.txBufferSize = t.port.txBufferSize ∧
    (uartIrqHandler_rx K flags data t).port.txBuffer = t.port.txBuffer ∧
    (uartIrqHandler_rx K flags data t).port.txBufferHead = t.port.txBufferHead ∧
    (uartIrqHandler_rx K flags data t).port.txBufferTail = t.port.txBufferTail := by
  unfold uartIrqHandler_rx
  split_ifs
  · cases t.port.rxCallback <;> exact ⟨rfl, rfl, rfl, rfl, rfl, rfl⟩
  · exact ⟨rfl, rfl, rfl, rfl, rfl, rfl⟩

theorem txHolds_congr (K : Consts) (k : Nat) (a b : uartPort_t) (q : List Nat)
    (h : txHolds K k a q) (hm : b.port.mode = a.port.mode)
    (hs : b.port.txBufferSize = a.port.txBufferSize) (hb : b.port.txBuffer = a.port.txBuffer)
    (hh : b.port.txBufferHead = a.port.txBufferHead)
    (ht : b.port.txBufferTail = a.port.txBufferTail) : txHolds K k b q := by
  unfold txHolds at h ⊢
  rw [hm, hs, hb, hh, ht]
  exact h

theorem txHolds_empty (K : Consts) (k : Nat) (st : uartPort_t) (hk : k < 32)
    (hsize : st.port.txBufferSize = 2 ^ k) (hmode : st.port.mode &&& K.MODE_U_DMATX = 0)
    (hempty : st.port.txBufferHead = st.port.txBufferTail)
    (htail : st.port.txBufferTail < 2 ^ k) : txHolds K k st [] := by
  refine ⟨hk, hsize, hmode, htail, by simp, ?_, ?_⟩
  · rw [hempty, List.length_nil, Nat.add_zero, Nat.mod_eq_of_lt htail]
  · intro i b h; simp at h

theorem txHolds_putc (K : Consts) (k b : Nat) (st : uartPort_t) (q : List Nat)
    (h : txHolds K k st q) (hb : b < 256) (hroom : q.length + 1 < 2 ^ k) :
    txHolds K k (uartPutc K b st) (q ++ [b]) ∧ (uartPutc K b st).USARTx.itTXE = true ∧
    (uartPutc K b st).USARTx.sent = st.USARTx.sent := by
  obtain ⟨hk, hsize, hmode, htail, hlen, hhead, hbuf⟩ := h
  unfold uartPutc
  simp only []
  rw [if_neg (by simpa using hmode)]
  refine ⟨⟨hk, hsize, hmode, htail, by simpa using hroom, ?_, ?_⟩, rfl, rfl⟩
  · show add32 st.port.txBufferHead 1 &&& sub32 st.port.txBufferSize 1 = _
    rw [hsize, ring_advance _ k hk, hhead, List.length_append, List.length_singleton,
      ← Nat.add_assoc]
    exact Nat.ModEq.add_right 1 (Nat.mod_modEq _ _)
  · intro i c hc
    show Function.update st.port.txBuffer st.port.txBufferHead (b % 256)
      ((st.port.txBufferTail + i) % 2 ^ k) = c ∧ c < 256
    by_cases hi : i < q.length
    · rw [List.getElem?_append_left hi] at hc
      have hne : (st.port.txBufferTail + i) % 2 ^ k ≠ st.port.txBufferHead := by
        rw [hhead]; exact ring_index_ne _ _ _ _ hi (by omega)
      rw [Function.update_noteq hne]
      exact hbuf i c hc
    · have hi' : i = q.length := by
        by_contra hne
        have : (q ++ [b])[i]? = none := by
          apply List.getElem?_eq_none
          simp; omega
        rw [this] at hc; exact absurd hc (by simp)
      subst hi'
      have hcb' : c = b := by simpa using hc.symm
      subst hcb'
      rw [← hhead, Function.update_same, Nat.mod_eq_of_lt hb]
      exact ⟨rfl, hb⟩

theorem txHolds_isEmpty (K : Consts) (k : Nat) (st : uartPort_t) (q : List Nat)
    (h : txHolds K k st q) : isUartTransmitBufferEmpty K st = decide (q = []) := by
  obtain ⟨hk, hsize, hmode, htail, hlen, hhead, hbuf⟩ := h
  unfold isUartTransmitBufferEmpty
  rw [if_neg (by simpa using hmode)]
  cases q with
  | nil =>
    have : st.port.txBufferTail = st.port.txBufferHead := by
      rw [hhead, List.length_nil, Nat.add_zero, Nat.mod_eq_of_lt htail]
    simp [this]
  | cons b q =>
    have hne : st.port.txBufferTail ≠ st.port.txBufferHead := by
      rw [hhead]
      have := ring_index_ne st.port.txBufferTail 0 (b :: q).length k (by simp) hlen
      rwa [Nat.add_zero, Nat.mod_eq_of_lt htail] at this
    simp [hne]

theorem txHolds_irq_send (K : Consts) (k flags data b : Nat) (st : uartPort_t) (q : List Nat)
    (h : txHolds K k st (b :: q)) (hflag : flags &&& K.USART_IT_TXE ≠ 0) :
    txHolds K k (uartIrqHandler K flags data st) q ∧
    (uartIrqHandler K flags data st).USARTx.sent = st.USARTx.sent ++ [b] ∧
    (uartIrqHandler K flags data st).USARTx.itTXE = st.USARTx.itTXE := by
  obtain ⟨r1, r2, r3, r4, r5, r6⟩ := uartIrqHandler_rx_tx_frame K flags data st
  have h1 : txHolds K k (uartIrqHandler_rx K flags data st) (b :: q) :=
    txHolds_congr K k st _ _ h r2 r3 r4 r5 r6
  unfold uartIrqHandler
  rw [← r1]
  generalize uartIrqHandler_rx K flags data st = t at h1
  have hne : isUartTransmitBufferEmpty K t = decide (b :: q = []) := txHolds_isEmpty K k t _ h1
  obtain ⟨hk, hsize, hmode, htail, hlen, hhead, hbuf⟩ := h1
  have hne' : t.port.txBufferTail ≠ t.port.txBufferHead := by
    unfold isUartTransmitBufferEmpty at hne
    rw [if_neg (by simpa using hmode)] at hne
    simpa using hne
  have h0 := hbuf 0 b (by simp)
  rw [Nat.add_zero, Nat.mod_eq_of_lt htail] at h0
  unfold uartIrqHandler_tx
  rw [if_pos ⟨hmode, hflag⟩, if_pos hne']
  refine ⟨⟨hk, hsize, hmode, ?_, ?_, ?_, ?_⟩, ?_, rfl⟩
  · show add32 t.port.txBufferTail 1 &&& sub32 t.port.txBufferSize 1 < 2 ^ k
    rw [hsize, ring_advance _ k hk]; exact Nat.mod_lt _ (by omega)
  · simp only [List.length_cons] at hlen; omega
  · show t.port.txBufferHead
      = ((add32 t.port.txBufferTail 1 &&& sub32 t.port.txBufferSize 1) + q.length) % 2 ^ k
    rw [hsize, ring_advance _ k hk, hhead, List.length_cons]
    have e : t.port.txBufferTail + (q.length + 1) = t.port.txBufferTail + 1 + q.length := by
      omega
    rw [e]
    exact (Nat.ModEq.add_right q.length (Nat.mod_modEq (t.port.txBufferTail + 1) (2 ^ k))).symm
  · intro i c hc
    show t.port.txBuffer
      (((add32 t.port.txBufferTail 1 &&& sub32 t.port.txBufferSize 1) + i) % 2 ^ k) = c ∧ c < 256
    rw [hsize, ring_advance _ k hk]
    have e : ((t.port.txBufferTail + 1) % 2 ^ k + i) % 2 ^ k
        = (t.port.txBufferTail + (i + 1)) % 2 ^ k := by
      have e' : t.port.txBufferTail + (i + 1) = t.port.txBufferTail + 1 + i := by omega
      rw [e']
      exact Nat.ModEq.add_right i (Nat.mod_modEq (t.port.txBufferTail + 1) (2 ^ k))
    rw [e]
    exact hbuf (i + 1) c (by simpa using hc)
  · show t.USARTx.sent ++ [t.port.txBuffer t.port.txBufferTail] = t.USARTx.sent ++ [b]
    rw [h0.1]

theorem txHolds_irq_idle (K : Consts) (k flags data : Nat) (st : uartPort_t)
    (h : txHolds K k st []) (hflag : flags &&& K.USART_IT_TXE ≠ 0) :
    (uartIrqHandler K flags data st).USARTx.sent = st.USARTx.sent ∧
    (uartIrqHandler K flags data st).USARTx.itTXE = false := by
  obtain ⟨r1, r2, r3, r4, r5, r6⟩ := uartIrqHandler_rx_tx_frame K flags data st
  have h1 : txHolds K k (uartIrqHandler_rx K flags data st) [] :=
    txHolds_congr K k st _ _ h r2 r3 r4 r5 r6
  unfold uartIrqHandler
  rw [← r1]
  generalize uartIrqHandler_rx K flags data st = t at h1
  obtain ⟨hk, hsize, hmode, htail, hlen, hhead, hbuf⟩ := h1
  have heq : ¬ t.port.txBufferTail ≠ t.port.txBufferHead := by
    rw [hhead, List.length_nil, Nat.add_zero, Nat.mod_eq_of_lt htail]
    simp
  unfold uartIrqHandler_tx
  rw [if_pos ⟨hmode, hflag⟩, if_neg heq]
  exact ⟨rfl, rfl⟩

theorem txHolds_putBytes (K : Consts) (k : Nat) (bs : List Nat) :
    ∀ (st : uartPort_t) (q : List Nat), txHolds K k st q →
    (∀ b ∈ bs, b < 256) → q.length + bs.length < 2 ^ k →
    txHolds K k (putBytes K bs st) (q ++ bs) ∧
    (putBytes K bs st).USARTx.sent = st.USARTx.sent ∧
    (bs ≠ [] → (putBytes K bs st).USARTx.itTXE = true) := by
  induction bs with
  | nil =>
    intro st q h _ _
    exact ⟨by simpa [putBytes] using h, rfl, fun hne => absurd rfl hne⟩
  | cons b bs ih =>
    intro st q h hb hlen
    simp only [List.length_cons] at hlen
    obtain ⟨h1, h2, h3⟩ := txHolds_putc K k b st q h (hb b (List.mem_cons_self _ _)) (by omega)
    obtain ⟨i1, i2, i3⟩ := ih _ _ h1 (fun c hc => hb c (List.mem_cons_of_mem _ hc))
      (by simp only [List.length_append, List.length_singleton]; omega)
    have hstep : putBytes K (b :: bs) st = putBytes K bs (uartPutc K b st) := rfl
    rw [hstep]
    refine ⟨by simpa using i1, by rw [i2, h3], ?_⟩
    intro _
    by_cases hbs : bs = []
    · subst hbs
      exact h2
    · exact i3 hbs

theorem txInterrupts_of_txHolds (K : Consts) (k flags data : Nat)
    (hflag : flags &&& K.USART_IT_TXE ≠ 0) (q : List Nat) :
    ∀ (st : uartPort_t), txHolds K k st q →
    (txInterrupts K flags data q.length st).1 = List.replicate q.length false ∧
    txHolds K k (txInterrupts K flags data q.length st).2 [] ∧
    (txInterrupts K flags data q.length st).2.USARTx.sent = st.USARTx.sent ++ q := by
  induction q with
  | nil => intro st h; exact ⟨rfl, h, by simp [txInterrupts]⟩
  | cons b q ih =>
    intro st h
    obtain ⟨h1, h2, _⟩ := txHolds_irq_send K k flags data b st q h hflag
    obtain ⟨i1, i2, i3⟩ := ih _ h1
    have he := txHolds_isEmpty K k st _ h
    refine ⟨?_, i2, ?_⟩
    · show isUartTransmitBufferEmpty K st
          :: (txInterrupts K flags data q.length (uartIrqHandler K flags data st)).1 = _
      rw [he, i1]
      simp [List.replicate]
    · show (txInterrupts K flags data q.length (uartIrqHandler K flags data st)).2.USARTx.sent = _
      rw [i3, h2]
      simp

/-- C20: interrupt-mode transmit on a ring of size `2 ^ k` that starts
empty.  After `uartPutc` of the `N` bytes `bs`, `N` less than the size, the
transmit-ready interrupt is enabled (for `N` at least 1);
`isUartTransmitBufferEmpty` is false before each of the next `N`
transmit-ready interrupts, which send exactly `bs` in order, and true after
the last of them; one more transmit-ready interrupt sends nothing and
disables the transmit-ready interrupt. -/
theorem uart_tx_ring_drains (K : Consts) (self : uartPort_t) (k flags data : Nat) (bs : List Nat)
    (hk : k < 32) (hsize : self.port.txBufferSize = 2 ^ k)
    (hmode : self.port.mode &&& K.MODE_U_DMATX = 0)
    (hflag : flags &&& K.USART_IT_TXE ≠ 0)
    (hempty : self.port.txBufferHead = self.port.txBufferTail)
    (htail : self.port.txBufferTail < 2 ^ k)
    (hbytes : ∀ b ∈ bs, b < 256) (hlen : bs.length < 2 ^ k) :
    (bs ≠ [] → (putBytes K bs self).USARTx.itTXE = true) ∧
    (txInterrupts K flags data bs.length (putBytes K bs self)).1
      = List.replicate bs.length false ∧
    (txInterrupts K flags data bs.length (putBytes K bs self)).2.USARTx.sent
      = self.USARTx.sent ++ bs ∧
    isUartTransmitBufferEmpty K (txInterrupts K flags data bs.length (putBytes K bs self)).2
      = true ∧
    (uartIrqHandler K flags data
        (txInterrupts K flags data bs.length (putBytes K bs self)).2).USARTx.sent
      = (txInterrupts K flags data bs.length (putBytes K bs self)).2.USARTx.sent ∧
    (uartIrqHandler K flags data
        (txInterrupts K flags data bs.length (putBytes K bs self)).2).USARTx.itTXE = false := by
  have h0 := txHolds_empty K k self hk hsize hmode hempty htail
  obtain ⟨p1, p2, p3⟩ := txHolds_putBytes K k bs self [] h0 hbytes (by simpa using hlen)
  rw [List.nil_append] at p1
  obtain ⟨t1, t2, t3⟩ := txInterrupts_of_txHolds K k flags data hflag bs _ p1
  obtain ⟨u1, u2⟩ := txHolds_irq_idle K k flags data _ t2 hflag
  refine ⟨p3, t1, by rw [t3, p2], ?_, u1, u2⟩
  rw [txHolds_isEmpty K k _ [] t2]
  rfl

/-- Witness for C20: three bytes through a transmit ring of size 8. -/
theorem uart_tx_ring_drains_witness :
    (3 < 32 ∧ (samplePort 8 3).port.txBufferSize = 2 ^ 3 ∧
      (samplePort 8 3).port.mode &&& K0.MODE_U_DMATX = 0 ∧ 0x80 &&& K0.USART_IT_TXE ≠ 0 ∧
      (samplePort 8 3).port.txBufferHead = (samplePort 8 3).port.txBufferTail ∧
      (samplePort 8 3).port.txBufferTail < 2 ^ 3 ∧
      (∀ b ∈ [65, 66, 67], b < 256) ∧ [65, 66, 67].length < 2 ^ 3) ∧
    (txInterrupts K0 0x80 0 3 (putBytes K0 [65, 66, 67] (samplePort 8 3))).2.USARTx.sent
      = [65, 66, 67] ∧
    ([65, 66, 67] ≠ [] → (putBytes K0 [65, 66, 67] (samplePort 8 3)).USARTx.itTXE = true) :=
  ⟨⟨by decide, by decide, by decide, by decide, by decide, by decide, by decide, by decide⟩,
    by decide,
    (uart_tx_ring_drains K0 (samplePort 8 3) 3 0x80 0 [65, 66, 67] (by decide) (by decide)
      (by decide) (by decide) (by decide) (by decide) (by decide) (by decide)).1⟩

/-! ## DMA receive order -/

theorem or_and_self_ne_zero (m x : Nat) (hx : x ≠ 0) : (m ||| x) &&& x ≠ 0 := by
  have e : (m ||| x) &&& x = x := by
    apply Nat.eq_of_testBit_eq
    intro i
    rw [Nat.testBit_and, Nat.testBit_or]
    cases m.testBit i <;> cases x.testBit i <;> rfl
  rw [e]; exact hx

/-- Counting down modulo the size: the successor of a down-counter that
reloads at zero. -/
theorem down_counter_step (size n : Nat) (hs : 0 < size) :
    (if size - n % size - 1 = 0 then size else size - n % size - 1) = size - (n + 1) % size := by
  have hr : n % size < size := Nat.mod_lt _ hs
  have e : (n + 1) % size = (n % size + 1) % size := (Nat.mod_add_mod n size 1).symm
  by_cases h : n % size + 1 = size
  · have hz : size - n % size - 1 = 0 := by omega
    rw [e, h, Nat.mod_self, if_pos hz]
    rfl
  · have hlt : n % size + 1 < size := by omega
    have hnz : ¬ size - n % size - 1 = 0 := by omega
    rw [e, Nat.mod_eq_of_lt hlt, if_neg hnz]
    omega

theorem mod_ne_of_lt_size (size i j : Nat) (hij : i < j) (hj : j < i + size) :
    i % size ≠ j % size := by
  intro h
  have h2 : (j - i) % size = 0 := Nat.sub_mod_eq_zero_of_mod_eq h.symm
  rw [Nat.mod_eq_of_lt (by omega)] at h2
  omega

theorem uartGetc_dma_eq (K : Consts) (t : uartPort_t) (hm : t.port.mode &&& K.MODE_U_DMARX ≠ 0) :
    uartGetc K t =
      (t.port.rxBuffer (sub32 t.port.rxBufferSize t.rxDMAPos) % 256,
       { t with rxDMAPos := if sub32 t.rxDMAPos 1 = 0 then t.port.rxBufferSize
                            else sub32 t.rxDMAPos 1 }) := by
  unfold uartGetc
  rw [if_pos hm]

theorem sub32_of_le (a b : Nat) (hb : b ≤ a) (ha : a < 2 ^ 32) : sub32 a b = a - b := by
  rw [sub32_eq]
  omega

theorem dmaInv_open (K : Consts) (st0 : uartPort_t) (hK : K.MODE_U_DMARX ≠ 0)
    (hs : 0 < st0.port.rxBufferSize) :
    dmaInv K st0.port.rxBufferSize
      { st := uartOpen_rxDMA K st0, deposited := [], got := [], ok := true } := by
  refine ⟨rfl, or_and_self_ne_zero _ _ hK, Nat.le_refl _, ?_, ?_, ?_, ?_, rfl⟩
  · simp only [List.length_nil]; omega
  · show st0.port.rxBufferSize = st0.port.rxBufferSize - 0 % st0.port.rxBufferSize
    rw [Nat.zero_mod]; rfl
  · show st0.port.rxBufferSize = st0.port.rxBufferSize - 0 % st0.port.rxBufferSize
    rw [Nat.zero_mod]; rfl
  · intro n b _ h
    simp at h

theorem dmaInv_deposit (K : Consts) (size b : Nat) (t : DmaRun) (hs : 0 < size)
    (h : dmaInv K size t) (hb : b < 256)
    (hroom : t.deposited.length + 2 ≤ t.got.length + size) :
    dmaInv K size (stepDma K t (RxEvent.deposit b)) := by
  obtain ⟨h1, h2, h3, h4, h5, h6, h7, h8⟩ := h
  have hr : t.deposited.length % size < size := Nat.mod_lt _ hs
  refine ⟨h1, h2, ?_, ?_, ?_, h6, ?_, ?_⟩
  · show t.got.length ≤ (t.deposited ++ [b]).length
    rw [List.length_append, List.length_singleton]; omega
  · show (t.deposited ++ [b]).length + 1 ≤ t.got.length + size
    rw [List.length_append, List.length_singleton]; omega
  · show (if t.st.rxDMAChannel.CNDTR - 1 = 0 then t.st.port.rxBufferSize
          else t.st.rxDMAChannel.CNDTR - 1) = size - (t.deposited ++ [b]).length % size
    rw [h5, h1, List.length_append, List.length_singleton]
    exact down_counter_step size _ hs
  · intro n c hn0 hc0
    have hn : t.got.length ≤ n := hn0
    have hc : (t.deposited ++ [b])[n]? = some c := hc0
    show Function.update t.st.port.rxBuffer (t.st.port.rxBufferSize - t.st.rxDMAChannel.CNDTR)
      (b % 256) (n % size) = c ∧ c < 256
    have hidx : t.st.port.rxBufferSize - t.st.rxDMAChannel.CNDTR = t.deposited.length % size := by
      rw [h5, h1]; omega
    rw [hidx]
    by_cases hlt : n < t.deposited.length
    · rw [List.getElem?_append_left hlt] at hc
      have hne : n % size ≠ t.deposited.length % size :=
        mod_ne_of_lt_size size n _ hlt (by
          have : t.got.length ≤ n := hn
          omega)
      rw [Function.update_noteq hne]
      exact h7 n c hn hc
    · have hn' : n = t.deposited.length := by
        by_contra hne
        have : (t.deposited ++ [b])[n]? = none := by
          apply List.getElem?_eq_none
          simp; omega
        rw [this] at hc; exact absurd hc (by simp)
      subst hn'
      have hcb : c = b := by simpa using hc.symm
      subst hcb
      rw [Function.update_same, Nat.mod_eq_of_lt hb]
      exact ⟨rfl, hb⟩
  · show t.got = (t.deposited ++ [b]).take t.got.length
    rw [List.take_append_of_le_length h3]
    exact h8

theorem dmaInv_get (K : Consts) (size : Nat) (t : DmaRun) (hs : 0 < size) (hs32 : size < 2 ^ 32)
    (h : dmaInv K size t) (hav : t.got.length < t.deposited.length) :
    dmaInv K size (stepDma K t RxEvent.get) := by
  obtain ⟨h1, h2, h3, h4, h5, h6, h7, h8⟩ := h
  have hr : t.got.length % size < size := Nat.mod_lt _ hs
  have hpos1 : 1 ≤ t.st.rxDMAPos := by rw [h6]; omega
  have hposS : t.st.rxDMAPos ≤ size := by rw [h6]; omega
  have hget := uartGetc_dma_eq K t.st h2
  have hidx : sub32 t.st.port.rxBufferSize t.st.rxDMAPos = t.got.length % size := by
    rw [h1, sub32_of_le _ _ hposS hs32, h6]; omega
  have hdec : sub32 t.st.rxDMAPos 1 = size - t.got.length % size - 1 := by
    rw [sub32_of_le _ _ hpos1 (by omega), h6]
  obtain ⟨c, hc⟩ : ∃ c, t.deposited[t.got.length]? = some c :=
    ⟨t.deposited[t.got.length], List.getElem?_eq_getElem hav⟩
  obtain ⟨hc1, hc2⟩ := h7 _ c (Nat.le_refl _) hc
  have hch : (uartGetc K t.st).1 = c := by
    rw [hget]
    show t.st.port.rxBuffer (sub32 t.st.port.rxBufferSize t.st.rxDMAPos) % 256 = c
    rw [hidx, hc1, Nat.mod_eq_of_lt hc2]
  refine ⟨?_, ?_, ?_, ?_, ?_, ?_, ?_, ?_⟩
  · show (uartGetc K t.st).2.port.rxBufferSize = size
    rw [hget]; exact h1
  · show (uartGetc K t.st).2.port.mode &&& K.MODE_U_DMARX ≠ 0
    rw [hget]; exact h2
  · show (t.got ++ [(uartGetc K t.st).1]).length ≤ t.deposited.length
    rw [List.length_append, List.length_singleton]; omega
  · show t.deposited.length + 1 ≤ (t.got ++ [(uartGetc K t.st).1]).length + size
    rw [List.length_append, List.length_singleton]; omega
  · show (uartGetc K t.st).2.rxDMAChannel.CNDTR = size - t.deposited.length % size
    rw [hget]; exact h5
  · show (uartGetc K t.st).2.rxDMAPos = size - (t.got ++ [(uartGetc K t.st).1]).length % size
    rw [hget, List.length_append, List.length_singleton]
    show (if sub32 t.st.rxDMAPos 1 = 0 then t.st.port.rxBufferSize else sub32 t.st.rxDMAPos 1) = _
    rw [hdec, h1]
    exact down_counter_step size _ hs
  · intro n b hn0 hb0
    have hb : t.deposited[n]? = some b := hb0
    show (uartGetc K t.st).2.port.rxBuffer (n % size) = b ∧ b < 256
    rw [hget]
    have hn' : t.got.length ≤ n := by
      have : (t.got ++ [(uartGetc K t.st).1]).length ≤ n := hn0
      rw [List.length_append, List.length_singleton] at this
      omega
    exact h7 n b hn' hb
  · show t.got ++ [(uartGetc K t.st).1]
      = t.deposited.take (t.got ++ [(uartGetc K t.st).1]).length
    rw [List.length_append, List.length_singleton, hch, List.take_succ, hc, ← h8]
    rfl

theorem dmaInv_foldl (K : Consts) (size : Nat) (hs : 0 < size) (hs32 : size < 2 ^ 32)
    (evs : List RxEvent) : ∀ t : DmaRun, dmaInv K size t →
    (evs.foldl (stepDma K) t).ok = true → dmaInv K size (evs.foldl (stepDma K) t) := by
  induction evs with
  | nil => intro t h _; exact h
  | cons ev evs ih =>
    intro t h hok
    rw [List.foldl_cons] at hok ⊢
    have hmono : ∀ (l : List RxEvent) (u : DmaRun),
        (l.foldl (stepDma K) u).ok = true → u.ok = true := by
      intro l
      induction l with
      | nil => intro u hu; exact hu
      | cons e l ihl =>
        intro u hu
        rw [List.foldl_cons] at hu
        have := ihl _ hu
        cases e with
        | deposit b =>
          simp only [stepDma, Bool.and_eq_true] at this
          exact this.1.1
        | get =>
          simp only [stepDma, Bool.and_eq_true] at this
          exact this.1
    apply ih _ _ hok
    have hst := hmono evs _ hok
    cases ev with
    | deposit b =>
      simp only [stepDma, Bool.and_eq_true, decide_eq_true_eq] at hst
      exact dmaInv_deposit K size b t hs h hst.1.2 (by rw [h.1] at hst; exact hst.2)
    | get =>
      simp only [stepDma, Bool.and_eq_true, decide_eq_true_eq] at hst
      exact dmaInv_get K size t hs hs32 h hst.2

/-- C19: a port of buffer size `S` (positive, a 32-bit value) opened for DMA
receive, then any sequence of deposits by the DMA channel and calls of
`uartGetc` in which every get finds an unread byte and no deposit leaves more
than `S - 1` bytes unread.  The DMA channel writes deposit number `n` at
index `n mod S`; the bytes returned by `uartGetc` are, in order, the first
bytes deposited; `rxDMAPos` is in `1..S` and the index `S - rxDMAPos` read
next is below `S`. -/
theorem dma_getc_returns_in_arrival_order (K : Consts) (st0 : uartPort_t) (evs : List RxEvent)
    (hK : K.MODE_U_DMARX ≠ 0) (hs : 0 < st0.port.rxBufferSize)
    (hs32 : st0.port.rxBufferSize < 2 ^ 32) (hok : (runDma K st0 evs).ok = true) :
    (runDma K st0 evs).got
      = (runDma K st0 evs).deposited.take (runDma K st0 evs).got.length ∧
    1 ≤ (runDma K st0 evs).st.rxDMAPos ∧
    (runDma K st0 evs).st.rxDMAPos ≤ st0.port.rxBufferSize ∧
    sub32 (runDma K st0 evs).st.port.rxBufferSize (runDma K st0 evs).st.rxDMAPos
      = (runDma K st0 evs).got.length % st0.port.rxBufferSize ∧
    sub32 (runDma K st0 evs).st.port.rxBufferSize (runDma K st0 evs).st.rxDMAPos
      < st0.port.rxBufferSize ∧
    (runDma K st0 evs).st.port.rxBufferSize - (runDma K st0 evs).st.rxDMAChannel.CNDTR
      = (runDma K st0 evs).deposited.length % st0.port.rxBufferSize := by
  have hinv := dmaInv_foldl K st0.port.rxBufferSize hs hs32 evs _ (dmaInv_open K st0 hK hs) hok
  obtain ⟨h1, _, _, _, h5, h6, _, h8⟩ := hinv
  have hr : (runDma K st0 evs).got.length % st0.port.rxBufferSize < st0.port.rxBufferSize :=
    Nat.mod_lt _ hs
  have hd : (runDma K st0 evs).deposited.length % st0.port.rxBufferSize
      < st0.port.rxBufferSize := Nat.mod_lt _ hs
  have h5' : (runDma K st0 evs).st.rxDMAChannel.CNDTR = st0.port.rxBufferSize
      - (runDma K st0 evs).deposited.length % st0.port.rxBufferSize := h5
  have h6' : (runDma K st0 evs).st.rxDMAPos = st0.port.rxBufferSize
      - (runDma K st0 evs).got.length % st0.port.rxBufferSize := h6
  have h1' : (runDma K st0 evs).st.port.rxBufferSize = st0.port.rxBufferSize := h1
  have hidx : sub32 (runDma K st0 evs).st.port.rxBufferSize (runDma K st0 evs).st.rxDMAPos
      = (runDma K st0 evs).got.length % st0.port.rxBufferSize := by
    rw [h1', sub32_of_le _ _ (by rw [h6']; omega) hs32, h6']
    omega
  refine ⟨h8, by rw [h6']; omega, by rw [h6']; omega, hidx, by rw [hidx]; exact hr, ?_⟩
  rw [h1', h5']
  omega

/-- Witness for C19: five bytes through a buffer of size 4 come back in
arrival order across the wrap-around. -/
theorem dma_getc_returns_in_arrival_order_witness :
    (K0.MODE_U_DMARX ≠ 0 ∧ 0 < (samplePort 4 1).port.rxBufferSize ∧
      (samplePort 4 1).port.rxBufferSize < 2 ^ 32 ∧
      (runDma K0 (samplePort 4 1) dmaWrapEvents).ok = true) ∧
    (runDma K0 (samplePort 4 1) dmaWrapEvents).got = [10, 11, 12, 13, 14] ∧
    (runDma K0 (samplePort 4 1) dmaWrapEvents).got
      = (runDma K0 (samplePort 4 1) dmaWrapEvents).deposited.take
          (runDma K0 (samplePort 4 1) dmaWrapEvents).got.length :=
  ⟨⟨by decide, by decide, by decide, by decide⟩, by decide,
    (dma_getc_returns_in_arrival_order K0 (samplePort 4 1) dmaWrapEvents (by decide) (by decide)
      (by decide) (by decide)).1⟩

/-! ## Triggered slots hold real records -/

theorem liveInv_congr (a b : Run) (h : liveInv a) (hs : b.sched = a.sched)
    (hl : b.live = a.live) : liveInv b := by
  unfold liveInv at h ⊢
  rw [hs, hl]
  exact h

/-- What a returned run of `callbackCall` leaves behind when callbacks keep
the table, the free mask and the records. -/
theorem callbackCall_frame (invoke : callbackFun_t → RecPtr → Sched → Sched)
    (hI : ∀ f r t, (invoke f r t).callbackEntries = t.callbackEntries ∧
      (invoke f r t).callbackFree = t.callbackFree ∧ (invoke f r t).mem = t.mem) :
    ∀ (fuel : Nat) (s s1 : Sched) (log : List Call),
    callbackCall invoke fuel s = some (s1, log) →
    s1.callbackTriggers = 0 ∧ s1.callbackEntries = s.callbackEntries ∧
    s1.callbackFree = s.callbackFree ∧ s1.mem = s.mem := by
  intro fuel
  induction fuel with
  | zero =>
    intro s s1 log h
    unfold callbackCall at h
    by_cases h0 : s.callbackTriggers = 0
    · rw [if_pos h0] at h
      have e : s = s1 := (Prod.mk.inj (Option.some.inj h)).1
      subst e
      exact ⟨h0, rfl, rfl, rfl⟩
    · rw [if_neg h0] at h
      exact absurd h (by simp)
  | succ fuel ih =>
    intro s s1 log h
    unfold callbackCall at h
    by_cases h0 : s.callbackTriggers = 0
    · rw [if_pos h0] at h
      have e : s = s1 := (Prod.mk.inj (Option.some.inj h)).1
      subst e
      exact ⟨h0, rfl, rfl, rfl⟩
    · rw [if_neg h0] at h
      simp only [] at h
      split at h
      · next s2 log2 hrun =>
        have e : s2 = s1 := (Prod.mk.inj (Option.some.inj h)).1
        subst e
        obtain ⟨i1, i2, i3, i4⟩ := ih _ _ _ hrun
        exact ⟨i1, i2.trans (hI _ _ _).1, i3.trans (hI _ _ _).2.1, i4.trans (hI _ _ _).2.2⟩
      · exact absurd h (by simp)

theorem handlerStep_spec (s : Sched) :
    (handlerStep s).callbackEntries = s.callbackEntries ∧
    (handlerStep s).callbackFree = s.callbackFree ∧ (handlerStep s).mem = s.mem ∧
    ((handlerStep s).callbackTriggers = 0 ∨ (handlerStep s).callbackTriggers = s.callbackTriggers) := by
  unfold handlerStep
  cases h : callbackCall idleInvoke 32 s with
  | none => exact ⟨rfl, rfl, rfl, Or.inr rfl⟩
  | some p =>
    obtain ⟨s1, log⟩ := p
    obtain ⟨a, b, c, d⟩ := callbackCall_frame idleInvoke (fun _ _ _ => ⟨rfl, rfl, rfl⟩) 32 s s1 log h
    exact ⟨b, c, d, Or.inl a⟩

theorem triggeredAreReal_zero (s : Sched) (h : s.callbackTriggers = 0) : triggeredAreReal s := by
  intro i _ hb
  rw [h, Nat.zero_testBit] at hb
  exact absurd hb (by simp)

theorem schedInv_init (s0 : Sched) :
    schedInv { sched := callbackInit s0, live := [], valid := true } := by
  refine ⟨liveInv_init s0, ?_, ?_, triggeredAreReal_zero _ rfl⟩
  · intro r hr; simp at hr
  · show (0 : Nat) < 2 ^ 32
    decide

theorem schedInv_register (t : Run) (r : RecPtr) (fn : callbackFun_t) (h : schedInv t)
    (hr : r ≠ callbackEmptyRec) : schedInv (stepSched t (SchedOp.register r fn)) := by
  obtain ⟨hl, ho, hw, hj⟩ := h
  have hl' : liveInv (stepSched t (SchedOp.register r fn)) :=
    liveInv_congr (stepOp t (Op.register r fn)) _ (liveInv_register t r fn hl) rfl rfl
  refine ⟨hl', ?_, ?_, ?_⟩
  · intro x hx
    have hx' : x ∈ (if registerSucceeds t.sched then r :: t.live else t.live) := hx
    split_ifs at hx'
    · rcases List.mem_cons.mp hx' with e | e
      · rw [e]; exact hr
      · exact ho x e
    · exact ho x hx'
  · show (callbackRegister r fn t.sched).callbackTriggers < 2 ^ 32
    cases hs : registerSucceeds t.sched with
    | false => rw [registerSucceeds_false t.sched hs r fn]; exact hw
    | true =>
      obtain ⟨slot, _, _, _, h4⟩ :=
        callbackRegister_spec t.sched r fn hl.1 (registerSucceeds_true t.sched hs)
      rw [h4]; exact hw
  · show triggeredAreReal (callbackRegister r fn t.sched)
    cases hs : registerSucceeds t.sched with
    | false => rw [registerSucceeds_false t.sched hs r fn]; exact hj
    | true =>
      obtain ⟨slot, _, _, _, h4⟩ :=
        callbackRegister_spec t.sched r fn hl.1 (registerSucceeds_true t.sched hs)
      rw [h4]
      intro i hi hb
      show Function.update t.sched.callbackEntries slot r i ≠ callbackEmptyRec
      by_cases e : i = slot
      · rw [e, Function.update_same]; exact hr
      · rw [Function.update_noteq e]; exact hj i hi hb

theorem schedInv_release (t : Run) (r : RecPtr) (h : schedInv t) (hr : r ∈ t.live) :
    schedInv (stepSched t (SchedOp.release r)) := by
  obtain ⟨hl, ho, hw, hj⟩ := h
  have hl' : liveInv (stepSched t (SchedOp.release r)) :=
    liveInv_congr (stepOp t (Op.release r)) _ (liveInv_release t r hl hr) rfl rfl
  obtain ⟨n, hn1, hn2, _, _⟩ := hl.2 r hr
  refine ⟨hl', ?_, ?_, ?_⟩
  · intro x hx
    exact ho x (List.mem_filter.mp hx).1
  · show (callbackRelease r t.sched).callbackTriggers < 2 ^ 32
    rw [callbackRelease_spec t.sched r n hn2]
    exact and_not32_lt _ _
  · show triggeredAreReal (callbackRelease r t.sched)
    rw [callbackRelease_spec t.sched r n hn2]
    intro i hi hb
    have hb' : (t.sched.callbackTriggers &&& not32 (shl1 (n : Int))).testBit i = true := hb
    rw [testBit_clear _ _ _ hn1 hi] at hb'
    have hb1 : t.sched.callbackTriggers.testBit i = true := by
      cases hc : t.sched.callbackTriggers.testBit i with
      | true => rfl
      | false => rw [hc] at hb'; exact absurd hb' (by simp)
    have hne : i ≠ n := by
      intro e
      rw [hb1] at hb'
      simp [e] at hb'
    show Function.update t.sched.callbackEntries n callbackEmptyRec i ≠ callbackEmptyRec
    rw [Function.update_noteq hne]
    exact hj i hi hb1

theorem schedInv_trigger (t : Run) (r : RecPtr) (h : schedInv t) (hr : r ∈ t.live) :
    schedInv (stepSched t (SchedOp.trigger r)) := by
  obtain ⟨hl, ho, hw, hj⟩ := h
  have hl' : liveInv (stepSched t (SchedOp.trigger r)) := by
    unfold liveInv at hl ⊢
    exact hl
  obtain ⟨n, hn1, hn2, hn3, _⟩ := hl.2 r hr
  refine ⟨hl', ho, ?_, ?_⟩
  · exact Nat.mod_lt _ (by decide)
  · intro i hi hb
    have hb' : ((t.sched.callbackTriggers ||| shl1 (t.sched.mem r).id) % 2 ^ 32).testBit i
        = true := hb
    rw [hn2, testBit_set _ _ _ hn1 hi] at hb'
    show t.sched.callbackEntries i ≠ callbackEmptyRec
    by_cases e : i = n
    · rw [e, hn3]; exact ho r hr
    · have hb1 : t.sched.callbackTriggers.testBit i = true := by simpa [e] using hb'
      exact hj i hi hb1

theorem schedInv_handler (t : Run) (h : schedInv t) :
    schedInv (stepSched t SchedOp.handler) := by
  obtain ⟨hl, ho, hw, hj⟩ := h
  obtain ⟨e1, e2, e3, e4⟩ := handlerStep_spec t.sched
  refine ⟨?_, ho, ?_, ?_⟩
  · unfold liveInv at hl ⊢
    show (handlerStep t.sched).callbackFree < 2 ^ 32 ∧ ∀ r ∈ t.live, ∃ n : Nat, n < 32 ∧
      ((handlerStep t.sched).mem r).id = (n : Int) ∧
      (handlerStep t.sched).callbackEntries n = r ∧
      (handlerStep t.sched).callbackFree.testBit n = false
    rw [e1, e2, e3]
    exact hl
  · show (handlerStep t.sched).callbackTriggers < 2 ^ 32
    rcases e4 with e | e
    · rw [e]; decide
    · rw [e]; exact hw
  · show triggeredAreReal (handlerStep t.sched)
    rcases e4 with e | e
    · exact triggeredAreReal_zero _ e
    · intro i hi hb
      rw [e] at hb
      rw [e1]
      exact hj i hi hb

theorem stepSched_valid_mono (ops : List SchedOp) : ∀ u : Run,
    (ops.foldl stepSched u).valid = true → u.valid = true := by
  induction ops with
  | nil => intro u hu; exact hu
  | cons o l ih =>
    intro u hu
    rw [List.foldl_cons] at hu
    have := ih _ hu
    cases o with
    | register r fn =>
      simp only [stepSched, Bool.and_eq_true] at this
      exact this.1
    | release r =>
      simp only [stepSched, Bool.and_eq_true] at this
      exact this.1
    | trigger r =>
      simp only [stepSched, Bool.and_eq_true] at this
      exact this.1
    | handler => exact this

theorem schedInv_foldl (ops : List SchedOp) : ∀ t : Run, schedInv t →
    (ops.foldl stepSched t).valid = true → schedInv (ops.foldl stepSched t) := by
  induction ops with
  | nil => intro t h _; exact h
  | cons op ops ih =>
    intro t h hv
    rw [List.foldl_cons] at hv ⊢
    apply ih _ _ hv
    have hst := stepSched_valid_mono ops _ hv
    cases op with
    | register r fn =>
      simp only [stepSched, Bool.and_eq_true, decide_eq_true_eq] at hst
      exact schedInv_register t r fn h hst.2
    | release r =>
      simp only [stepSched, Bool.and_eq_true, decide_eq_true_eq] at hst
      exact schedInv_release t r h hst.2
    | trigger r =>
      simp only [stepSched, Bool.and_eq_true, decide_eq_true_eq] at hst
      exact schedInv_trigger t r h hst.2
    | handler => exact schedInv_handler t h

/-- C18 as stated fails: after `callbackInit`, registration of a record,
its release, and a trigger of the released record, bit 0 of the triggered mask
is set while table entry 0 is the shared no-op record. -/
theorem triggered_slot_can_hold_empty_record :
    (runSched bootSched
      [SchedOp.register (RecPtr.user 1) 11, SchedOp.release (RecPtr.user 1),
       SchedOp.trigger (RecPtr.user 1)]).sched.callbackTriggers.testBit 0 = true ∧
    (runSched bootSched
      [SchedOp.register (RecPtr.user 1) 11, SchedOp.release (RecPtr.user 1),
       SchedOp.trigger (RecPtr.user 1)]).sched.callbackEntries 0 = callbackEmptyRec ∧
    ¬ triggeredAreReal (runSched bootSched
      [SchedOp.register (RecPtr.user 1) 11, SchedOp.release (RecPtr.user 1),
       SchedOp.trigger (RecPtr.user 1)]).sched := by
  refine ⟨by decide, by decide, by decide⟩

/-- C18 as amended: in every state reached from `callbackInit` by
`callbackRegister` of caller-owned records, `callbackRelease` and
`callbackTrigger` of records live at that moment, and runs of the deferred
handler, each set bit of the triggered mask belongs to a slot whose table
entry is not the shared no-op record; the triggered mask is a 32-bit word, so
the deferred handler run in that state returns. -/
theorem triggered_slots_hold_real_records (s0 : Sched) (ops : List SchedOp)
    (hvalid : (runSched s0 ops).valid = true) :
    triggeredAreReal (runSched s0 ops).sched ∧
    ∃ s1 log, callbackCall idleInvoke 32 (runSched s0 ops).sched = some (s1, log) := by
  obtain ⟨_, _, hw, hj⟩ := schedInv_foldl ops _ (schedInv_init s0) hvalid
  refine ⟨hj, ?_⟩
  obtain ⟨s1, log, h, _⟩ :=
    callbackCall_spec idleInvoke (fun _ _ _ => rfl) 32 32 _ (Nat.le_refl _) (Nat.le_refl _) hw
  exact ⟨s1, log, h⟩

/-- Witness for C18 as amended: two records registered and triggered, one
released, the handler run, the other triggered again. -/
theorem triggered_slots_hold_real_records_witness :
    (runSched bootSched
      [SchedOp.register (RecPtr.user 1) 11, SchedOp.register (RecPtr.user 2) 12,
       SchedOp.trigger (RecPtr.user 1), SchedOp.trigger (RecPtr.user 2),
       SchedOp.release (RecPtr.user 1), SchedOp.handler,
       SchedOp.trigger (RecPtr.user 2)]).valid = true ∧
    (runSched bootSched
      [SchedOp.register (RecPtr.user 1) 11, SchedOp.register (RecPtr.user 2) 12,
       SchedOp.trigger (RecPtr.user 1), SchedOp.trigger (RecPtr.user 2),
       SchedOp.release (RecPtr.user 1), SchedOp.handler,
       SchedOp.trigger (RecPtr.user 2)]).sched.callbackTriggers = 2 ∧
    triggeredAreReal (runSched bootSched
      [SchedOp.register (RecPtr.user 1) 11, SchedOp.register (RecPtr.user 2) 12,
       SchedOp.trigger (RecPtr.user 1), SchedOp.trigger (RecPtr.user 2),
       SchedOp.release (RecPtr.user 1), SchedOp.handler,
       SchedOp.trigger (RecPtr.user 2)]).sched :=
  ⟨by decide, by decide,
    (triggered_slots_hold_real_records bootSched _ (by decide)).1⟩

/-- The word built for a channel is the big-endian combination of its two
payload bytes. -/
theorem sumhRawWord_eq (frame : Nat → Nat) (i : Nat)
    (hhi : frame (2 * i + 3) < 256) (hlo : frame (2 * i + 4) < 256) :
    sumhRawWord frame i = 256 * frame (2 * i + 3) + frame (2 * i + 4) := by
  unfold sumhRawWord add32
  have e : i <<< 1 = 2 * i := by rw [Nat.shiftLeft_eq]; omega
  rw [e, Nat.shiftLeft_eq]
  omega

/-- The channel array after an accepted frame: channel `i` holds what the
conversion yields for the word of channel `i`, as a 32-bit value; the array
is untouched elsewhere. -/
theorem sumhFrameStatus_channels (conv : Nat → Nat) (s : SumhState)
    (hd : s.sumhFrameDone = true) (hv : s.sumhFrame 0 = 0xA8 ∧ s.sumhFrame 19 = 0) :
    (∀ i, i < 8 → (sumhFrameStatus conv s).2.sumhChannels i
      = conv (sumhRawWord s.sumhFrame i) % 2 ^ 32) ∧
    (∀ i, 8 ≤ i → (sumhFrameStatus conv s).2.sumhChannels i = s.sumhChannels i) := by
  have hr : List.range 8 = [0, 1, 2, 3, 4, 5, 6, 7] := by decide
  simp only [sumhFrameStatus, SUMH_FRAME_SIZE, SUMH_MAX_CHANNEL_COUNT, Nat.reduceSub, hd, hr]
  simp only [hv, and_self, not_true_eq_false, if_false, Bool.true_eq_false, List.foldl_cons,
    List.foldl_nil]
  constructor
  · intro i hi
    interval_cases i <;> simp [Function.update]
  · intro i hi
    have h0 : i ≠ 0 := by omega
    have h1 : i ≠ 1 := by omega
    have h2 : i ≠ 2 := by omega
    have h3 : i ≠ 3 := by omega
    have h4 : i ≠ 4 := by omega
    have h5 : i ≠ 5 := by omega
    have h6 : i ≠ 6 := by omega
    have h7 : i ≠ 7 := by omega
    simp [Function.update, h0, h1, h2, h3, h4, h5, h6, h7]

/-! ## DMA transmit start -/

theorem add_size_sub_mod (h t size : Nat) (ht : t < size) (hh : h < size) :
    (h + size - t) % size = if t ≤ h then h - t else h + size - t := by
  by_cases hle : t ≤ h
  · rw [if_pos hle]
    have e : h + size - t = (h - t) + size := by omega
    rw [e, Nat.add_mod_right, Nat.mod_eq_of_lt (by omega)]
  · rw [if_neg hle]
    exact Nat.mod_eq_of_lt (by omega)

/-- C21: with both transmit indices in range (buffer size `S` a 32-bit
value) and `txBufferTail` different from `txBufferHead`, `uartStartTxDMA`
programs a transfer that starts at `txBuffer[tail]`, of length `head - tail`
when head is above tail and `S - tail` otherwise, which is the smaller of the
distance to head and the distance to the buffer end; the new tail is
`(tail + length) mod S`; the channel is marked non-idle and enabled; head,
buffer and size are unchanged; and the length plus the bytes still queued
afterwards equals the bytes queued before. -/
theorem uartStartTxDMA_hands_over_contiguous_run (st : uartPort_t)
    (hS : st.port.txBufferSize < 2 ^ 32)
    (hhead : st.port.txBufferHead < st.port.txBufferSize)
    (htail : st.port.txBufferTail < st.port.txBufferSize)
    (hne : st.port.txBufferTail ≠ st.port.txBufferHead) :
    (uartStartTxDMA st).txDMAChannel.CMAR = st.port.txBufferTail ∧
    (uartStartTxDMA st).txDMAChannel.CNDTR
      = (if st.port.txBufferHead > st.port.txBufferTail
          then st.port.txBufferHead - st.port.txBufferTail
          else st.port.txBufferSize - st.port.txBufferTail) ∧
    (uartStartTxDMA st).txDMAChannel.CNDTR
      = min ((st.port.txBufferHead + st.port.txBufferSize - st.port.txBufferTail)
              % st.port.txBufferSize)
            (st.port.txBufferSize - st.port.txBufferTail) ∧
    (uartStartTxDMA st).port.txBufferTail
      = (st.port.txBufferTail + (uartStartTxDMA st).txDMAChannel.CNDTR) % st.port.txBufferSize ∧
    (uartStartTxDMA st).txDMAEmpty = false ∧
    (uartStartTxDMA st).txDMAChannel.CCR &&& 1 = 1 ∧
    (uartStartTxDMA st).port.txBufferHead = st.port.txBufferHead ∧
    (uartStartTxDMA st).port.txBuffer = st.port.txBuffer ∧
    (uartStartTxDMA st).port.txBufferSize = st.port.txBufferSize ∧
    (uartStartTxDMA st).txDMAChannel.CNDTR
        + (st.port.txBufferHead + st.port.txBufferSize - (uartStartTxDMA st).port.txBufferTail)
            % st.port.txBufferSize
      = (st.port.txBufferHead + st.port.txBufferSize - st.port.txBufferTail)
          % st.port.txBufferSize := by
  have hccr : ∀ x : Nat, (x ||| 1) &&& 1 = 1 := by
    intro x
    apply Nat.eq_of_testBit_eq
    intro i
    rw [Nat.testBit_and, Nat.testBit_or]
    cases x.testBit i <;> cases (1 : Nat).testBit i <;> rfl
  have hq := add_size_sub_mod st.port.txBufferHead st.port.txBufferTail st.port.txBufferSize
    htail hhead
  by_cases hc : st.port.txBufferHead > st.port.txBufferTail
  · have e1 : (uartStartTxDMA st).txDMAChannel.CNDTR
        = sub32 st.port.txBufferHead st.port.txBufferTail := by
      simp only [uartStartTxDMA, hc, if_true]
    have e2 : (uartStartTxDMA st).port.txBufferTail = st.port.txBufferHead := by
      simp only [uartStartTxDMA, hc, if_true]
    have e3 : (uartStartTxDMA st).txDMAChannel.CMAR = st.port.txBufferTail := by
      simp only [uartStartTxDMA, hc, if_true]
    have e4 : (uartStartTxDMA st).txDMAChannel.CCR = st.txDMAChannel.CCR ||| 1 := by
      simp only [uartStartTxDMA, hc, if_true]
    have e5 : (uartStartTxDMA st).port.txBufferHead = st.port.txBufferHead ∧
        (uartStartTxDMA st).port.txBuffer = st.port.txBuffer ∧
        (uartStartTxDMA st).port.txBufferSize = st.port.txBufferSize ∧
        (uartStartTxDMA st).txDMAEmpty = false := by
      simp only [uartStartTxDMA, hc, if_true, and_self]
    rw [sub32_of_le _ _ (by omega) (by omega)] at e1
    have hq2 := add_size_sub_mod st.port.txBufferHead st.port.txBufferHead st.port.txBufferSize
      hhead hhead
    rw [if_pos (Nat.le_refl _)] at hq2
    rw [if_pos (by omega)] at hq
    rw [e1, e2, e3, e4, hq, hq2, if_pos hc]
    refine ⟨rfl, rfl, ?_, ?_, e5.2.2.2, hccr _, e5.1, e5.2.1, e5.2.2.1, by omega⟩
    · rw [Nat.min_def]; split_ifs <;> omega
    · have e : st.port.txBufferTail + (st.port.txBufferHead - st.port.txBufferTail)
          = st.port.txBufferHead := by omega
      rw [e, Nat.mod_eq_of_lt hhead]
  · have e1 : (uartStartTxDMA st).txDMAChannel.CNDTR
        = sub32 st.port.txBufferSize st.port.txBufferTail := by
      simp only [uartStartTxDMA, hc, if_false]
    have e2 : (uartStartTxDMA st).port.txBufferTail = 0 := by
      simp only [uartStartTxDMA, hc, if_false]
    have e3 : (uartStartTxDMA st).txDMAChannel.CMAR = st.port.txBufferTail := by
      simp only [uartStartTxDMA, hc, if_false]
    have e4 : (uartStartTxDMA st).txDMAChannel.CCR = st.txDMAChannel.CCR ||| 1 := by
      simp only [uartStartTxDMA, hc, if_false]
    have e5 : (uartStartTxDMA st).port.txBufferHead = st.port.txBufferHead ∧
        (uartStartTxDMA st).port.txBuffer = st.port.txBuffer ∧
        (uartStartTxDMA st).port.txBufferSize = st.port.txBufferSize ∧
        (uartStartTxDMA st).txDMAEmpty = false := by
      simp only [uartStartTxDMA, hc, if_false, and_self]
    rw [sub32_of_le _ _ (by omega) hS] at e1
    have hq2 : (st.port.txBufferHead + st.port.txBufferSize - 0) % st.port.txBufferSize
        = st.port.txBufferHead := by
      rw [Nat.sub_zero, Nat.add_mod_right, Nat.mod_eq_of_lt hhead]
    rw [if_neg (by omega)] at hq
    rw [e1, e2, e3, e4, hq, hq2, if_neg hc]
    refine ⟨rfl, rfl, ?_, ?_, e5.2.2.2, hccr _, e5.1, e5.2.1, e5.2.2.1, by omega⟩
    · rw [Nat.min_def]; split_ifs <;> omega
    · have e : st.port.txBufferTail + (st.port.txBufferSize - st.port.txBufferTail)
          = st.port.txBufferSize := by omega
      rw [e, Nat.mod_self]

/-- Witness for C21: tail 6, head 2, size 8: the transfer starts at index
6 with length 2, the new tail is 0, and 2 of the 4 queued bytes stay queued. -/
theorem uartStartTxDMA_hands_over_contiguous_run_witness :
    (wrappedTxPort.port.txBufferSize < 2 ^ 32 ∧
      wrappedTxPort.port.txBufferHead < wrappedTxPort.port.txBufferSize ∧
      wrappedTxPort.port.txBufferTail < wrappedTxPort.port.txBufferSize ∧
      wrappedTxPort.port.txBufferTail ≠ wrappedTxPort.port.txBufferHead) ∧
    ((uartStartTxDMA wrappedTxPort).txDMAChannel.CMAR = 6 ∧
      (uartStartTxDMA wrappedTxPort).txDMAChannel.CNDTR = 2 ∧
      (uartStartTxDMA wrappedTxPort).port.txBufferTail = 0) ∧
    (uartStartTxDMA wrappedTxPort).txDMAChannel.CNDTR
        + (wrappedTxPort.port.txBufferHead + wrappedTxPort.port.txBufferSize
            - (uartStartTxDMA wrappedTxPort).port.txBufferTail) % wrappedTxPort.port.txBufferSize
      = (wrappedTxPort.port.txBufferHead + wrappedTxPort.port.txBufferSize
          - wrappedTxPort.port.txBufferTail) % wrappedTxPort.port.txBufferSize :=
  ⟨⟨by decide, by decide, by decide, by decide⟩, ⟨by decide, by decide, by decide⟩,
    (uartStartTxDMA_hands_over_contiguous_run wrappedTxPort (by decide) (by decide) (by decide)
      (by decide)).2.2.2.2.2.2.2.2.2⟩

/-! ## Frame accumulation -/

theorem sumhDataReceive_time (c now : Nat) (s : SumhState) :
    (sumhDataReceive c now s).sumhTimeLast = now % 2 ^ 32 := by
  simp only [sumhDataReceive, SUMH_FRAME_SIZE, Nat.reduceSub]
  generalize (if sub32 (now % 2 ^ 32) s.sumhTimeLast > 5000 then 0 else s.sumhFramePosition) = p
  by_cases h : p = 20
  · simp [h]
  · simp [h]

/-- One byte arriving without a gap at a cursor in 0..20. -/
theorem sumhDataReceive_no_gap (c now : Nat) (s : SumhState) (hpos : s.sumhFramePosition ≤ 20)
    (hno : sub32 (now % 2 ^ 32) s.sumhTimeLast ≤ 5000) :
    (sumhDataReceive c now s).sumhFramePosition
      = (if s.sumhFramePosition = 20 then 20 else s.sumhFramePosition + 1) ∧
    (sumhDataReceive c now s).sumhFrame
      = Function.update s.sumhFrame s.sumhFramePosition (c % 256) ∧
    (sumhDataReceive c now s).sumhFrameDone
      = (s.sumhFrameDone || decide (s.sumhFramePosition = 20)) := by
  obtain ⟨h1, h2, h3, _⟩ := sumhDataReceive_cursor c now s
  have hng : ¬ sub32 (now % 2 ^ 32) s.sumhTimeLast > 5000 := by omega
  rw [if_neg hng] at h1 h2 h3
  refine ⟨?_, h2, h3⟩
  rw [h1]
  split_ifs <;> omega

/-- Bytes arriving without a gap from a cursor `p`, at most `21 - p` of
them: they land at `p, p + 1, ...`, the bytes below `p` stay, and the
completion flag is set exactly when index 20 is written. -/
theorem sumhFeed_no_gaps (evs : List (Nat × Nat)) : ∀ s : SumhState,
    noGaps s.sumhTimeLast evs = true → s.sumhFramePosition + evs.length ≤ 21 →
    (∀ i b t, evs[i]? = some (b, t) →
      (sumhFeed s evs).sumhFrame (s.sumhFramePosition + i) = b % 256) ∧
    (∀ j, j < s.sumhFramePosition → (sumhFeed s evs).sumhFrame j = s.sumhFrame j) ∧
    (sumhFeed s evs).sumhFrameDone
      = (if s.sumhFramePosition + evs.length = 21 ∧ 0 < evs.length then true
         else s.sumhFrameDone) := by
  induction evs with
  | nil =>
    intro s _ _
    refine ⟨fun i b t h => by simp at h, fun j _ => rfl, ?_⟩
    simp [sumhFeed]
  | cons e evs ih =>
    intro s hg hlen
    simp only [List.length_cons] at hlen
    simp only [noGaps, Bool.and_eq_true, decide_eq_true_eq] at hg
    have hpos : s.sumhFramePosition ≤ 20 := by omega
    obtain ⟨p1, p2, p3⟩ := sumhDataReceive_no_gap e.1 e.2 s hpos hg.1
    have ptime := sumhDataReceive_time e.1 e.2 s
    have hstep : sumhFeed s (e :: evs) = sumhFeed (sumhDataReceive e.1 e.2 s) evs := rfl
    rw [hstep]
    by_cases h20 : s.sumhFramePosition = 20
    · have hnil : evs = [] := List.length_eq_zero.mp (by omega)
      subst hnil
      rw [if_pos h20] at p1
      refine ⟨?_, ?_, ?_⟩
      · intro i b t h
        have hi : i = 0 := by
          cases i with
          | zero => rfl
          | succ n => simp at h
        subst hi
        have hb : e = (b, t) := by simpa using h
        show (sumhDataReceive e.1 e.2 s).sumhFrame (s.sumhFramePosition + 0) = b % 256
        rw [p2, Nat.add_zero, Function.update_same, hb]
      · intro j hj
        show (sumhDataReceive e.1 e.2 s).sumhFrame j = s.sumhFrame j
        rw [p2, Function.update_noteq (by omega)]
      · show (sumhDataReceive e.1 e.2 s).sumhFrameDone = _
        rw [p3, h20]
        simp
    · rw [if_neg h20] at p1
      obtain ⟨i1, i2, i3⟩ := ih (sumhDataReceive e.1 e.2 s) (by rw [ptime]; exact hg.2)
        (by rw [p1]; omega)
      refine ⟨?_, ?_, ?_⟩
      · intro i b t h
        cases i with
        | zero =>
          have hb : e = (b, t) := by simpa using h
          rw [Nat.add_zero, i2 _ (by rw [p1]; omega), p2, Function.update_same, hb]
        | succ n =>
          have h' : evs[n]? = some (b, t) := by simpa using h
          have := i1 n b t h'
          rw [p1] at this
          have e' : s.sumhFramePosition + (n + 1) = s.sumhFramePosition + 1 + n := by omega
          rw [e']
          exact this
      · intro j hj
        rw [i2 j (by rw [p1]; omega), p2, Function.update_noteq (by omega)]
      · rw [i3, p1, p3]
        have hd : decide (s.sumhFramePosition = 20) = false := by simp [h20]
        rw [hd, Bool.or_false]
        by_cases hfull : s.sumhFramePosition + 1 + evs.length = 21
        · have hpos' : 0 < evs.length := by omega
          rw [if_pos ⟨hfull, hpos'⟩, if_pos ⟨by simp only [List.length_cons]; omega, by simp⟩]
        · rw [if_neg (fun h => hfull h.1), if_neg (fun h => hfull (by
            have := h.1
            simp only [List.length_cons] at this
            omega))]

theorem noGaps_take (evs : List (Nat × Nat)) : ∀ (last n : Nat),
    noGaps last evs = true → noGaps last (evs.take n) = true := by
  induction evs with
  | nil => intro last n h; simpa using h
  | cons e evs ih =>
    intro last n h
    cases n with
    | zero => rfl
    | succ n =>
      simp only [noGaps, Bool.and_eq_true, decide_eq_true_eq] at h
      simp only [List.take_succ_cons, noGaps, Bool.and_eq_true, decide_eq_true_eq]
      exact ⟨h.1, ih _ n h.2⟩

/-- A byte that arrives after a gap, in any decoder state. -/
theorem sumhDataReceive_gap (c now : Nat) (s : SumhState)
    (hgap : sub32 (now % 2 ^ 32) s.sumhTimeLast > 5000) :
    (sumhDataReceive c now s).sumhFramePosition = 1 ∧
    (sumhDataReceive c now s).sumhFrame = Function.update s.sumhFrame 0 (c % 256) ∧
    (sumhDataReceive c now s).sumhFrameDone = s.sumhFrameDone := by
  obtain ⟨h1, h2, h3, _⟩ := sumhDataReceive_cursor c now s
  rw [if_pos hgap] at h1 h2 h3
  refine ⟨by rw [h1]; simp, h2, by rw [h3]; simp⟩

/-- C22: in any decoder state, 21 bytes of which the first arrives more
than 5000 time-units after the previous byte and each other one at most 5000
after its predecessor: after the last of them the frame buffer holds the 21
bytes in order and the completion flag is set, and after each of the first
20 the completion flag is what it was before the frame. -/
theorem sumh_frame_accumulation (s : SumhState) (b0 t0 : Nat) (others : List (Nat × Nat))
    (hgap : sub32 (t0 % 2 ^ 32) s.sumhTimeLast > 5000)
    (hnogap : noGaps (t0 % 2 ^ 32) others = true) (hlen : others.length = 20)
    (hb0 : b0 < 256) (hbytes : ∀ e ∈ others, e.1 < 256) :
    (∀ i b t, ((b0, t0) :: others)[i]? = some (b, t) →
      (sumhFeed s ((b0, t0) :: others)).sumhFrame i = b) ∧
    (sumhFeed s ((b0, t0) :: others)).sumhFrameDone = true ∧
    (∀ n, n ≤ 19 →
      (sumhFeed s ((b0, t0) :: others.take n)).sumhFrameDone = s.sumhFrameDone) := by
  obtain ⟨g1, g2, g3⟩ := sumhDataReceive_gap b0 t0 s hgap
  have gt := sumhDataReceive_time b0 t0 s
  have hstep : ∀ l, sumhFeed s ((b0, t0) :: l) = sumhFeed (sumhDataReceive b0 t0 s) l :=
    fun _ => rfl
  obtain ⟨a1, a2, a3⟩ := sumhFeed_no_gaps others (sumhDataReceive b0 t0 s)
    (by rw [gt]; exact hnogap) (by rw [g1, hlen])
  refine ⟨?_, ?_, ?_⟩
  · intro i b t h
    rw [hstep]
    cases i with
    | zero =>
      have hb : (b0, t0) = (b, t) := by simpa using h
      have hbb : b0 = b := (Prod.mk.inj hb).1
      rw [a2 0 (by rw [g1]; decide), g2, Function.update_same, ← hbb, Nat.mod_eq_of_lt hb0]
    | succ n =>
      have h' : others[n]? = some (b, t) := by simpa using h
      have hlt : b < 256 := hbytes (b, t) (List.getElem?_mem h')
      have := a1 n b t h'
      rw [g1, Nat.add_comm] at this
      rw [this, Nat.mod_eq_of_lt hlt]
  · rw [hstep, a3, g1, hlen]
    simp
  · intro n hn
    rw [hstep]
    obtain ⟨_, _, c3⟩ := sumhFeed_no_gaps (others.take n) (sumhDataReceive b0 t0 s)
      (by rw [gt]; exact noGaps_take others _ n hnogap)
      (by rw [g1, List.length_take]; omega)
    rw [c3, g1, g3, List.length_take, hlen]
    rw [if_neg (by omega)]

/-- Witness for C22: the byte `0xA8` arriving 10000 time-units after the
last byte of the polled state, then the bytes 1 to 20 at 90 time-units each;
the last byte sets the flag, the first twenty leave it clear. -/
theorem sumh_frame_accumulation_witness :
    (sub32 (80000 % 2 ^ 32) sumhPolled.sumhTimeLast > 5000 ∧
      noGaps (80000 % 2 ^ 32) sampleFrameTail = true ∧ sampleFrameTail.length = 20 ∧
      0xA8 < 256 ∧ (∀ e ∈ sampleFrameTail, e.1 < 256)) ∧
    (sumhFeed sumhPolled ((0xA8, 80000) :: sampleFrameTail)).sumhFrame 20 = 20 ∧
    (sumhFeed sumhPolled ((0xA8, 80000) :: sampleFrameTail.take 19)).sumhFrameDone = false ∧
    (sumhFeed sumhPolled ((0xA8, 80000) :: sampleFrameTail)).sumhFrameDone = true :=
  ⟨⟨by decide, by decide, by decide, by decide, by decide⟩, by decide, by decide,
    (sumh_frame_accumulation sumhPolled 0xA8 80000 sampleFrameTail (by decide) (by decide)
      (by decide) (by decide) (by decide)).2.1⟩

/-! ## Frame buffer bounds -/

theorem sumhDataReceive_cursor_le (c now : Nat) (s : SumhState) (h : s.sumhFramePosition ≤ 20) :
    (sumhDataReceive c now s).sumhFramePosition ≤ 20 := by
  rw [(sumhDataReceive_cursor c now s).1]
  split_ifs <;> omega

theorem sumhFeed_cursor_le (evs : List (Nat × Nat)) : ∀ s : SumhState,
    s.sumhFramePosition ≤ 20 → (sumhFeed s evs).sumhFramePosition ≤ 20 := by
  induction evs with
  | nil => intro s h; exact h
  | cons e evs ih =>
    intro s h
    exact ih _ (sumhDataReceive_cursor_le e.1 e.2 s h)

theorem sumhRawWord_congr (f g : Nat → Nat) (i : Nat) (hi : i < 8)
    (h : ∀ j ∈ sumhReadIndices, f j = g j) : sumhRawWord f i = sumhRawWord g i := by
  have m3 : (i <<< 1) + 3 ∈ sumhReadIndices := by
    interval_cases i <;> decide
  have m4 : (i <<< 1) + 4 ∈ sumhReadIndices := by
    interval_cases i <;> decide
  unfold sumhRawWord
  rw [h _ m3, h _ m4]

/-- The status and the channels that `sumhFrameStatus` produces depend on
the frame buffer only through the indices in `sumhReadIndices`. -/
theorem sumhFrameStatus_reads (conv : Nat → Nat) (a b : SumhState)
    (hd : a.sumhFrameDone = b.sumhFrameDone) (hc : a.sumhChannels = b.sumhChannels)
    (hf : ∀ j ∈ sumhReadIndices, a.sumhFrame j = b.sumhFrame j) :
    (sumhFrameStatus conv a).1 = (sumhFrameStatus conv b).1 ∧
    (sumhFrameStatus conv a).2.sumhChannels = (sumhFrameStatus conv b).2.sumhChannels := by
  have h0 : a.sumhFrame 0 = b.sumhFrame 0 := hf 0 (by decide)
  have h19 : a.sumhFrame 19 = b.sumhFrame 19 := hf 19 (by decide)
  obtain ⟨a1, a2, a3⟩ := sumhFrameStatus_cases conv a
  obtain ⟨b1, b2, b3⟩ := sumhFrameStatus_cases conv b
  cases hda : a.sumhFrameDone with
  | false =>
    rw [a1 hda, b1 (hd ▸ hda)]
    exact ⟨rfl, hc⟩
  | true =>
    have hdb : b.sumhFrameDone = true := hd ▸ hda
    by_cases hv : a.sumhFrame 0 = 0xA8 ∧ a.sumhFrame 19 = 0
    · have hvb : b.sumhFrame 0 = 0xA8 ∧ b.sumhFrame 19 = 0 := by
        rw [← h0, ← h19]; exact hv
      refine ⟨by rw [(a3 hda hv).1, (b3 hdb hvb).1], ?_⟩
      obtain ⟨ca, ca'⟩ := sumhFrameStatus_channels conv a hda hv
      obtain ⟨cb, cb'⟩ := sumhFrameStatus_channels conv b hdb hvb
      funext i
      by_cases hi : i < 8
      · rw [ca i hi, cb i hi, sumhRawWord_congr a.sumhFrame b.sumhFrame i hi hf]
      · rw [ca' i (by omega), cb' i (by omega), hc]
    · have hvb : ¬ (b.sumhFrame 0 = 0xA8 ∧ b.sumhFrame 19 = 0) := by
        rw [← h0, ← h19]; exact hv
      rw [a2 hda hv, b2 hdb hvb]
      exact ⟨rfl, hc⟩

/-- C23: starting from cursor 0, after any sequence of received bytes and
arrival times the cursor is in 0..20; the next call of `sumhDataReceive`
writes the frame buffer at one index only, and that index is below 21; the
indices that `sumhFrameStatus` reads are all below 21 (the largest channel
index is 18), and its result depends on the frame buffer through those
indices only. -/
theorem sumh_frame_index_in_bounds (s : SumhState) (evs : List (Nat × Nat))
    (hstart : s.sumhFramePosition = 0) :
    (sumhFeed s evs).sumhFramePosition ≤ 20 ∧
    (∀ c now, sumhWriteIndex now (sumhFeed s evs) < SUMH_FRAME_SIZE ∧
      (sumhDataReceive c now (sumhFeed s evs)).sumhFrame
        = Function.update (sumhFeed s evs).sumhFrame (sumhWriteIndex now (sumhFeed s evs))
            (c % 256)) ∧
    (∀ j ∈ sumhReadIndices, j < SUMH_FRAME_SIZE) ∧
    (∀ i, i < SUMH_MAX_CHANNEL_COUNT → (i <<< 1) + 4 ≤ 18) ∧
    (∀ (conv : Nat → Nat) (b : SumhState),
      (sumhFeed s evs).sumhFrameDone = b.sumhFrameDone →
      (sumhFeed s evs).sumhChannels = b.sumhChannels →
      (∀ j ∈ sumhReadIndices, (sumhFeed s evs).sumhFrame j = b.sumhFrame j) →
      (sumhFrameStatus conv (sumhFeed s evs)).1 = (sumhFrameStatus conv b).1 ∧
      (sumhFrameStatus conv (sumhFeed s evs)).2.sumhChannels
        = (sumhFrameStatus conv b).2.sumhChannels) := by
  have hpos : (sumhFeed s evs).sumhFramePosition ≤ 20 :=
    sumhFeed_cursor_le evs s (by omega)
  refine ⟨hpos, ?_, by decide, ?_, ?_⟩
  · intro c now
    refine ⟨?_, (sumhDataReceive_cursor c now _).2.1⟩
    unfold sumhWriteIndex SUMH_FRAME_SIZE
    split_ifs <;> omega
  · intro i hi
    unfold SUMH_MAX_CHANNEL_COUNT at hi
    rw [Nat.shiftLeft_eq]
    omega
  · intro conv b hd hc hf
    exact sumhFrameStatus_reads conv _ b hd hc hf

/-- Witness for C23: a decoder at cursor 0 fed a full frame and one extra
byte keeps its cursor at 20. -/
theorem sumh_frame_index_in_bounds_witness :
    ({ sumhPolled with sumhFramePosition := 0 } : SumhState).sumhFramePosition = 0 ∧
    (sumhFeed { sumhPolled with sumhFramePosition := 0 }
      ((0xA8, 80000) :: sampleFrameTail ++ [(7, 82000)])).sumhFramePosition = 20 ∧
    (sumhFeed { sumhPolled with sumhFramePosition := 0 }
      ((0xA8, 80000) :: sampleFrameTail ++ [(7, 82000)])).sumhFramePosition ≤ 20 :=
  ⟨by decide, by decide,
    (sumh_frame_index_in_bounds { sumhPolled with sumhFramePosition := 0 }
      ((0xA8, 80000) :: sampleFrameTail ++ [(7, 82000)]) (by decide)).1⟩

/-! ## Free bits and empty table entries -/

theorem descBits_length_flip (m m2 k : Nat) : ∀ n, k < n →
    m.testBit k = false → m2.testBit k = true →
    (∀ j, j < n → j ≠ k → m2.testBit j = m.testBit j) →
    (descBits m2 n).length = (descBits m n).length + 1 := by
  intro n
  induction n with
  | zero => intro hk; omega
  | succ n ih =>
    intro hk h0 h1 hsame
    by_cases e : k = n
    · subst e
      have hc : descBits m2 k = descBits m k :=
        descBits_congr m2 m k (fun j hj => hsame j (by omega) (by omega))
      show (if m2.testBit k = true then k :: descBits m2 k else descBits m2 k).length
        = (if m.testBit k = true then k :: descBits m k else descBits m k).length + 1
      rw [h0, h1, hc]
      simp
    · have hi := ih (by omega) h0 h1 (fun j hj hne => hsame j (by omega) hne)
      have hb : m2.testBit n = m.testBit n := hsame n (by omega) (fun e' => e e'.symm)
      show (if m2.testBit n = true then n :: descBits m2 n else descBits m2 n).length
        = (if m.testBit n = true then n :: descBits m n else descBits m n).length + 1
      rw [hb]
      split_ifs
      · simp only [List.length_cons]; omega
      · exact hi

theorem filter_ne_length (l : List RecPtr) (r : RecPtr) (hn : l.Nodup) (hr : r ∈ l) :
    (l.filter (fun x => decide (x ≠ r))).length + 1 = l.length := by
  induction l with
  | nil => simp at hr
  | cons a l ih =>
    obtain ⟨ha, hl⟩ := List.nodup_cons.mp hn
    by_cases e : a = r
    · subst e
      have hall : l.filter (fun x => decide (x ≠ a)) = l := by
        apply List.filter_eq_self.mpr
        intro x hx
        have : x ≠ a := fun e => ha (e ▸ hx)
        simpa using this
      rw [List.filter_cons_of_neg (by simp), hall, List.length_cons]
    · have hr' : r ∈ l := by
        rcases List.mem_cons.mp hr with e' | e'
        · exact absurd e'.symm e
        · exact e'
      have := ih hl hr'
      rw [List.filter_cons_of_pos (by simpa using e), List.length_cons, List.length_cons]
      omega

theorem lifecycleInv_init (s0 : Sched) :
    lifecycleInv { sched := callbackInit s0, live := [], valid := true } := by
  refine ⟨liveInv_init s0, ?_, List.nodup_nil, ?_, ?_, ?_⟩
  · intro r hr; simp at hr
  · show (0 : Nat) < 2 ^ 32
    decide
  · intro i hi
    show (Nat.testBit 0xFFFFFFFF i = true ↔
      (if i < CALLBACK_MAX then callbackEmptyRec else s0.callbackEntries i) = callbackEmptyRec)
    have hc : i < CALLBACK_MAX := hi
    rw [if_pos hc]
    have hb : Nat.testBit 0xFFFFFFFF i = true := by
      have e : (0xFFFFFFFF : Nat) = 2 ^ 32 - 1 := by decide
      rw [e, Nat.testBit_two_pow_sub_one]
      simpa using hi
    simp [hb]
  · show 0 + (descBits 0xFFFFFFFF 32).length = 32
    decide

theorem lifecycleInv_register (t : Run) (r : RecPtr) (fn : callbackFun_t) (h : lifecycleInv t)
    (hr : r ≠ callbackEmptyRec) (hnew : r ∉ t.live) :
    lifecycleInv (stepLifecycle t (SchedOp.register r fn)) := by
  obtain ⟨hl, ho, hnd, hw, hf, hcnt⟩ := h
  have hl' : liveInv (stepLifecycle t (SchedOp.register r fn)) :=
    liveInv_congr (stepOp t (Op.register r fn)) _ (liveInv_register t r fn hl) rfl rfl
  cases hs : registerSucceeds t.sched with
  | false =>
    have hsame := registerSucceeds_false t.sched hs r fn
    refine ⟨hl', ?_, ?_, ?_, ?_, ?_⟩
    · intro x hx
      have hx' : x ∈ (if registerSucceeds t.sched then r :: t.live else t.live) := hx
      rw [hs] at hx'
      exact ho x hx'
    · show (if registerSucceeds t.sched then r :: t.live else t.live).Nodup
      rw [hs]; exact hnd
    · show (callbackRegister r fn t.sched).callbackTriggers < 2 ^ 32
      rw [hsame]; exact hw
    · show freeIffEmpty (callbackRegister r fn t.sched)
      rw [hsame]; exact hf
    · show (if registerSucceeds t.sched then r :: t.live else t.live).length
        + freeCount (callbackRegister r fn t.sched) = 32
      rw [hs, hsame]; exact hcnt
  | true =>
    obtain ⟨slot, s1, s2, _, s4⟩ :=
      callbackRegister_spec t.sched r fn hl.1 (registerSucceeds_true t.sched hs)
    refine ⟨hl', ?_, ?_, ?_, ?_, ?_⟩
    · intro x hx
      have hx' : x ∈ (if registerSucceeds t.sched then r :: t.live else t.live) := hx
      rw [hs] at hx'
      rcases List.mem_cons.mp hx' with e | e
      · rw [e]; exact hr
      · exact ho x e
    · show (if registerSucceeds t.sched then r :: t.live else t.live).Nodup
      rw [hs]
      exact List.nodup_cons.mpr ⟨hnew, hnd⟩
    · show (callbackRegister r fn t.sched).callbackTriggers < 2 ^ 32
      rw [s4]; exact hw
    · show freeIffEmpty (callbackRegister r fn t.sched)
      rw [s4]
      intro i hi
      show ((t.sched.callbackFree &&& not32 (shl1 (slot : Int))).testBit i = true ↔
        Function.update t.sched.callbackEntries slot r i = callbackEmptyRec)
      rw [testBit_clear _ _ _ s1 hi]
      by_cases e : i = slot
      · subst e
        rw [Function.update_same]
        simp [hr]
      · rw [Function.update_noteq e]
        simpa [e] using hf i hi
    · show (if registerSucceeds t.sched then r :: t.live else t.live).length
        + freeCount (callbackRegister r fn t.sched) = 32
      rw [hs, s4]
      have hflip := descBits_length_flip
        (t.sched.callbackFree &&& not32 (shl1 (slot : Int))) t.sched.callbackFree slot 32 s1
        (by rw [testBit_clear _ _ _ s1 s1]; simp) s2
        (fun j hj hne => by rw [testBit_clear _ _ _ s1 hj]; simp [hne])
      unfold freeCount at hcnt ⊢
      show (r :: t.live).length
        + (descBits (t.sched.callbackFree &&& not32 (shl1 (slot : Int))) 32).length = 32
      rw [List.length_cons]
      omega

theorem lifecycleInv_release (t : Run) (r : RecPtr) (h : lifecycleInv t) (hr : r ∈ t.live) :
    lifecycleInv (stepLifecycle t (SchedOp.release r)) := by
  obtain ⟨hl, ho, hnd, hw, hf, hcnt⟩ := h
  have hl' : liveInv (stepLifecycle t (SchedOp.release r)) :=
    liveInv_congr (stepOp t (Op.release r)) _ (liveInv_release t r hl hr) rfl rfl
  obtain ⟨n, hn1, hn2, _, hn4⟩ := hl.2 r hr
  have hspec := callbackRelease_spec t.sched r n hn2
  refine ⟨hl', ?_, ?_, ?_, ?_, ?_⟩
  · intro x hx
    exact ho x (List.mem_filter.mp hx).1
  · exact hnd.filter _
  · show (callbackRelease r t.sched).callbackTriggers < 2 ^ 32
    rw [hspec]; exact and_not32_lt _ _
  · show freeIffEmpty (callbackRelease r t.sched)
    rw [hspec]
    intro i hi
    show (((t.sched.callbackFree ||| shl1 (n : Int)) % 2 ^ 32).testBit i = true ↔
      Function.update t.sched.callbackEntries n callbackEmptyRec i = callbackEmptyRec)
    rw [testBit_set _ _ _ hn1 hi]
    by_cases e : i = n
    · subst e
      rw [Function.update_same]
      simp
    · rw [Function.update_noteq e]
      simpa [e] using hf i hi
  · show (t.live.filter (fun x => decide (x ≠ r))).length
      + freeCount (callbackRelease r t.sched) = 32
    rw [hspec]
    have hflip := descBits_length_flip t.sched.callbackFree
      ((t.sched.callbackFree ||| shl1 (n : Int)) % 2 ^ 32) n 32 hn1 hn4
      (by rw [testBit_set _ _ _ hn1 hn1]; simp)
      (fun j hj hne => by rw [testBit_set _ _ _ hn1 hj]; simp [hne])
    have hlen := filter_ne_length t.live r hnd hr
    unfold freeCount at hcnt ⊢
    show (t.live.filter (fun x => decide (x ≠ r))).length
      + (descBits ((t.sched.callbackFree ||| shl1 (n : Int)) % 2 ^ 32) 32).length = 32
    omega

theorem lifecycleInv_trigger (t : Run) (r : RecPtr) (h : lifecycleInv t) :
    lifecycleInv (stepLifecycle t (SchedOp.trigger r)) := by
  obtain ⟨hl, ho, hnd, _, hf, hcnt⟩ := h
  refine ⟨?_, ho, hnd, Nat.mod_lt _ (by decide), ?_, hcnt⟩
  · unfold liveInv at hl ⊢
    exact hl
  · exact hf

theorem lifecycleInv_handler (t : Run) (h : lifecycleInv t) :
    lifecycleInv (stepLifecycle t SchedOp.handler) := by
  obtain ⟨hl, ho, hnd, hw, hf, hcnt⟩ := h
  obtain ⟨e1, e2, e3, e4⟩ := handlerStep_spec t.sched
  refine ⟨?_, ho, hnd, ?_, ?_, ?_⟩
  · unfold liveInv at hl ⊢
    show (handlerStep t.sched).callbackFree < 2 ^ 32 ∧ ∀ r ∈ t.live, ∃ n : Nat, n < 32 ∧
      ((handlerStep t.sched).mem r).id = (n : Int) ∧
      (handlerStep t.sched).callbackEntries n = r ∧
      (handlerStep t.sched).callbackFree.testBit n = false
    rw [e1, e2, e3]
    exact hl
  · show (handlerStep t.sched).callbackTriggers < 2 ^ 32
    rcases e4 with e | e
    · rw [e]; decide
    · rw [e]; exact hw
  · show freeIffEmpty (handlerStep t.sched)
    unfold freeIffEmpty at hf ⊢
    rw [e1, e2]
    exact hf
  · show t.live.length + freeCount (handlerStep t.sched) = 32
    unfold freeCount at hcnt ⊢
    rw [e2]
    exact hcnt

theorem stepLifecycle_valid_mono (ops : List SchedOp) : ∀ u : Run,
    (ops.foldl stepLifecycle u).valid = true → u.valid = true := by
  induction ops with
  | nil => intro u hu; exact hu
  | cons o l ih =>
    intro u hu
    rw [List.foldl_cons] at hu
    have := ih _ hu
    cases o with
    | register r fn =>
      simp only [stepLifecycle, Bool.and_eq_true] at this
      exact this.1.1
    | release r =>
      simp only [stepLifecycle, Bool.and_eq_true] at this
      exact this.1
    | trigger r => exact this
    | handler => exact this

theorem lifecycleInv_foldl (ops : List SchedOp) : ∀ t : Run, lifecycleInv t →
    (ops.foldl stepLifecycle t).valid = true → lifecycleInv (ops.foldl stepLifecycle t) := by
  induction ops with
  | nil => intro t h _; exact h
  | cons op ops ih =>
    intro t h hv
    rw [List.foldl_cons] at hv ⊢
    apply ih _ _ hv
    have hst := stepLifecycle_valid_mono ops _ hv
    cases op with
    | register r fn =>
      simp only [stepLifecycle, Bool.and_eq_true, decide_eq_true_eq] at hst
      exact lifecycleInv_register t r fn h hst.1.2 hst.2
    | release r =>
      simp only [stepLifecycle, Bool.and_eq_true, decide_eq_true_eq] at hst
      exact lifecycleInv_release t r h hst.2
    | trigger r => exact lifecycleInv_trigger t r h
    | handler => exact lifecycleInv_handler t h

/-- C24 as stated fails.  After `callbackInit`, registering the shared
no-op record itself leaves slot 0 not free with the no-op record as its table
entry; and registering one record twice takes two slots for one live record
(30 free bits set), so that after its release no record is live while 31 free
bits are set. -/
theorem free_bits_do_not_count_live_records :
    ¬ freeIffEmpty (runLifecycle bootSched [SchedOp.register callbackEmptyRec 5]).sched ∧
    ((runLifecycle bootSched
        [SchedOp.register (RecPtr.user 1) 11, SchedOp.register (RecPtr.user 1) 11]).live.dedup.length
        = 1 ∧
      freeCount (runLifecycle bootSched
        [SchedOp.register (RecPtr.user 1) 11, SchedOp.register (RecPtr.user 1) 11]).sched = 30) ∧
    ((runLifecycle bootSched
        [SchedOp.register (RecPtr.user 1) 11, SchedOp.register (RecPtr.user 1) 11,
         SchedOp.release (RecPtr.user 1)]).live = [] ∧
      freeCount (runLifecycle bootSched
        [SchedOp.register (RecPtr.user 1) 11, SchedOp.register (RecPtr.user 1) 11,
         SchedOp.release (RecPtr.user 1)]).sched = 31) := by
  refine ⟨by decide, ⟨by decide, by decide⟩, ⟨by decide, by decide⟩⟩

/-- C24 as amended: in every state reached from `callbackInit` by
`callbackRegister` of caller-owned records not live at that moment,
`callbackRelease` of records live at that moment, `callbackTrigger` of any
record and runs of the deferred handler, a slot's free bit is set exactly
when its table entry is the shared no-op record; the live records are
distinct and their number is 32 minus the number of set free bits; and the
deferred handler run in that state returns, making every call for a free slot
through the shared no-op record. -/
theorem free_bit_iff_empty_entry (s0 : Sched) (ops : List SchedOp)
    (hvalid : (runLifecycle s0 ops).valid = true) :
    freeIffEmpty (runLifecycle s0 ops).sched ∧
    (runLifecycle s0 ops).live.Nodup ∧
    (runLifecycle s0 ops).live.length = 32 - freeCount (runLifecycle s0 ops).sched ∧
    ∃ s1 log, callbackCall idleInvoke 32 (runLifecycle s0 ops).sched = some (s1, log) ∧
      ∀ c ∈ log, (runLifecycle s0 ops).sched.callbackFree.testBit c.idx = true →
        c.self = callbackEmptyRec := by
  have hinv : lifecycleInv (runLifecycle s0 ops) :=
    lifecycleInv_foldl ops _ (lifecycleInv_init s0) hvalid
  obtain ⟨_, _, hnd, hw, hf, hcnt⟩ := hinv
  refine ⟨hf, hnd, by omega, ?_⟩
  obtain ⟨s1, log, h1, _, h3, h4, _⟩ :=
    callbackCall_spec idleInvoke (fun _ _ _ => rfl) 32 32 _ (Nat.le_refl _) (Nat.le_refl _) hw
  refine ⟨s1, log, h1, ?_⟩
  intro c hc hfree
  have hidx : c.idx < 32 := by
    have : c.idx ∈ log.map Call.idx := List.mem_map_of_mem _ hc
    rw [h3] at this
    exact ((mem_descBits _ _ _).mp this).1
  rw [h4 (fun _ _ _ => rfl) c hc]
  exact (hf c.idx hidx).mp hfree

/-- Witness for C24 as amended: three records registered, a trigger, one
release, a trigger of the released record, the handler, a fourth
registration. -/
theorem free_bit_iff_empty_entry_witness :
    (runLifecycle bootSched
      [SchedOp.register (RecPtr.user 1) 11, SchedOp.register (RecPtr.user 2) 12,
       SchedOp.register (RecPtr.user 3) 13, SchedOp.trigger (RecPtr.user 2),
       SchedOp.release (RecPtr.user 2), SchedOp.trigger (RecPtr.user 2), SchedOp.handler,
       SchedOp.register (RecPtr.user 4) 14]).valid = true ∧
    freeCount (runLifecycle bootSched
      [SchedOp.register (RecPtr.user 1) 11, SchedOp.register (RecPtr.user 2) 12,
       SchedOp.register (RecPtr.user 3) 13, SchedOp.trigger (RecPtr.user 2),
       SchedOp.release (RecPtr.user 2), SchedOp.trigger (RecPtr.user 2), SchedOp.handler,
       SchedOp.register (RecPtr.user 4) 14]).sched = 29 ∧
    freeIffEmpty (runLifecycle bootSched
      [SchedOp.register (RecPtr.user 1) 11, SchedOp.register (RecPtr.user 2) 12,
       SchedOp.register (RecPtr.user 3) 13, SchedOp.trigger (RecPtr.user 2),
       SchedOp.release (RecPtr.user 2), SchedOp.trigger (RecPtr.user 2), SchedOp.handler,
       SchedOp.register (RecPtr.user 4) 14]).sched :=
  ⟨by decide, by decide, (free_bit_iff_empty_entry bootSched _ (by decide)).1⟩


end Cleanflight
